import Mathlib

/-!
# gestor-facturas: the dashboard, the record store, the form and the storage

A shallow embedding of `src/components/Dashboard.jsx` (the `useMemo` bodies
`filteredInvoices`, `stats`, `monthlyData`, `trendData`, `topClients`), of the
handlers and effects of `src/pages/HomePage.jsx`, of the validation of
`src/components/InvoiceForm.jsx`, of the filter of
`src/components/InvoiceTable.jsx` and of `src/utils/storage.js`, together with
the JavaScript and browser primitives they call.

Modelling conventions

* JavaScript numbers are exact: a finite number is a rational, next to `NaN`
  and the two infinities. This is what IEEE doubles do on the integers below
  `2 ^ 53`; the rounding of doubles beyond that and the sign of zero are not
  modelled (every zero that reaches a division here is `+0`: the totals are
  sums that start from `0`, and `x - x` is `+0`).
* The one place where the rounding of doubles changes a result on small
  integers is `paidPercentage`, the product `(paid / length) * 100` under
  `Math.round`: both operations round, and the product can fall just below a
  half that the exact product reaches (23 paid of 40 is `57.49999999999999`
  and is shown as 57). There the quotient and the product are rounded to 53
  significant bits, ties to even (`JSNum.toDouble`). A single quotient of
  integers under `Math.round`, as in `avgInvoice`, is kept exact: below
  `2 ^ 52` a half-integer is a double and the quotient is farther from the
  nearest half-integer than the rounding moves it.
* An amount (`monto`) is a JavaScript value: missing, `null`, an integer
  number or a string. `Number::toString` of an integer is its decimal
  expansion, as it is below `10 ^ 21`.
* A `Date` is a local midnight, kept as its calendar fields; `Invalid Date`
  is `none`. Time values of local midnights are ordered as the calendar
  dates are, which is the order used for `<=` and `>=`.
* `parseISO` covers the form `YYYY-MM-DD`, which is what the date inputs and
  `format(_, 'yyyy-MM-dd')` produce.
* `localStorage` is the one slot under `STORAGE_KEY`, with the texts that
  `setItem` accepts. A text is a sequence of Unicode characters; a string with
  a surrogate that has no partner is outside the model. `JSON.parse` is the
  full grammar of JSON; `JSON.stringify` is modelled on collections of
  records, the only values the code passes to it.
-/

namespace Facturas

/-! ## JavaScript numbers -/

/-- A JavaScript number: a finite value, `NaN`, `Infinity` or `-Infinity`. -/
inductive JSNum where
  | fin (q : ℚ)
  | nan
  | posInf
  | negInf
deriving DecidableEq

namespace JSNum

/-- The number of a natural number, such as an array length. -/
def ofNat (n : Nat) : JSNum := fin (n : ℚ)

/-- The number of an integer. -/
def ofInt (n : Int) : JSNum := fin (n : ℚ)

/-- JavaScript `a + b` on numbers. -/
def add : JSNum → JSNum → JSNum
  | fin a, fin b => fin (a + b)
  | nan, _ => nan
  | _, nan => nan
  | posInf, negInf => nan
  | negInf, posInf => nan
  | posInf, _ => posInf
  | _, posInf => posInf
  | negInf, _ => negInf
  | _, negInf => negInf

/-- JavaScript unary minus. -/
def neg : JSNum → JSNum
  | fin a => fin (-a)
  | nan => nan
  | posInf => negInf
  | negInf => posInf

/-- JavaScript `a - b` on numbers. -/
def sub (a b : JSNum) : JSNum := add a (neg b)

/-- The infinity with the sign of `s`, for `s ≠ 0`. -/
def infOfSign (s : ℚ) : JSNum := if 0 < s then posInf else negInf

/-- JavaScript `a * b` on numbers. -/
def mul : JSNum → JSNum → JSNum
  | fin a, fin b => fin (a * b)
  | nan, _ => nan
  | _, nan => nan
  | fin a, posInf => if a = 0 then nan else infOfSign a
  | fin a, negInf => if a = 0 then nan else infOfSign (-a)
  | posInf, fin b => if b = 0 then nan else infOfSign b
  | negInf, fin b => if b = 0 then nan else infOfSign (-b)
  | posInf, posInf => posInf
  | negInf, negInf => posInf
  | posInf, negInf => negInf
  | negInf, posInf => negInf

/-- JavaScript `a / b` on numbers; a zero divisor is `+0`. -/
def div : JSNum → JSNum → JSNum
  | fin a, fin b =>
    if b = 0 then (if a = 0 then nan else infOfSign a) else fin (a / b)
  | nan, _ => nan
  | _, nan => nan
  | fin _, posInf => fin 0
  | fin _, negInf => fin 0
  | posInf, fin b => if 0 ≤ b then posInf else negInf
  | negInf, fin b => if 0 ≤ b then negInf else posInf
  | posInf, posInf => nan
  | posInf, negInf => nan
  | negInf, posInf => nan
  | negInf, negInf => nan

/-- The integer nearest to `q`, a tie going up: `⌊q + 1/2⌋`. -/
def roundHalfUp (q : ℚ) : ℤ := ⌊q + 1 / 2⌋

/-- JavaScript `Math.round`. -/
def round : JSNum → JSNum
  | fin q => fin (roundHalfUp q)
  | nan => nan
  | posInf => posInf
  | negInf => negInf

/-- The binary logarithm of a positive natural number, rounded down, by
repeated halving; `fuel` bounds the number of halvings. -/
def log2Loop : Nat → Nat → Nat
  | 0, _ => 0
  | fuel + 1, n => if n < 2 then 0 else log2Loop fuel (n / 2) + 1

/-- The binary exponent `e` of a rational `q ≠ 0`: `2 ^ e ≤ |q| < 2 ^ (e + 1)`.
The difference of the logarithms of numerator and denominator is `e` or
`e + 1`. -/
def binade (q : ℚ) : ℤ :=
  let e : ℤ := (log2Loop q.num.natAbs q.num.natAbs : ℤ) - (log2Loop q.den q.den : ℤ)
  if (2 : ℚ) ^ e ≤ |q| then e else e - 1

/-- The integer nearest to `q`, a tie going to the even one. -/
def roundHalfEven (q : ℚ) : ℤ :=
  if q - ⌊q⌋ < 1 / 2 then ⌊q⌋
  else if 1 / 2 < q - ⌊q⌋ then ⌊q⌋ + 1
  else if ⌊q⌋ % 2 = 0 then ⌊q⌋ else ⌊q⌋ + 1

/-- The double nearest to `q` (IEEE 754 binary64, round to nearest, ties to
even): `q` is scaled to a significand between `2 ^ 52` and `2 ^ 53`, which is
rounded to an integer. The range of the exponent is not modelled: no value
rounded here is near the largest or the smallest double. -/
def toDouble (q : ℚ) : ℚ :=
  if q = 0 then 0
  else (roundHalfEven (q / (2 : ℚ) ^ (binade q - 52)) : ℚ) * (2 : ℚ) ^ (binade q - 52)

/-- The result of an arithmetic operation as the double that holds it. -/
def double : JSNum → JSNum
  | fin q => fin (toDouble q)
  | nan => nan
  | posInf => posInf
  | negInf => negInf

end JSNum

/-! ## JavaScript values and `parseInt` -/

/-- The JavaScript values an invoice field can hold after `JSON.parse` or
after the form wrote it. -/
inductive JSValue where
  | undefined
  | null
  | number (n : Int)
  | string (s : String)
deriving DecidableEq

/-- ECMAScript `ToBoolean`: the value counts as true in `a || b` and `!a`. -/
def JSValue.truthy : JSValue → Bool
  | .undefined => false
  | .null => false
  | .number n => n != 0
  | .string s => s != ""

/-- JavaScript `a || b`. -/
def JSValue.or (a b : JSValue) : JSValue := if a.truthy then a else b

/-- ECMAScript `StrWhiteSpaceChar`: white space and line terminators. -/
def isStrWhiteSpaceChar (c : Char) : Bool :=
  let n := c.toNat
  n = 0x09 || n = 0x0A || n = 0x0B || n = 0x0C || n = 0x0D || n = 0x20 ||
  n = 0xA0 || n = 0x1680 || (0x2000 ≤ n && n ≤ 0x200A) || n = 0x2028 ||
  n = 0x2029 || n = 0x202F || n = 0x205F || n = 0x3000 || n = 0xFEFF

/-- The value of a character as a digit of a radix up to 36. -/
def digitValue (c : Char) : Option Nat :=
  let n := c.toNat
  if 48 ≤ n ∧ n ≤ 57 then some (n - 48)
  else if 97 ≤ n ∧ n ≤ 122 then some (n - 97 + 10)
  else if 65 ≤ n ∧ n ≤ 90 then some (n - 65 + 10)
  else none

/-- The digit values of the longest run of radix-`R` digits that starts the
text. -/
def takeDigits (R : Nat) : List Char → List Nat
  | [] => []
  | c :: cs =>
    match digitValue c with
    | some d => if d < R then d :: takeDigits R cs else []
    | none => []

/-- The integer a list of radix-`R` digit values writes. -/
def mathInt (R : Nat) (ds : List Nat) : Nat :=
  ds.foldl (fun acc d => acc * R + d) 0

/-- The sign that starts a text: `-1` after a minus, else `1`. -/
def signOf : List Char → Int
  | '-' :: _ => -1
  | _ => 1

/-- The text after its sign character, when it starts with one. -/
def dropSign : List Char → List Char
  | '-' :: r => r
  | '+' :: r => r
  | s => s

/-- The radix of a text with no radix argument: 16 after `0x` or `0X`, else
10. -/
def radixOf : List Char → Nat
  | '0' :: 'x' :: _ => 16
  | '0' :: 'X' :: _ => 16
  | _ => 10

/-- The text after its `0x` or `0X`, when it starts with one. -/
def dropRadixMark : List Char → List Char
  | '0' :: 'x' :: r => r
  | '0' :: 'X' :: r => r
  | s => s

/-- ECMAScript `parseInt(string)` with no radix argument, on the characters of
the string: leading white space is dropped, then an optional sign, then an
optional `0x` or `0X` (radix 16, else radix 10), then the longest run of
digits is read; `NaN` when that run is empty. -/
def parseIntChars (cs : List Char) : JSNum :=
  let s1 := cs.dropWhile isStrWhiteSpaceChar
  let sign := signOf s1
  let s2 := dropSign s1
  let R := radixOf s2
  let s3 := dropRadixMark s2
  let Z := takeDigits R s3
  if Z.isEmpty then JSNum.nan else JSNum.ofInt (sign * (mathInt R Z : Int))

/-- ECMAScript `Number::toString` of an integer: its decimal expansion. -/
def numberToString (n : Int) : String :=
  if n < 0 then "-" ++ Nat.repr n.natAbs else Nat.repr n.natAbs

/-- ECMAScript `ToString` of a value. -/
def JSValue.toStr : JSValue → String
  | .undefined => "undefined"
  | .null => "null"
  | .number n => numberToString n
  | .string s => s

/-- JavaScript `parseInt(v)`: the value is converted to a string first. -/
def parseInt (v : JSValue) : JSNum := parseIntChars v.toStr.toList

/-! ## Invoices -/

/-- An invoice record as the form builds it and `localStorage` keeps it. -/
structure Invoice where
  id : JSValue
  numero : String
  fecha : String
  cliente : String
  monto : JSValue
  estado : String
  notas : String
deriving DecidableEq

/-- The summand of every total: `parseInt(inv.monto || 0)`. -/
def montoOf (inv : Invoice) : JSNum := parseInt (inv.monto.or (.number 0))

/-- The reduction `xs.reduce((sum, inv) => sum + parseInt(inv.monto || 0), 0)`. -/
def sumMontos (xs : List Invoice) : JSNum :=
  xs.foldl (fun sum inv => JSNum.add sum (montoOf inv)) (JSNum.ofNat 0)

/-! ## Dates (`date-fns`) -/

/-- A JavaScript `Date` at a local midnight, by its calendar fields:
`getFullYear()`, `getMonth()` (0 to 11) and `getDate()`. -/
structure Date where
  year : Nat
  month : Nat
  day : Nat
deriving DecidableEq

/-- The order of the time values of two local midnights. -/
def Date.le (a b : Date) : Prop :=
  a.year < b.year ∨ (a.year = b.year ∧
    (a.month < b.month ∨ (a.month = b.month ∧ a.day ≤ b.day)))

instance : LE Date := ⟨Date.le⟩

instance (a b : Date) : Decidable (a ≤ b) := by
  unfold LE.le instLEDate Date.le
  exact inferInstance

/-- JavaScript `a <= b` on two `Date` objects: false when either is
`Invalid Date`, whose time value is `NaN`. -/
def dateLe : Option Date → Option Date → Bool
  | some a, some b => decide (a ≤ b)
  | _, _ => false

/-- JavaScript `a >= b` on two `Date` objects. -/
def dateGe (a b : Option Date) : Bool := dateLe b a

/-- The leap-year test of `date-fns` (`isLeapYearIndex`). -/
def isLeapYearIndex (year : Nat) : Bool :=
  year % 400 = 0 || (year % 4 = 0 && year % 100 ≠ 0)

/-- The number of days of month `month` (0 to 11) of `year`. -/
def daysInMonth (year month : Nat) : Nat :=
  match month with
  | 1 => if isLeapYearIndex year then 29 else 28
  | 3 => 30
  | 5 => 30
  | 8 => 30
  | 10 => 30
  | _ => 31

/-- The check `validateDate` of `parseISO`, on a month index and a day. -/
def validateDate (year month day : Nat) : Bool :=
  month ≤ 11 && 1 ≤ day && day ≤ daysInMonth year month

/-- The value of a decimal digit character. -/
def decimalDigit (c : Char) : Option Nat :=
  let n := c.toNat
  if 48 ≤ n ∧ n ≤ 57 then some (n - 48) else none

/-- The year, month number (1 to 12) and day that a text of the form
`YYYY-MM-DD` writes. -/
def splitDateString (cs : List Char) : Option (Nat × Nat × Nat) :=
  match cs with
  | [y1, y2, y3, y4, '-', m1, m2, '-', d1, d2] =>
    match decimalDigit y1, decimalDigit y2, decimalDigit y3, decimalDigit y4,
      decimalDigit m1, decimalDigit m2, decimalDigit d1, decimalDigit d2 with
    | some a, some b, some c, some d, some e, some f, some g, some h =>
      some (a * 1000 + b * 100 + c * 10 + d, e * 10 + f, g * 10 + h)
    | _, _, _, _, _, _, _, _ => none
  | _ => none

/-- The function `parseISO` of `date-fns` on a date-only text: the local
midnight of that day, or `Invalid Date` when the text is not a date of the
calendar. -/
def parseISO (s : String) : Option Date :=
  match splitDateString s.toList with
  | some (year, monthNumber, day) =>
    if 1 ≤ monthNumber ∧ validateDate year (monthNumber - 1) day then
      some ⟨year, monthNumber - 1, day⟩
    else none
  | none => none

/-- The function `startOfMonth` of `date-fns`. -/
def startOfMonth (d : Date) : Date := ⟨d.year, d.month, 1⟩

/-- The function `endOfMonth` of `date-fns`: the last day of the month (its
last millisecond, which no local midnight of a later day precedes). -/
def endOfMonth (d : Date) : Date := ⟨d.year, d.month, daysInMonth d.year d.month⟩

/-- The effect of `d.setMonth(d.getMonth() + 1)` on a first day of a month. -/
def nextMonth (d : Date) : Date :=
  if d.month + 1 < 12 then ⟨d.year, d.month + 1, d.day⟩ else ⟨d.year + 1, 0, d.day⟩

/-- The loop of `eachMonthOfInterval`:
`while (currentDate.getTime() <= endTime) { dates.push(currentDate); currentDate.setMonth(currentDate.getMonth() + 1) }`,
run for at most `fuel` rounds. -/
def eachMonthLoop : Nat → Date → Date → List Date
  | 0, _, _ => []
  | fuel + 1, currentDate, endDate =>
    if currentDate ≤ endDate then
      currentDate :: eachMonthLoop fuel (nextMonth currentDate) endDate
    else []

/-- The position of the month of a date on the line of all months. -/
def monthIndex (d : Date) : Nat := d.year * 12 + d.month

/-- The function `eachMonthOfInterval` of `date-fns`: the first day of every
month from the month of `start` to the month of `end`. It throws a
`RangeError` (here `none`) when a bound is `Invalid Date` or the start is
after the end. The loop gets one round per month of the interval. -/
def eachMonthOfInterval (start endDate : Option Date) : Option (List Date) :=
  match start, endDate with
  | some s, some e =>
    if s ≤ e then
      some (eachMonthLoop (monthIndex e + 1 - monthIndex s) (startOfMonth s) e)
    else none
  | _, _ => none

/-- The call `new Date(Math.min(...dates))`: the earliest of the dates,
`Invalid Date` when one of them is invalid or there is none. -/
def minDate : List (Option Date) → Option Date
  | [] => none
  | d :: ds =>
    ds.foldl (fun acc x =>
      match acc, x with
      | some a, some b => some (if b ≤ a then b else a)
      | _, _ => none) d

/-- The call `new Date(Math.max(...dates))`: the latest of the dates. -/
def maxDate : List (Option Date) → Option Date
  | [] => none
  | d :: ds =>
    ds.foldl (fun acc x =>
      match acc, x with
      | some a, some b => some (if a ≤ b then b else a)
      | _, _ => none) d

/-- The abbreviated month names of the locale `es` of `date-fns`. -/
def monthAbbreviated (month : Nat) : String :=
  match month with
  | 0 => "ene"
  | 1 => "feb"
  | 2 => "mar"
  | 3 => "abr"
  | 4 => "may"
  | 5 => "jun"
  | 6 => "jul"
  | 7 => "ago"
  | 8 => "sep"
  | 9 => "oct"
  | 10 => "nov"
  | _ => "dic"

/-- The function `addLeadingZeros` of `date-fns`. -/
def addLeadingZeros (n targetLength : Nat) : String :=
  let output := Nat.repr n
  String.mk (List.replicate (targetLength - output.length) '0') ++ output

/-- The call `format(month, 'MMM yyyy', { locale: es })`; the token `yyyy`
writes the year of the era, so the year 0 is written as 1. -/
def formatMonth (d : Date) : String :=
  monthAbbreviated d.month ++ " " ++
    addLeadingZeros (if 0 < d.year then d.year else 1 - d.year) 4

/-! ## The dashboard (`Dashboard.jsx`) -/

/-- The period filter `filteredInvoices` of the dashboard. -/
def filteredInvoices (invoices : List Invoice)
    (periodFilter customStartDate customEndDate : String) : List Invoice :=
  if periodFilter = "all" ∨ customStartDate = "" ∨ customEndDate = "" then
    invoices
  else
    let start := parseISO customStartDate
    let endDate := parseISO customEndDate
    invoices.filter (fun invoice =>
      let invoiceDate := parseISO invoice.fecha
      dateGe invoiceDate start && dateLe invoiceDate endDate)

/-- The summary statistics. The fields `totalFormatted` and the text form of
`avgInvoice` are renderings by `toLocaleString` and are left out; `avgInvoice`
is the number that the source formats. -/
structure Stats where
  total : JSNum
  count : Nat
  paid : Nat
  pending : Nat
  overdue : Nat
  avgInvoice : JSNum
  paidPercentage : JSNum
deriving DecidableEq

/-- The summary statistics `stats` of the dashboard. In `paidPercentage` the
quotient `paid / length` and its product with 100 are doubles, each rounded
before `Math.round` sees the result. -/
def stats (filteredInvoices : List Invoice) : Stats :=
  let total := sumMontos filteredInvoices
  let paid := (filteredInvoices.filter (fun inv => inv.estado = "pagado")).length
  let pending := (filteredInvoices.filter (fun inv => inv.estado = "pendiente")).length
  let overdue := (filteredInvoices.filter (fun inv => inv.estado = "vencida")).length
  let avgInvoice :=
    if filteredInvoices.length > 0 then
      JSNum.round (JSNum.div total (JSNum.ofNat filteredInvoices.length))
    else JSNum.ofNat 0
  { total := total
    count := filteredInvoices.length
    paid := paid
    pending := pending
    overdue := overdue
    avgInvoice := avgInvoice
    paidPercentage :=
      if filteredInvoices.length > 0 then
        JSNum.round (JSNum.double (JSNum.mul
          (JSNum.double (JSNum.div (JSNum.ofNat paid) (JSNum.ofNat filteredInvoices.length)))
          (JSNum.ofNat 100)))
      else JSNum.ofNat 0 }

/-- The statistics the dashboard shows for a collection and a window. -/
def dashboardStats (invoices : List Invoice)
    (periodFilter customStartDate customEndDate : String) : Stats :=
  stats (filteredInvoices invoices periodFilter customStartDate customEndDate)

/-- One bucket of the monthly series. -/
structure MonthBucket where
  month : String
  total : JSNum
  pagado : JSNum
  pendiente : JSNum
  count : Nat
deriving DecidableEq

/-- The invoices of one month: the filter inside `monthlyData`. -/
def monthInvoices (filteredInvoices : List Invoice) (month : Date) : List Invoice :=
  let monthStart := startOfMonth month
  let monthEnd := endOfMonth month
  filteredInvoices.filter (fun inv =>
    let invoiceDate := parseISO inv.fecha
    dateGe invoiceDate (some monthStart) && dateLe invoiceDate (some monthEnd))

/-- The body of `months.map(month => ...)` in `monthlyData`. -/
def monthBucket (filteredInvoices : List Invoice) (month : Date) : MonthBucket :=
  let monthInvoices := monthInvoices filteredInvoices month
  let total := sumMontos monthInvoices
  let paid := sumMontos (monthInvoices.filter (fun inv => inv.estado = "pagado"))
  { month := formatMonth month
    total := total
    pagado := paid
    pendiente := JSNum.sub total paid
    count := monthInvoices.length }

/-- The monthly series `monthlyData` of the dashboard; `none` when
`eachMonthOfInterval` throws. -/
def monthlyData (filteredInvoices : List Invoice) : Option (List MonthBucket) :=
  if filteredInvoices.length = 0 then some []
  else
    let dates := filteredInvoices.map (fun inv => parseISO inv.fecha)
    let months := eachMonthOfInterval (minDate dates) (maxDate dates)
    months.map (fun ms => ms.map (monthBucket filteredInvoices))

/-- One point of the trend series: a bucket and its growth. -/
structure TrendPoint where
  item : MonthBucket
  crecimiento : JSNum
deriving DecidableEq

/-- The value of `parseFloat(x.toFixed(1))`: `toFixed(1)` writes the tenth
nearest to `x`, a tie going away from zero, and writes `NaN` and the
infinities by name; `parseFloat` reads each of these texts back. -/
def toFixed1 : JSNum → JSNum
  | JSNum.fin q =>
    if q < 0 then JSNum.fin (-((⌊-q * 10 + 1 / 2⌋ : ℤ) : ℚ) / 10)
    else JSNum.fin (((⌊q * 10 + 1 / 2⌋ : ℤ) : ℚ) / 10)
  | JSNum.nan => JSNum.nan
  | JSNum.posInf => JSNum.posInf
  | JSNum.negInf => JSNum.negInf

/-- The list `xs.map((item, index) => f(item, index))`, the index counted
from `i`. -/
def mapWithIndex {α β : Type} (f : α → Nat → β) : Nat → List α → List β
  | _, [] => []
  | i, x :: xs => f x i :: mapWithIndex f (i + 1) xs

/-- The element `xs[i].total` of the monthly series (`NaN` stands for the
read of a missing element, which `trendData` never does). -/
def totalAt (monthlyData : List MonthBucket) (i : Nat) : JSNum :=
  match monthlyData.get? i with
  | some b => b.total
  | none => JSNum.nan

/-- The trend series `trendData` of the dashboard. -/
def trendData (monthlyData : List MonthBucket) : List TrendPoint :=
  if monthlyData.length < 2 then []
  else
    mapWithIndex (fun item index =>
      let previous := if index > 0 then totalAt monthlyData (index - 1) else item.total
      let growth :=
        if index > 0 then
          toFixed1 (JSNum.mul (JSNum.div (JSNum.sub item.total previous) previous)
            (JSNum.ofNat 100))
        else JSNum.ofNat 0
      { item := item, crecimiento := growth }) 0 monthlyData

/-- One entry of the client map of `topClients`. -/
structure ClientGroup where
  cliente : String
  total : JSNum
  count : Nat
  pagado : JSNum
  pendiente : JSNum
deriving DecidableEq

/-- The names that every plain object inherits from `Object.prototype`; each
of them holds a function or an object, which counts as true. -/
def objectPrototypeKeys : List String :=
  ["constructor", "__defineGetter__", "__defineSetter__", "hasOwnProperty",
    "__lookupGetter__", "__lookupSetter__", "isPrototypeOf", "propertyIsEnumerable",
    "toString", "valueOf", "__proto__", "toLocaleString"]

/-- The own properties of the object `clientMap`, in the order of their
creation. -/
abbrev ClientMap := List (String × ClientGroup)

/-- The object has an own property of that name. -/
def hasOwn (clientMap : ClientMap) (key : String) : Bool :=
  clientMap.any (fun entry => entry.1 = key)

/-- The test `!clientMap[key]` fails: the read finds an own group or a member
inherited from `Object.prototype`. -/
def readsTruthy (clientMap : ClientMap) (key : String) : Bool :=
  hasOwn clientMap key || decide (key ∈ objectPrototypeKeys)

/-- The body of `filteredInvoices.forEach(invoice => ...)` in `topClients`.
The assignments to `clientMap[key].total` and the other fields change the own
group of that name; when the read finds an inherited member instead, they
write on that member and no own property changes. -/
def addInvoice (clientMap : ClientMap) (invoice : Invoice) : ClientMap :=
  let created :=
    if readsTruthy clientMap invoice.cliente then clientMap
    else clientMap ++ [(invoice.cliente,
      { cliente := invoice.cliente
        total := JSNum.ofNat 0
        count := 0
        pagado := JSNum.ofNat 0
        pendiente := JSNum.ofNat 0 })]
  let monto := montoOf invoice
  created.map (fun entry =>
    if entry.1 = invoice.cliente then
      (entry.1,
        { cliente := entry.2.cliente
          total := JSNum.add entry.2.total monto
          count := entry.2.count + 1
          pagado :=
            if invoice.estado = "pagado" then JSNum.add entry.2.pagado monto
            else entry.2.pagado
          pendiente :=
            if invoice.estado = "pagado" then entry.2.pendiente
            else JSNum.add entry.2.pendiente monto })
    else entry)

/-- The array index that a property name writes: the name is the decimal text,
with no leading zero, of a number up to `2 ^ 32 - 2`. -/
def arrayIndexOf (key : String) : Option Nat :=
  let cs := key.toList
  let n := cs.foldl (fun acc c => acc * 10 + (c.toNat - 48)) 0
  if cs ≠ [] ∧ cs.all (fun c => (decimalDigit c).isSome) = true ∧
      (cs.head? ≠ some '0' ∨ cs.length = 1) ∧ n ≤ 4294967294 then
    some n
  else none

/-- The place of an indexed entry among entries already in ascending order of
index. -/
def insertByIndex (x : Nat × ClientGroup) : List (Nat × ClientGroup) → List (Nat × ClientGroup)
  | [] => [x]
  | y :: ys => if x.1 < y.1 then x :: y :: ys else y :: insertByIndex x ys

/-- The call `Object.values(clientMap)`: the own properties whose names are
array indices come first, in ascending order of index, then the others in the
order of their creation. -/
def objectValues (clientMap : ClientMap) : List ClientGroup :=
  let indexed := clientMap.filterMap (fun entry =>
    (arrayIndexOf entry.1).map (fun n => (n, entry.2)))
  let named := clientMap.filter (fun entry => (arrayIndexOf entry.1).isNone)
  ((indexed.foldr insertByIndex []).map (fun e => e.2)) ++ named.map (fun e => e.2)

/-- JavaScript `v > 0` on a number. -/
def JSNum.isPositive : JSNum → Bool
  | JSNum.fin q => decide (0 < q)
  | JSNum.posInf => true
  | _ => false

/-- The place of `x` in front of a sorted list: `x` moves behind each leading
element that the comparator puts before it (`compareFn(x, y) > 0`). -/
def insertSorted {α : Type} (compareFn : α → α → JSNum) (x : α) : List α → List α
  | [] => [x]
  | y :: ys =>
    if (compareFn x y).isPositive then y :: insertSorted compareFn x ys
    else x :: y :: ys

/-- The method `Array.prototype.sort(compareFn)`, which is stable: elements
that the comparator does not order keep their order. With a comparator that
orders the elements consistently, every stable sort returns this list; when
the comparator returns `NaN` the order is left to the implementation, and this
is one such order. -/
def arraySort {α : Type} (compareFn : α → α → JSNum) : List α → List α
  | [] => []
  | x :: xs => insertSorted compareFn x (arraySort compareFn xs)

/-- The object `clientMap` after the `forEach` of `topClients`. -/
def clientMapOf (filteredInvoices : List Invoice) : ClientMap :=
  filteredInvoices.foldl addInvoice []

/-- The ranking `topClients` of the dashboard. The last `map` adds the texts
`totalFormatted`, `pagadoFormatted` and `pendienteFormatted`, renderings by
`toLocaleString` that are left out. -/
def topClients (filteredInvoices : List Invoice) : List ClientGroup :=
  ((arraySort (fun a b => JSNum.sub b.total a.total)
    (objectValues (clientMapOf filteredInvoices))).take 5)

/-! ## The record store (`HomePage.jsx`) -/

/-- The state update of `handleSaveInvoice`. The value of `generateId()` and
the text of `new Date().toISOString().split('T')[0]` come from the clock and
the random source, and are passed in. -/
def handleSaveInvoice (generatedId today : String) (prevInvoices : List Invoice)
    (invoiceData : Invoice) : List Invoice :=
  if invoiceData.id.truthy then
    prevInvoices.map (fun inv => if inv.id = invoiceData.id then invoiceData else inv)
  else
    prevInvoices ++ [
      { id := JSValue.string generatedId
        numero := invoiceData.numero
        fecha := if invoiceData.fecha ≠ "" then invoiceData.fecha else today
        cliente := invoiceData.cliente
        monto := invoiceData.monto
        estado := invoiceData.estado
        notas := invoiceData.notas }]

/-- The state update of `handleDeleteInvoice`; the answer of `window.confirm`
is passed in. -/
def handleDeleteInvoice (confirmed : Bool) (prevInvoices : List Invoice) (id : JSValue) :
    List Invoice :=
  if confirmed then prevInvoices.filter (fun inv => inv.id ≠ id) else prevInvoices

/-- One user action on the record store: a save of the form (with the values
that `generateId()` and the clock would give) or a delete (with the answer of
the confirmation). -/
inductive StoreOp where
  | save (generatedId today : String) (invoiceData : Invoice)
  | delete (confirmed : Bool) (id : JSValue)

/-- The collection after one user action. -/
def applyOp (invoices : List Invoice) : StoreOp → List Invoice
  | StoreOp.save generatedId today invoiceData =>
    handleSaveInvoice generatedId today invoices invoiceData
  | StoreOp.delete confirmed id => handleDeleteInvoice confirmed invoices id

/-! ## The invoice form (`InvoiceForm.jsx`) -/

/-- The method `String.prototype.trim`, on the characters of the text. -/
def trimChars (cs : List Char) : List Char :=
  ((cs.dropWhile isStrWhiteSpaceChar).reverse.dropWhile isStrWhiteSpaceChar).reverse

/-- JavaScript `isNaN(v)` on a number. -/
def JSNum.isNaN : JSNum → Bool
  | JSNum.nan => true
  | _ => false

/-- JavaScript `v <= 0` on a number. -/
def JSNum.leZero : JSNum → Bool
  | JSNum.fin q => decide (q ≤ 0)
  | JSNum.negInf => true
  | _ => false

/-- The keys of `newErrors` that `validateForm` sets, in the order of the
tests. -/
def validationErrors (invoice : Invoice) : List String :=
  let montoNumero := parseInt invoice.monto
  (if trimChars invoice.numero.toList = [] then ["numero"] else []) ++
  (if invoice.fecha = "" then ["fecha"] else []) ++
  (if trimChars invoice.cliente.toList = [] then ["cliente"] else []) ++
  (if !invoice.monto.truthy || montoNumero.isNaN || montoNumero.leZero then ["monto"]
    else [])

/-- The result of `validateForm`: `Object.keys(newErrors).length === 0`. -/
def validateForm (invoice : Invoice) : Bool :=
  (validationErrors invoice).length = 0

/-- An ASCII digit. -/
def isAsciiDigit (c : Char) : Bool := decide (48 ≤ c.toNat) && decide (c.toNat ≤ 57)

/-- The natural number that a run of ASCII digits writes. -/
def decimalValue (ds : List Char) : Nat :=
  ds.foldl (fun acc c => acc * 10 + (c.toNat - 48)) 0

/-- The exponent of a floating-point text, read from what follows its
mantissa: nothing (exponent 0), or `e` or `E`, an optional sign and one or
more digits up to the end of the text; `none` for anything else. -/
def exponentPart : List Char → Option Int
  | [] => some 0
  | c :: r =>
    if c = 'e' ∨ c = 'E' then
      let negative := match r with
        | '-' :: _ => true
        | _ => false
      let ds := match r with
        | '-' :: t => t
        | '+' :: t => t
        | t => t
      if ds ≠ [] ∧ ds.all isAsciiDigit = true then
        some (if negative then -(decimalValue ds : Int) else (decimalValue ds : Int))
      else none
    else none

/-- HTML "valid floating-point number": an optional `-`, then digits, or
digits with `.` and digits, or `.` and digits, then an optional exponent. The
result is the number the text writes, `none` when the text is not of this
form. -/
def validFloatingPointNumber (s : List Char) : Option ℚ :=
  let negative := match s with
    | '-' :: _ => true
    | _ => false
  let s1 := match s with
    | '-' :: r => r
    | _ => s
  let intDigits := s1.takeWhile isAsciiDigit
  let s2 := s1.dropWhile isAsciiDigit
  let hasDot := match s2 with
    | '.' :: _ => true
    | _ => false
  let fracDigits := match s2 with
    | '.' :: r => r.takeWhile isAsciiDigit
    | _ => []
  let s3 := match s2 with
    | '.' :: r => r.dropWhile isAsciiDigit
    | _ => s2
  if (hasDot = true ∧ fracDigits = []) ∨ (hasDot = false ∧ intDigits = []) then none
  else
    match exponentPart s3 with
    | none => none
    | some e =>
      some ((if negative then -1 else 1) * (decimalValue (intDigits ++ fracDigits) : ℚ) *
        (10 : ℚ) ^ (e - (fracDigits.length : Int)))

/-- The text that React writes to the `value` of a controlled field: the
string of the state value; a missing value writes nothing, the field of a
freshly opened form is then empty. -/
def fieldText : JSValue → String
  | .undefined => ""
  | .null => ""
  | v => v.toStr

/-- HTML value sanitization of `<input type="number">`: a value that is no
valid floating-point number is replaced by the empty string. This is the value
the field holds, whether the text was typed or written by React from the
state. -/
def sanitizeNumberValue (text : String) : String :=
  if (validFloatingPointNumber text.toList).isSome then text else ""

/-- HTML constraint validation of the amount field, `type="number" step="1"
min="0"` without `required`: an empty value is valid; a number below `min`
suffers from an underflow, and a number that is not `min` plus a whole multiple
of `step` from a step mismatch. -/
def montoFieldValid (value : String) : Bool :=
  match validFloatingPointNumber value.toList with
  | none => true
  | some v => decide (0 ≤ v) && decide (((⌊v⌋ : ℤ) : ℚ) = v)

/-- The record that a press of the submit button passes to `saveInvoice`, if
any. The form has no `noValidate`, so the browser validates its fields first
and fires the `submit` event only when they are valid; of the fields only the
amount has constraints. The handler `handleSubmit` then calls `saveInvoice`
with the state when `validateForm` returns true. The state is what
`handleChange` took from the fields, or the record opened for editing
(`setInvoice(invoiceToEdit)`). -/
def handleSubmit (invoice : Invoice) : Option Invoice :=
  if montoFieldValid (sanitizeNumberValue (fieldText invoice.monto)) then
    (if validateForm invoice then some invoice else none)
  else none

/-! ## The window of the dashboard as a state machine -/

/-- The state of the period filter: `periodFilter`, `customStartDate` and
`customEndDate`. -/
structure PeriodState where
  periodFilter : String
  customStartDate : String
  customEndDate : String
deriving DecidableEq

/-- The texts `format(d, 'yyyy-MM-dd')` that the clock gives for today and for
`subMonths(today, 1)`, `subMonths(today, 3)` and `subMonths(today, 12)`. -/
structure Clock where
  today : String
  monthAgo : String
  quarterAgo : String
  yearAgo : String

/-- The state after `handlePeriodChange(period)`. -/
def handlePeriodChange (clock : Clock) (period : String) (_s : PeriodState) : PeriodState :=
  if period = "month" then ⟨period, clock.monthAgo, clock.today⟩
  else if period = "quarter" then ⟨period, clock.quarterAgo, clock.today⟩
  else if period = "year" then ⟨period, clock.yearAgo, clock.today⟩
  else ⟨period, "", ""⟩

/-- The body of the effect that sets the default dates. -/
def defaultDatesEffect (clock : Clock) (invoices : List Invoice) (s : PeriodState) :
    PeriodState :=
  if invoices.length > 0 ∧ s.customStartDate = "" then
    ⟨"quarter", clock.quarterAgo, clock.today⟩
  else s

/-- The state after the first render: the initial state `('all', '', '')`, on
which the effect runs once. -/
def firstRender (clock : Clock) (invoices : List Invoice) : PeriodState :=
  defaultDatesEffect clock invoices ⟨"all", "", ""⟩

/-- The state after the user picks a preset and React has rendered again: the
effect has the dependencies `[invoices, customStartDate]`, so it runs when the
handler changed `customStartDate`. -/
def selectPeriod (clock : Clock) (invoices : List Invoice) (period : String)
    (s : PeriodState) : PeriodState :=
  let next := handlePeriodChange clock period s
  if next.customStartDate ≠ s.customStartDate then defaultDatesEffect clock invoices next
  else next

/-! ## The table (`InvoiceTable.jsx`) -/

/-- The text starts with the search text. -/
def startsWith : List Char → List Char → Bool
  | _, [] => true
  | [], _ :: _ => false
  | c :: cs, d :: ds => c = d && startsWith cs ds

/-- The method `String.prototype.includes`, on the characters of the two
texts. -/
def includesChars : List Char → List Char → Bool
  | [], searchString => startsWith [] searchString
  | c :: cs, searchString => startsWith (c :: cs) searchString || includesChars cs searchString

/-- The filter `filteredInvoices` of the table. The case mapping of
`toLowerCase` is a table of the platform and is passed in. -/
def tableFilteredInvoices (toLowerCase : String → String) (invoices : List Invoice)
    (filterText : String) : List Invoice :=
  invoices.filter (fun invoice =>
    let searchText := toLowerCase filterText
    includesChars (toLowerCase invoice.numero).toList searchText.toList ||
      includesChars (toLowerCase invoice.cliente).toList searchText.toList)

/-- The grand total `totalMonto` of the table. -/
def totalMonto (toLowerCase : String → String) (invoices : List Invoice)
    (filterText : String) : JSNum :=
  (tableFilteredInvoices toLowerCase invoices filterText).foldl
    (fun sum invoice => JSNum.add sum (parseInt (invoice.monto.or (.number 0))))
    (JSNum.ofNat 0)

/-! ## JSON texts and `localStorage` (`utils/storage.js`) -/

/-- A value that `JSON.parse` returns. The members of an object are kept in the
order in which their names first appear in the text. -/
inductive Json where
  | null
  | bool (b : Bool)
  | num (q : ℚ)
  | str (s : String)
  | arr (elements : List Json)
  | obj (members : List (String × Json))

/-- JSON white space: tab, line feed, carriage return and space. -/
def isJsonWhiteSpace (c : Char) : Bool :=
  c.toNat = 0x09 || c.toNat = 0x0A || c.toNat = 0x0D || c.toNat = 0x20

/-- The text after its leading JSON white space. -/
def skipWs (cs : List Char) : List Char := cs.dropWhile isJsonWhiteSpace

/-- The value of a hexadecimal digit. -/
def hexValue (c : Char) : Option Nat :=
  let n := c.toNat
  if 48 ≤ n ∧ n ≤ 57 then some (n - 48)
  else if 97 ≤ n ∧ n ≤ 102 then some (n - 97 + 10)
  else if 65 ≤ n ∧ n ≤ 70 then some (n - 65 + 10)
  else none

/-- The code unit that four hexadecimal digits write. -/
def hex4 (a b c d : Char) : Option Nat :=
  match hexValue a, hexValue b, hexValue c, hexValue d with
  | some x, some y, some z, some w => some (((x * 16 + y) * 16 + z) * 16 + w)
  | _, _, _, _ => none

/-- The character of a `\u` escape, read from what follows the `u`, and the rest
of the text. The escape of a leading surrogate is read together with the `\u`
escape of the trailing surrogate that follows it; a surrogate without its
partner is no character of a text here and is read as a failure. -/
def parseUnicodeEscape : List Char → Option (Char × List Char)
  | a :: b :: c :: d :: r =>
    match hex4 a b c d with
    | none => none
    | some n =>
      if 0xD800 ≤ n ∧ n ≤ 0xDBFF then
        match r with
        | bs :: u :: e :: f :: g :: h :: r2 =>
          if bs = '\\' ∧ u = 'u' then
            match hex4 e f g h with
            | none => none
            | some m =>
              if 0xDC00 ≤ m ∧ m ≤ 0xDFFF then
                some (Char.ofNat (0x10000 + (n - 0xD800) * 0x400 + (m - 0xDC00)), r2)
              else none
          else none
        | _ => none
      else if 0xDC00 ≤ n ∧ n ≤ 0xDFFF then none
      else some (Char.ofNat n, r)
  | _ => none

/-- The character of a JSON escape, read from what follows the backslash,
and the rest of the text. -/
def parseEscape : List Char → Option (Char × List Char)
  | [] => none
  | c :: r =>
    if c = '"' then some ('"', r)
    else if c = '\\' then some ('\\', r)
    else if c = '/' then some ('/', r)
    else if c = 'b' then some (Char.ofNat 8, r)
    else if c = 'f' then some (Char.ofNat 12, r)
    else if c = 'n' then some (Char.ofNat 10, r)
    else if c = 'r' then some (Char.ofNat 13, r)
    else if c = 't' then some (Char.ofNat 9, r)
    else if c = 'u' then parseUnicodeEscape r
    else none

/-- The characters of a JSON string, read from what follows its opening quote
up to the closing quote, and the rest of the text. A control character below
U+0020 must be escaped. Each step reads one character of the string; `fuel`
bounds the number of steps. -/
def parseStringLoop : Nat → List Char → Option (List Char × List Char)
  | 0, _ => none
  | _ + 1, [] => none
  | fuel + 1, c :: r =>
    if c = '"' then some ([], r)
    else if c = '\\' then
      match parseEscape r with
      | none => none
      | some (x, r2) => (parseStringLoop fuel r2).map (fun p => (x :: p.1, p.2))
    else if c.toNat < 0x20 then none
    else (parseStringLoop fuel r).map (fun p => (c :: p.1, p.2))

/-- A JSON string after its opening quote; the length of the text is enough
fuel, as each step consumes a character. -/
def parseString (cs : List Char) : Option (String × List Char) :=
  (parseStringLoop cs.length cs).map (fun p => (String.mk p.1, p.2))

/-- The fraction of a JSON number: nothing, or `.` and one or more digits.
The result is the digits and the rest of the text. -/
def parseFraction : List Char → Option (List Char × List Char)
  | '.' :: r =>
    if r.takeWhile isAsciiDigit = [] then none
    else some (r.takeWhile isAsciiDigit, r.dropWhile isAsciiDigit)
  | cs => some ([], cs)

/-- The exponent of a JSON number: nothing, or `e` or `E`, an optional sign
and one or more digits. The result is the exponent and the rest of the text. -/
def parseExponent : List Char → Option (Int × List Char)
  | [] => some (0, [])
  | c :: r =>
    if c = 'e' ∨ c = 'E' then
      if (dropSign r).takeWhile isAsciiDigit = [] then none
      else
        some (signOf r * (decimalValue ((dropSign r).takeWhile isAsciiDigit) : Int),
          (dropSign r).dropWhile isAsciiDigit)
    else some (0, c :: r)

/-- A JSON number after its sign: `0` or a run of digits that does not start
with `0`, then an optional fraction and an optional exponent. The result is
the number the text writes, and the rest of the text. -/
def parseUnsigned (negative : Bool) (s1 : List Char) : Option (Json × List Char) :=
  let intDigits := s1.takeWhile isAsciiDigit
  if intDigits = [] ∨ (1 < intDigits.length ∧ intDigits.head? = some '0') then none
  else
    match parseFraction (s1.dropWhile isAsciiDigit) with
    | none => none
    | some (fracDigits, s2) =>
      match parseExponent s2 with
      | none => none
      | some (e, s3) =>
        some (Json.num ((if negative then -1 else 1) *
            (decimalValue (intDigits ++ fracDigits) : ℚ) *
            (10 : ℚ) ^ (e - (fracDigits.length : Int))), s3)

/-- A JSON number: an optional `-` and the number after it. -/
def parseNumber : List Char → Option (Json × List Char)
  | '-' :: r => parseUnsigned true r
  | cs => parseUnsigned false cs

/-- The member `name: value` put into an object: the value of a name that the
object already has is replaced where it stands, a new name is added last. -/
def setMember (members : List (String × Json)) (name : String) (value : Json) :
    List (String × Json) :=
  if members.any (fun m => m.1 = name) then
    members.map (fun m => if m.1 = name then (name, value) else m)
  else members ++ [(name, value)]

/-- The object with the members of the text, in order: of two members with one
name the later one gives the value. -/
def buildObject (members : List (String × Json)) : Json :=
  Json.obj (members.foldl (fun acc m => setMember acc m.1 m.2) [])

mutual

/-- A JSON value at the start of the text (after white space), and the rest of
the text. Every call of `parseValue`, `parseElements` and `parseMembers` from
another takes one unit of `fuel`. -/
def parseValue : Nat → List Char → Option (Json × List Char)
  | 0, _ => none
  | fuel + 1, cs =>
    match skipWs cs with
    | [] => none
    | c :: r =>
      if c = '"' then (parseString r).map (fun p => (Json.str p.1, p.2))
      else if c = '[' then
        match skipWs r with
        | ']' :: r2 => some (Json.arr [], r2)
        | _ => (parseElements fuel r).map (fun p => (Json.arr p.1, p.2))
      else if c = '{' then
        match skipWs r with
        | '}' :: r2 => some (Json.obj [], r2)
        | _ => (parseMembers fuel r).map (fun p => (buildObject p.1, p.2))
      else if c = 'n' then
        match r with
        | 'u' :: 'l' :: 'l' :: r2 => some (Json.null, r2)
        | _ => none
      else if c = 't' then
        match r with
        | 'r' :: 'u' :: 'e' :: r2 => some (Json.bool true, r2)
        | _ => none
      else if c = 'f' then
        match r with
        | 'a' :: 'l' :: 's' :: 'e' :: r2 => some (Json.bool false, r2)
        | _ => none
      else parseNumber (c :: r)

/-- The elements of an array, from its first element to the closing bracket. -/
def parseElements : Nat → List Char → Option (List Json × List Char)
  | 0, _ => none
  | fuel + 1, cs =>
    match parseValue fuel cs with
    | none => none
    | some (v, r) =>
      match skipWs r with
      | ',' :: r2 => (parseElements fuel r2).map (fun p => (v :: p.1, p.2))
      | ']' :: r2 => some ([v], r2)
      | _ => none

/-- The members of an object, from its first member to the closing brace. -/
def parseMembers : Nat → List Char → Option (List (String × Json) × List Char)
  | 0, _ => none
  | fuel + 1, cs =>
    match skipWs cs with
    | '"' :: r =>
      match parseString r with
      | none => none
      | some (name, r1) =>
        match skipWs r1 with
        | ':' :: r2 =>
          match parseValue fuel r2 with
          | none => none
          | some (v, r3) =>
            match skipWs r3 with
            | ',' :: r4 => (parseMembers fuel r4).map (fun p => ((name, v) :: p.1, p.2))
            | '}' :: r4 => some ([(name, v)], r4)
            | _ => none
        | _ => none
    | _ => none

end

/-- A character is one of the ten decimal digits. -/
def IsDec (c : Char) : Prop := 48 ≤ c.toNat ∧ c.toNat ≤ 57

instance (c : Char) : Decidable (IsDec c) := by
  unfold IsDec
  exact inferInstance

/-- The value of a text of decimal digits. -/
def decValue (cs : List Char) : Nat :=
  cs.foldl (fun acc c => acc * 10 + (c.toNat - 48)) 0

/-- An amount of the data model: the non-negative integer `n`, held as a number
or as its decimal text. -/
def IsAmount (inv : Invoice) (n : Nat) : Prop :=
  inv.monto = .number (n : Int) ∨ inv.monto = .string (Nat.repr n)

instance (inv : Invoice) (n : Nat) : Decidable (IsAmount inv n) := by
  unfold IsAmount
  exact inferInstance

/-- The statuses of the data model: paid, pending, overdue. -/
def IsStatus (estado : String) : Prop :=
  estado = "pagado" ∨ estado = "pendiente" ∨ estado = "vencida"

instance (estado : String) : Decidable (IsStatus estado) := by
  unfold IsStatus
  exact inferInstance

/-- The date of a record lies in the window from `start` to `end`, both bounds
included: the three texts are dates `a`, `b`, `d` with `a ≤ d` and `d ≤ b`. -/
def InWindow (customStartDate customEndDate fecha : String) : Prop :=
  ∃ a b d, parseISO customStartDate = some a ∧ parseISO customEndDate = some b ∧
    parseISO fecha = some d ∧ a ≤ d ∧ d ≤ b

/-- The date of a record lies in the calendar month `month` (0 to 11) of
`year`. -/
def InMonth (year month : Nat) (fecha : String) : Prop :=
  ∃ d, parseISO fecha = some d ∧ d.year = year ∧ d.month = month

instance (year month : Nat) (fecha : String) : Decidable (InMonth year month fecha) :=
  match h : parseISO fecha with
  | some d =>
    if h2 : d.year = year ∧ d.month = month then isTrue ⟨d, h, h2⟩
    else isFalse (fun ⟨_, h3, h4⟩ => h2 (Option.some.inj (h.symm.trans h3) ▸ h4))
  | none => isFalse (fun ⟨_, h3, _⟩ => Option.noConfusion (h.symm.trans h3))

/-- The first day of the month at position `k` on the line of all months. -/
def monthOfIndex (k : Nat) : Date := ⟨k / 12, k % 12, 1⟩

/-- A small collection: three invoices of two clients over four months, the
amounts held as the form and the store hold them. -/
def sampleInvoices : List Invoice :=
  [ ⟨.string "m1", "FAC-001", "2024-01-15", "A", .number 100000, "pendiente", ""⟩,
    ⟨.string "m2", "FAC-002", "2024-02-10", "A", .string "50000", "pagado", ""⟩,
    ⟨.string "m3", "FAC-003", "2024-04-20", "B", .string "200001", "pagado", "abril"⟩ ]

/-- The monthly series of `sampleInvoices`. -/
def sampleSeries : List MonthBucket :=
  [ ⟨"ene 2024", JSNum.fin 100000, JSNum.fin 0, JSNum.fin 100000, 1⟩,
    ⟨"feb 2024", JSNum.fin 50000, JSNum.fin 50000, JSNum.fin 0, 1⟩,
    ⟨"mar 2024", JSNum.fin 0, JSNum.fin 0, JSNum.fin 0, 0⟩,
    ⟨"abr 2024", JSNum.fin 200001, JSNum.fin 200001, JSNum.fin 0, 1⟩ ]

/-- Two invoices three months apart: February and March have no invoice. -/
def gapInvoices : List Invoice :=
  [ ⟨.string "g1", "FAC-010", "2024-01-15", "A", .string "100", "pagado", ""⟩,
    ⟨.string "g2", "FAC-011", "2024-04-02", "B", .string "50", "pendiente", ""⟩ ]

/-- The scenario of the specification: three invoices of the clients A and B
in January and February 2024. -/
def scenarioInvoices : List Invoice :=
  [ ⟨.string "s1", "FAC-001", "2024-01-15", "A", .number 100000, "pendiente", ""⟩,
    ⟨.string "s2", "FAC-002", "2024-02-10", "A", .number 50000, "pagado", ""⟩,
    ⟨.string "s3", "FAC-003", "2024-02-20", "B", .number 200000, "pagado", ""⟩ ]

/-- A collection with an amount that is no number: the text `abc`. -/
def invalidAmountInvoices : List Invoice :=
  [ ⟨.string "n1", "FAC-020", "2024-01-15", "A", .string "abc", "pendiente", ""⟩,
    ⟨.string "n2", "FAC-021", "2024-01-20", "B", .number 50, "pagado", ""⟩ ]

/-- A collection with a client whose name is a member of `Object.prototype`. -/
def prototypeNameInvoices : List Invoice :=
  [ ⟨.string "p1", "FAC-030", "2024-01-15", "constructor", .number 100, "pagado", ""⟩,
    ⟨.string "p2", "FAC-031", "2024-01-20", "A", .number 50, "pagado", ""⟩ ]

/-- The number of distinct client names of a list of invoices. -/
def distinctClients (xs : List Invoice) : Nat :=
  ((xs.map (fun inv => inv.cliente)).dedup).length

/-- The ids of a collection, in order. -/
def idsOf (xs : List Invoice) : List JSValue := xs.map (fun inv => inv.id)

/-- Each id that a create generates differs from the ids present at that
moment. -/
def FreshIds : List Invoice → List StoreOp → Prop
  | _, [] => True
  | invoices, op :: ops =>
    (match op with
      | StoreOp.save generatedId _ invoiceData =>
        invoiceData.id.truthy = false → JSValue.string generatedId ∉ idsOf invoices
      | StoreOp.delete _ _ => True) ∧
    FreshIds (applyOp invoices op) ops

/-- A clock for the examples: the fifth of November 2024. -/
def sampleClock : Clock := ⟨"2024-11-05", "2024-10-05", "2024-08-05", "2023-11-05"⟩

/-- The case mapping of the ASCII letters, for the examples. -/
def asciiLower (s : String) : String := String.mk (s.toList.map Char.toLower)

/-- The position of the month of a record on the line of all months (0 when
its date is invalid). -/
def monthKey (inv : Invoice) : Nat :=
  match parseISO inv.fecha with
  | some d => monthIndex d
  | none => 0

/-- The group that the client `k` has after the records `xs`: its records are
those whose `cliente` is the text `k`. -/
def groupOf (xs : List Invoice) (k : String) : ClientGroup :=
  { cliente := k
    total := sumMontos (xs.filter (fun inv => inv.cliente = k))
    count := (xs.filter (fun inv => inv.cliente = k)).length
    pagado := sumMontos ((xs.filter (fun inv => inv.cliente = k)).filter
      (fun inv => inv.estado = "pagado"))
    pendiente := sumMontos ((xs.filter (fun inv => inv.cliente = k)).filter
      (fun inv => inv.estado ≠ "pagado")) }

/-- The client names of `xs` in the order of their first appearance, without
the names that `Object.prototype` holds. -/
def firstKeys (xs : List Invoice) : List String :=
  xs.foldl (fun acc inv =>
    if inv.cliente ∈ acc ∨ inv.cliente ∈ objectPrototypeKeys then acc
    else acc ++ [inv.cliente]) []

/-- The amount of the record is read as a number, not as `NaN`. -/
def amountIsNumber (inv : Invoice) : Bool :=
  match montoOf inv with
  | JSNum.fin _ => true
  | _ => false

/-- JavaScript `a >= b` on numbers. -/
def JSNum.geq : JSNum → JSNum → Bool
  | JSNum.fin a, JSNum.fin b => decide (b ≤ a)
  | JSNum.nan, _ => false
  | _, JSNum.nan => false
  | JSNum.posInf, _ => true
  | _, JSNum.negInf => true
  | _, _ => false

/-- Entries of the ranking with equal totals stand in the order in which their
clients first appear in the list of invoices. -/
def TiesKeepFirstAppearance (xs : List Invoice) : Prop :=
  List.Pairwise (fun a b : ClientGroup =>
    a.total = b.total →
      (xs.map (fun inv => inv.cliente)).indexOf a.cliente <
        (xs.map (fun inv => inv.cliente)).indexOf b.cliente) (topClients xs)

instance (xs : List Invoice) : Decidable (TiesKeepFirstAppearance xs) := by
  unfold TiesKeepFirstAppearance
  exact inferInstance

/-- Two clients with equal totals whose names are array indices: `10` appears
first, then `2`. -/
def indexNameInvoices : List Invoice :=
  [ ⟨.string "t1", "FAC-040", "2024-01-15", "10", .number 100, "pagado", ""⟩,
    ⟨.string "t2", "FAC-041", "2024-01-20", "2", .number 100, "pagado", ""⟩ ]

/-- Forty invoices, 23 of them paid: the exact percentage is the half `57.5`,
the product of the doubles is `57.49999999999999`. -/
def fortyInvoices : List Invoice :=
  List.replicate 23 ⟨.string "q", "FAC-060", "2024-03-01", "A", .number 10, "pagado", ""⟩ ++
  List.replicate 17 ⟨.string "r", "FAC-061", "2024-03-02", "B", .number 10, "pendiente", ""⟩

/-- Three clients whose names are no array indices; `beta` appears first, then
`alfa`, both with the total 100 (`beta` over two records), and `gamma` with the
total 300. -/
def tieInvoices : List Invoice :=
  [ ⟨.string "e1", "FAC-050", "2024-01-15", "beta", .number 60, "pagado", ""⟩,
    ⟨.string "e2", "FAC-051", "2024-01-20", "alfa", .number 100, "pendiente", ""⟩,
    ⟨.string "e3", "FAC-052", "2024-02-03", "beta", .number 40, "pagado", ""⟩,
    ⟨.string "e4", "FAC-053", "2024-02-11", "gamma", .number 300, "pagado", ""⟩ ]

theorem digitValue_of_isDec {c : Char} (h : IsDec c) :
    digitValue c = some (c.toNat - 48) := by
  unfold digitValue
  exact if_pos h

theorem isDec_digitChar {k : Nat} (hk : k < 10) : IsDec (Nat.digitChar k) := by
  unfold IsDec
  interval_cases k <;> decide

theorem toNat_digitChar {k : Nat} (hk : k < 10) : (Nat.digitChar k).toNat - 48 = k := by
  interval_cases k <;> decide

theorem not_ws_of_isDec {c : Char} (h : IsDec c) : isStrWhiteSpaceChar c = false := by
  unfold IsDec at h
  unfold isStrWhiteSpaceChar
  simp only [Bool.or_eq_false_iff, Bool.and_eq_false_imp, decide_eq_false_iff_not, decide_eq_true_eq]
  omega

theorem takeDigits_of_allDec (cs : List Char) (h : ∀ c ∈ cs, IsDec c) :
    takeDigits 10 cs = cs.map (fun c => c.toNat - 48) := by
  induction cs with
  | nil => rfl
  | cons c cs ih =>
    have hc : IsDec c := h c (List.mem_cons_self _ _)
    have hlt : c.toNat - 48 < 10 := by unfold IsDec at hc; omega
    simp only [takeDigits, digitValue_of_isDec hc, hlt, if_true, List.map_cons]
    rw [ih (fun x hx => h x (List.mem_cons_of_mem _ hx))]

theorem mathInt_takeDigits_of_allDec (cs : List Char) (h : ∀ c ∈ cs, IsDec c) :
    mathInt 10 (takeDigits 10 cs) = decValue cs := by
  rw [takeDigits_of_allDec cs h]
  unfold mathInt decValue
  rw [List.foldl_map]

theorem toDigitsCore_spec (fuel : Nat) : ∀ (n : Nat) (ds : List Char), n < fuel →
    ∃ xs : List Char, Nat.toDigitsCore 10 fuel n ds = xs ++ ds ∧ xs ≠ [] ∧
      (∀ c ∈ xs, IsDec c) ∧ decValue xs = n := by
  induction fuel with
  | zero => intro n ds h; omega
  | succ fuel ih =>
    intro n ds h
    have hd : n % 10 < 10 := Nat.mod_lt _ (by decide)
    by_cases h0 : n / 10 = 0
    · refine ⟨[Nat.digitChar (n % 10)], ?_, by simp, ?_, ?_⟩
      · simp [Nat.toDigitsCore, h0]
      · intro c hc
        rw [List.mem_singleton] at hc
        subst hc
        exact isDec_digitChar hd
      · simp only [decValue, List.foldl_cons, List.foldl_nil, toNat_digitChar hd]
        omega
    · obtain ⟨xs, hxs, _, hall, hval⟩ := ih (n / 10) (Nat.digitChar (n % 10) :: ds) (by omega)
      refine ⟨xs ++ [Nat.digitChar (n % 10)], ?_, by simp, ?_, ?_⟩
      · simp [Nat.toDigitsCore, h0, hxs]
      · intro c hc
        rw [List.mem_append, List.mem_singleton] at hc
        rcases hc with hc | hc
        · exact hall c hc
        · subst hc
          exact isDec_digitChar hd
      · unfold decValue at hval ⊢
        rw [List.foldl_append, hval]
        simp only [List.foldl_cons, List.foldl_nil, toNat_digitChar hd]
        omega

theorem repr_spec (n : Nat) : ∃ c cs, (Nat.repr n).toList = c :: cs ∧
    (∀ x ∈ c :: cs, IsDec x) ∧ decValue (c :: cs) = n := by
  obtain ⟨xs, hxs, hne, hall, hval⟩ := toDigitsCore_spec (n + 1) n [] (by omega)
  have h : (Nat.repr n).toList = xs := by
    simp [Nat.repr, Nat.toDigits, hxs, List.asString]
  cases xs with
  | nil => exact absurd rfl hne
  | cons c cs => exact ⟨c, cs, h, hall, hval⟩

/-- On a non-empty text of decimal digits, followed by anything that is not a
digit, `parseInt` reads the value of the digits. -/
theorem parseIntChars_of_allDec (c : Char) (cs : List Char)
    (h : ∀ x ∈ c :: cs, IsDec x) :
    parseIntChars (c :: cs) = JSNum.ofInt (decValue (c :: cs)) := by
  have hc : IsDec c := h c (List.mem_cons_self _ _)
  have hws := not_ws_of_isDec hc
  have hm : c ≠ '-' := by rintro rfl; revert hc; decide
  have hp : c ≠ '+' := by rintro rfl; revert hc; decide
  have hx : ∀ r, cs ≠ 'x' :: r := by
    rintro r rfl
    have := h 'x' (by simp)
    revert this; decide
  have hX : ∀ r, cs ≠ 'X' :: r := by
    rintro r rfl
    have := h 'X' (by simp)
    revert this; decide
  have hne : takeDigits 10 (c :: cs) ≠ [] := by
    rw [takeDigits_of_allDec _ h]; simp
  have h1 : signOf (c :: cs) = 1 := by
    unfold signOf
    split
    · rename_i heq; exact absurd (List.cons.inj heq).1 hm
    · rfl
  have h2 : dropSign (c :: cs) = c :: cs := by
    unfold dropSign
    split
    · rename_i heq; exact absurd (List.cons.inj heq).1 hm
    · rename_i heq; exact absurd (List.cons.inj heq).1 hp
    · rfl
  have h3 : radixOf (c :: cs) = 10 := by
    unfold radixOf
    split
    · rename_i heq; exact absurd (List.cons.inj heq).2 (hx _)
    · rename_i heq; exact absurd (List.cons.inj heq).2 (hX _)
    · rfl
  have h4 : dropRadixMark (c :: cs) = c :: cs := by
    unfold dropRadixMark
    split
    · rename_i heq; exact absurd (List.cons.inj heq).2 (hx _)
    · rename_i heq; exact absurd (List.cons.inj heq).2 (hX _)
    · rfl
  have h5 : (takeDigits 10 (c :: cs)).isEmpty = false := by
    cases hz : takeDigits 10 (c :: cs) with
    | nil => exact absurd hz hne
    | cons _ _ => rfl
  unfold parseIntChars
  simp only [List.dropWhile_cons, hws, Bool.false_eq_true, if_false, h1, h2, h3, h4, h5,
    mathInt_takeDigits_of_allDec _ h, one_mul]

theorem parseInt_string_repr (n : Nat) :
    parseInt (.string (Nat.repr n)) = JSNum.fin (n : ℚ) := by
  obtain ⟨c, cs, hl, hall, hval⟩ := repr_spec n
  unfold parseInt JSValue.toStr
  simp only [hl, parseIntChars_of_allDec c cs hall, hval, JSNum.ofInt]
  norm_cast

theorem parseInt_number_nat (n : Nat) :
    parseInt (.number (n : Int)) = JSNum.fin (n : ℚ) := by
  have h := parseInt_string_repr n
  unfold parseInt JSValue.toStr at h ⊢
  unfold numberToString
  have hn : ¬ ((n : Int) < 0) := by omega
  simpa only [hn, if_false, Int.natAbs_ofNat] using h

theorem repr_ne_empty (n : Nat) : Nat.repr n ≠ "" := by
  obtain ⟨c, cs, hl, _, _⟩ := repr_spec n
  intro h
  rw [h] at hl
  simp at hl

/-- A non-negative integer amount, given as a number or as its decimal text, is
read back by `parseInt(inv.monto || 0)`. -/
theorem montoOf_of_nat (inv : Invoice) (n : Nat)
    (h : inv.monto = .number (n : Int) ∨ inv.monto = .string (Nat.repr n)) :
    montoOf inv = JSNum.fin (n : ℚ) := by
  unfold montoOf JSValue.or
  rcases h with h | h
  · rw [h]
    by_cases h0 : n = 0
    · subst h0
      decide
    · have : (JSValue.number (n : Int)).truthy = true := by
        simp [JSValue.truthy, h0]
      rw [if_pos this]
      exact parseInt_number_nat n
  · rw [h]
    have : (JSValue.string (Nat.repr n)).truthy = true := by
      simp [JSValue.truthy, repr_ne_empty n]
    rw [if_pos this]
    exact parseInt_string_repr n

theorem JSNum.add_fin (a b : ℚ) : JSNum.add (JSNum.fin a) (JSNum.fin b) = JSNum.fin (a + b) :=
  rfl

theorem JSNum.div_fin (a b : ℚ) (hb : b ≠ 0) :
    JSNum.div (JSNum.fin a) (JSNum.fin b) = JSNum.fin (a / b) := by
  simp [JSNum.div, hb]

theorem JSNum.mul_fin (a b : ℚ) : JSNum.mul (JSNum.fin a) (JSNum.fin b) = JSNum.fin (a * b) :=
  rfl

theorem foldl_add_fin (xs : List Invoice) (amounts : List Nat) (a : ℚ)
    (h : List.Forall₂ IsAmount xs amounts) :
    xs.foldl (fun sum inv => JSNum.add sum (montoOf inv)) (JSNum.fin a) =
      JSNum.fin (a + (amounts.sum : Nat)) := by
  induction h generalizing a with
  | nil => simp
  | cons hx _ ih =>
    simp only [List.foldl_cons, List.sum_cons]
    rw [montoOf_of_nat _ _ hx, JSNum.add_fin, ih]
    congr 1
    push_cast
    ring

theorem sumMontos_of_amounts (xs : List Invoice) (amounts : List Nat)
    (h : List.Forall₂ IsAmount xs amounts) :
    sumMontos xs = JSNum.fin ((amounts.sum : Nat) : ℚ) := by
  unfold sumMontos JSNum.ofNat
  rw [foldl_add_fin xs amounts _ h]
  simp

theorem abs_roundHalfUp_sub_le (q : ℚ) : |((JSNum.roundHalfUp q : ℤ) : ℚ) - q| ≤ 1 / 2 := by
  unfold JSNum.roundHalfUp
  have h1 := Int.floor_le (q + 1 / 2)
  have h2 := Int.lt_floor_add_one (q + 1 / 2)
  rw [abs_le]
  constructor <;> linarith

theorem count_three_way (xs : List Invoice)
    (h : ∀ inv ∈ xs, inv.estado = "pagado" ∨ inv.estado = "pendiente" ∨ inv.estado = "vencida") :
    (xs.filter (fun inv => inv.estado = "pagado")).length +
      (xs.filter (fun inv => inv.estado = "pendiente")).length +
      (xs.filter (fun inv => inv.estado = "vencida")).length = xs.length := by
  induction xs with
  | nil => rfl
  | cons x xs ih =>
    have ih := ih (fun inv hinv => h inv (List.mem_cons_of_mem _ hinv))
    have hx := h x (List.mem_cons_self _ _)
    simp only [List.filter_cons, List.length_cons]
    rcases hx with hx | hx | hx <;> simp [hx] <;> omega

/-! ## The summary statistics -/

/-- C1: when the amounts of the filtered records are non-negative integers
(each given as a number or as its decimal text), the statistic `total` is
their sum. -/
theorem stats_total_eq_sum (invoices : List Invoice)
    (periodFilter customStartDate customEndDate : String) (amounts : List Nat)
    (h : List.Forall₂ IsAmount
      (filteredInvoices invoices periodFilter customStartDate customEndDate) amounts) :
    (dashboardStats invoices periodFilter customStartDate customEndDate).total =
      JSNum.fin ((amounts.sum : Nat) : ℚ) := by
  unfold dashboardStats stats
  exact sumMontos_of_amounts _ _ h

theorem stats_total_eq_sum_witness :
    List.Forall₂ IsAmount (filteredInvoices sampleInvoices "month" "2024-02-01" "2024-04-30")
      [50000, 200001] ∧
    (dashboardStats sampleInvoices "month" "2024-02-01" "2024-04-30").total =
      JSNum.fin ((([50000, 200001] : List Nat).sum : Nat) : ℚ) :=
  ⟨by decide, stats_total_eq_sum sampleInvoices "month" "2024-02-01" "2024-04-30"
    [50000, 200001] (by decide)⟩

/-- C2: when every filtered record has one of the three statuses of the data
model, the counts of paid, pending and overdue records add up to the record
count, which is the length of the filtered subsequence. -/
theorem stats_status_counts_add_up (invoices : List Invoice)
    (periodFilter customStartDate customEndDate : String)
    (h : ∀ inv ∈ filteredInvoices invoices periodFilter customStartDate customEndDate,
      IsStatus inv.estado) :
    (dashboardStats invoices periodFilter customStartDate customEndDate).paid +
        (dashboardStats invoices periodFilter customStartDate customEndDate).pending +
        (dashboardStats invoices periodFilter customStartDate customEndDate).overdue =
      (dashboardStats invoices periodFilter customStartDate customEndDate).count ∧
    (dashboardStats invoices periodFilter customStartDate customEndDate).count =
      (filteredInvoices invoices periodFilter customStartDate customEndDate).length := by
  unfold dashboardStats stats
  exact ⟨count_three_way _ h, rfl⟩

theorem stats_status_counts_add_up_witness :
    (∀ inv ∈ filteredInvoices sampleInvoices "all" "" "", IsStatus inv.estado) ∧
    ((dashboardStats sampleInvoices "all" "" "").paid +
        (dashboardStats sampleInvoices "all" "" "").pending +
        (dashboardStats sampleInvoices "all" "" "").overdue =
      (dashboardStats sampleInvoices "all" "" "").count ∧
    (dashboardStats sampleInvoices "all" "" "").count =
      (filteredInvoices sampleInvoices "all" "" "").length) :=
  ⟨by decide, stats_status_counts_add_up sampleInvoices "all" "" "" (by decide)⟩

theorem avgInvoice_of_fin_total (xs : List Invoice) (hpos : 0 < xs.length) (t : ℚ)
    (ht : (stats xs).total = JSNum.fin t) :
    (stats xs).avgInvoice = JSNum.fin ((JSNum.roundHalfUp (t / (xs.length : ℚ)) : ℤ) : ℚ) := by
  have hne : ((xs.length : ℕ) : ℚ) ≠ 0 := by
    have : xs.length ≠ 0 := by omega
    exact_mod_cast this
  simp only [stats] at ht ⊢
  rw [if_pos hpos, ht, JSNum.ofNat, JSNum.div_fin _ _ hne]
  rfl

/-- C3: the average is 0 on the empty subsequence, where nothing is divided;
on a non-empty one with a finite total `t` it is the integer `⌊t / count + 1/2⌋`,
which lies within one half of `t / count`; and it is `NaN` when the total is. -/
theorem stats_avgInvoice_rounds (xs : List Invoice) :
    (xs.length = 0 → (stats xs).avgInvoice = JSNum.fin 0) ∧
    (0 < xs.length → ∀ t : ℚ, (stats xs).total = JSNum.fin t →
      ∃ k : ℤ, (stats xs).avgInvoice = JSNum.fin (k : ℚ) ∧
        k = ⌊t / (xs.length : ℚ) + 1 / 2⌋ ∧
        |(k : ℚ) - t / (xs.length : ℚ)| ≤ 1 / 2) ∧
    (0 < xs.length → (stats xs).total = JSNum.nan → (stats xs).avgInvoice = JSNum.nan) := by
  refine ⟨?_, ?_, ?_⟩
  · intro h
    simp [stats, h, JSNum.ofNat]
  · intro h t ht
    exact ⟨JSNum.roundHalfUp (t / (xs.length : ℚ)), avgInvoice_of_fin_total xs h t ht, rfl,
      abs_roundHalfUp_sub_le _⟩
  · intro h ht
    simp only [stats] at ht ⊢
    rw [if_pos h, ht]
    rfl

theorem stats_avgInvoice_rounds_witness :
    ∃ k : ℤ, (stats sampleInvoices).avgInvoice = JSNum.fin (k : ℚ) ∧
      k = ⌊(350001 : ℚ) / (sampleInvoices.length : ℚ) + 1 / 2⌋ ∧
      |(k : ℚ) - (350001 : ℚ) / (sampleInvoices.length : ℚ)| ≤ 1 / 2 :=
  (stats_avgInvoice_rounds sampleInvoices).2.1 (by decide) 350001 (by decide!)

/-- C4: with non-negative integer amounts the average is an integer `a` with
`2 * |a * count - total| ≤ count`. -/
theorem stats_avg_times_count_near_total (xs : List Invoice) (amounts : List Nat)
    (h : List.Forall₂ IsAmount xs amounts) :
    ∃ a : ℤ, (stats xs).avgInvoice = JSNum.fin (a : ℚ) ∧
      (stats xs).total = JSNum.fin ((amounts.sum : ℕ) : ℚ) ∧
      2 * |a * ((stats xs).count : ℤ) - (amounts.sum : ℤ)| ≤ ((stats xs).count : ℤ) := by
  have htot : (stats xs).total = JSNum.fin ((amounts.sum : ℕ) : ℚ) :=
    sumMontos_of_amounts xs amounts h
  have hcount : (stats xs).count = xs.length := rfl
  rcases Nat.eq_zero_or_pos xs.length with h0 | hpos
  · have hxs : xs = [] := List.length_eq_zero.mp h0
    subst hxs
    cases h
    exact ⟨0, by simp [stats, JSNum.ofNat], htot, by simp [stats]⟩
  · have hk := avgInvoice_of_fin_total xs hpos _ htot
    have habs := abs_roundHalfUp_sub_le (((amounts.sum : ℕ) : ℚ) / (xs.length : ℚ))
    refine ⟨_, hk, htot, ?_⟩
    rw [hcount]
    generalize amounts.sum = S at habs ⊢
    generalize JSNum.roundHalfUp ((S : ℚ) / (xs.length : ℚ)) = k at habs ⊢
    have hq : (0 : ℚ) < (xs.length : ℚ) := by exact_mod_cast hpos
    have key : (2 : ℚ) * |(k : ℚ) * (xs.length : ℚ) - (S : ℚ)| ≤ (xs.length : ℚ) := by
      have e : (k : ℚ) * (xs.length : ℚ) - (S : ℚ) =
          ((k : ℚ) - (S : ℚ) / (xs.length : ℚ)) * (xs.length : ℚ) := by
        field_simp
      rw [e, abs_mul, abs_of_pos hq]
      nlinarith [abs_nonneg ((k : ℚ) - (S : ℚ) / (xs.length : ℚ))]
    exact_mod_cast key

theorem stats_avg_times_count_near_total_witness :
    List.Forall₂ IsAmount sampleInvoices [100000, 50000, 200001] ∧
    ∃ a : ℤ, (stats sampleInvoices).avgInvoice = JSNum.fin (a : ℚ) ∧
      (stats sampleInvoices).total =
        JSNum.fin (((([100000, 50000, 200001] : List Nat).sum : ℕ)) : ℚ) ∧
      2 * |a * ((stats sampleInvoices).count : ℤ) -
        ((([100000, 50000, 200001] : List Nat).sum : ℕ) : ℤ)| ≤
        ((stats sampleInvoices).count : ℤ) :=
  ⟨by decide, stats_avg_times_count_near_total sampleInvoices [100000, 50000, 200001]
    (by decide)⟩

/-! ### The paid percentage, a product of doubles -/

theorem log2Loop_spec (fuel : Nat) : ∀ n : Nat, n ≤ fuel → n ≠ 0 →
    2 ^ JSNum.log2Loop fuel n ≤ n ∧ n < 2 ^ (JSNum.log2Loop fuel n + 1) := by
  induction fuel with
  | zero => intro n h h0; omega
  | succ f ih =>
    intro n h h0
    unfold JSNum.log2Loop
    by_cases h2 : n < 2
    · rw [if_pos h2]
      constructor
      · simp; omega
      · simpa using h2
    · rw [if_neg h2]
      have hh := ih (n / 2) (by omega) (by omega)
      constructor
      · rw [pow_succ]; omega
      · rw [pow_succ]; omega

theorem abs_eq_natAbs_div_den (q : ℚ) : |q| = (q.num.natAbs : ℚ) / (q.den : ℚ) := by
  conv_lhs => rw [← Rat.num_div_den q]
  rw [abs_div, Nat.abs_cast, Nat.cast_natAbs, Int.cast_abs]

theorem binade_spec (q : ℚ) (hq : q ≠ 0) :
    (2 : ℚ) ^ JSNum.binade q ≤ |q| ∧ |q| < (2 : ℚ) ^ (JSNum.binade q + 1) := by
  have ha0 : q.num.natAbs ≠ 0 := by
    simpa using hq
  have hb0 : q.den ≠ 0 := q.den_nz
  obtain ⟨ha1, ha2⟩ := log2Loop_spec q.num.natAbs q.num.natAbs le_rfl ha0
  obtain ⟨hb1, hb2⟩ := log2Loop_spec q.den q.den le_rfl hb0
  have habs := abs_eq_natAbs_div_den q
  unfold JSNum.binade
  simp only
  generalize q.num.natAbs = a at *
  generalize q.den = b at *
  generalize JSNum.log2Loop a a = la at *
  generalize JSNum.log2Loop b b = lb at *
  have hbpos : (0 : ℚ) < (b : ℚ) := by exact_mod_cast Nat.pos_of_ne_zero hb0
  have ha1q : (2 : ℚ) ^ la ≤ (a : ℚ) := by exact_mod_cast ha1
  have ha2q : (a : ℚ) < (2 : ℚ) ^ (la + 1) := by exact_mod_cast ha2
  have hb1q : (2 : ℚ) ^ lb ≤ (b : ℚ) := by exact_mod_cast hb1
  have hb2q : (b : ℚ) < (2 : ℚ) ^ (lb + 1) := by exact_mod_cast hb2
  have h2 : (2 : ℚ) ≠ 0 := two_ne_zero
  split
  · rename_i h
    refine ⟨h, ?_⟩
    have e : ((la : ℤ) - (lb : ℤ) + 1) = (((la + 1 : ℕ) : ℤ) - ((lb : ℕ) : ℤ)) := by
      push_cast; ring
    rw [e, zpow_sub₀ h2, zpow_natCast, zpow_natCast, habs, div_lt_div_iff₀ hbpos (by positivity)]
    calc (a : ℚ) * 2 ^ lb ≤ (a : ℚ) * b := by
          apply mul_le_mul_of_nonneg_left hb1q (by positivity)
      _ < 2 ^ (la + 1) * (b : ℚ) := by
          apply mul_lt_mul_of_pos_right ha2q hbpos
  · rename_i h
    push_neg at h
    constructor
    · have e : ((la : ℤ) - (lb : ℤ) - 1) = (((la : ℕ) : ℤ) - ((lb + 1 : ℕ) : ℤ)) := by
        push_cast; ring
      rw [e, zpow_sub₀ h2, zpow_natCast, zpow_natCast, habs, div_le_div_iff₀ (by positivity) hbpos]
      calc (2 : ℚ) ^ la * b ≤ (a : ℚ) * b := by
            apply mul_le_mul_of_nonneg_right ha1q (le_of_lt hbpos)
        _ ≤ (a : ℚ) * 2 ^ (lb + 1) := by
            apply mul_le_mul_of_nonneg_left (le_of_lt hb2q) (by positivity)
    · have e : ((la : ℤ) - (lb : ℤ) - 1 + 1) = ((la : ℤ) - (lb : ℤ)) := by ring
      rw [e]
      exact h

theorem abs_roundHalfEven_sub_le (q : ℚ) : |((JSNum.roundHalfEven q : ℤ) : ℚ) - q| ≤ 1 / 2 := by
  have h1 := Int.floor_le q
  have h2 := Int.lt_floor_add_one q
  unfold JSNum.roundHalfEven
  rw [abs_le]
  split
  · constructor <;> linarith
  · split
    · push_cast
      constructor <;> linarith
    · split
      · constructor <;> linarith
      · push_cast
        constructor <;> linarith

theorem roundHalfEven_nonneg (q : ℚ) (h : 0 ≤ q) : 0 ≤ JSNum.roundHalfEven q := by
  have h1 : 0 ≤ ⌊q⌋ := Int.floor_nonneg.mpr h
  unfold JSNum.roundHalfEven
  split
  · exact h1
  · split
    · omega
    · split <;> omega

theorem toDouble_nonneg (q : ℚ) (h : 0 ≤ q) : 0 ≤ JSNum.toDouble q := by
  unfold JSNum.toDouble
  split
  · exact le_refl _
  · have := roundHalfEven_nonneg (q / (2 : ℚ) ^ (JSNum.binade q - 52)) (by positivity)
    have h' : (0 : ℚ) ≤ (JSNum.roundHalfEven (q / (2 : ℚ) ^ (JSNum.binade q - 52)) : ℚ) := by
      exact_mod_cast this
    positivity

theorem abs_toDouble_sub_le (q : ℚ) : |JSNum.toDouble q - q| ≤ |q| / 2 ^ 53 := by
  unfold JSNum.toDouble
  split
  · rename_i h
    subst h
    simp
  · rename_i h
    have hb := (binade_spec q h).1
    have h2 : (2 : ℚ) ≠ 0 := two_ne_zero
    have hu : (0 : ℚ) < (2 : ℚ) ^ (JSNum.binade q - 52) := by positivity
    have hr := abs_roundHalfEven_sub_le (q / (2 : ℚ) ^ (JSNum.binade q - 52))
    have hue : (2 : ℚ) ^ (JSNum.binade q - 52) = (2 : ℚ) ^ JSNum.binade q / 2 ^ 52 := by
      rw [zpow_sub₀ h2]
      norm_num
    generalize (2 : ℚ) ^ (JSNum.binade q - 52) = u at *
    generalize JSNum.roundHalfEven (q / u) = m at *
    have e : (m : ℚ) * u - q = ((m : ℚ) - q / u) * u := by
      field_simp
    rw [e, abs_mul, abs_of_pos hu]
    have h3 : u ≤ |q| / 2 ^ 52 := by
      rw [hue]
      apply div_le_div_of_nonneg_right hb (by positivity)
    calc |(m : ℚ) - q / u| * u ≤ 1 / 2 * u := by
          apply mul_le_mul_of_nonneg_right hr (le_of_lt hu)
      _ ≤ 1 / 2 * (|q| / 2 ^ 52) := by
          apply mul_le_mul_of_nonneg_left h3 (by norm_num)
      _ = |q| / 2 ^ 53 := by ring

theorem abs_double_product_sub_le (p c : ℕ) (hc : 0 < c) (hpc : p ≤ c) :
    0 ≤ JSNum.toDouble (JSNum.toDouble ((p : ℚ) / (c : ℚ)) * 100) ∧
    |JSNum.toDouble (JSNum.toDouble ((p : ℚ) / (c : ℚ)) * 100) - (p : ℚ) / (c : ℚ) * 100| <
      1 / 2 ^ 45 := by
  have hcq : (0 : ℚ) < (c : ℚ) := by exact_mod_cast hc
  have hpq : (p : ℚ) ≤ (c : ℚ) := by exact_mod_cast hpc
  have hx0 : (0 : ℚ) ≤ (p : ℚ) / (c : ℚ) := by positivity
  have hx1 : (p : ℚ) / (c : ℚ) ≤ 1 := (div_le_one hcq).mpr hpq
  have h1 := abs_toDouble_sub_le ((p : ℚ) / (c : ℚ))
  have hy0 := toDouble_nonneg _ hx0
  rw [abs_of_nonneg hx0] at h1
  generalize (p : ℚ) / (c : ℚ) = x at *
  have h2 := abs_toDouble_sub_le (JSNum.toDouble x * 100)
  have hz0 := toDouble_nonneg (JSNum.toDouble x * 100) (by positivity)
  rw [abs_of_nonneg (by positivity : (0 : ℚ) ≤ JSNum.toDouble x * 100)] at h2
  generalize JSNum.toDouble (JSNum.toDouble x * 100) = z at *
  generalize JSNum.toDouble x = y at *
  refine ⟨hz0, ?_⟩
  rw [abs_le] at h1 h2
  rw [abs_lt]
  constructor <;> norm_num at h1 h2 ⊢ <;> linarith

theorem nearest_of_close (k : ℤ) (p c : ℕ) (hc : 0 < c) (hlen : c < 2 ^ 32)
    (h : |(k : ℚ) - (p : ℚ) / (c : ℚ) * 100| < 1 / 2 + 1 / 2 ^ 45) :
    |(k : ℚ) - (p : ℚ) / (c : ℚ) * 100| ≤ 1 / 2 := by
  have hcq : (0 : ℚ) < (c : ℚ) := by exact_mod_cast hc
  have hlq : (c : ℚ) < 2 ^ 32 := by exact_mod_cast hlen
  have e : (k : ℚ) - (p : ℚ) / (c : ℚ) * 100 =
      ((k : ℚ) * (c : ℚ) - 100 * (p : ℚ)) / (c : ℚ) := by
    field_simp
    ring
  rw [e, abs_div, abs_of_pos hcq] at h ⊢
  rw [div_lt_iff₀ hcq] at h
  rw [div_le_iff₀ hcq]
  have hN : (2 : ℚ) * |(k : ℚ) * (c : ℚ) - 100 * (p : ℚ)| < (c : ℚ) + 1 := by
    have : (1 / 2 + 1 / 2 ^ 45 : ℚ) * (c : ℚ) < (c : ℚ) / 2 + 1 / 2 := by
      have h45 : (1 / 2 ^ 45 : ℚ) * (c : ℚ) < 1 / 2 := by
        calc (1 / 2 ^ 45 : ℚ) * (c : ℚ) < 1 / 2 ^ 45 * 2 ^ 32 :=
              mul_lt_mul_of_pos_left hlq (by positivity)
          _ < 1 / 2 := by norm_num
      linarith
    linarith
  have hZ : (2 : ℤ) * |k * (c : ℤ) - 100 * (p : ℤ)| < (c : ℤ) + 1 := by
    exact_mod_cast hN
  have hZ2 : (2 : ℤ) * |k * (c : ℤ) - 100 * (p : ℤ)| ≤ (c : ℤ) := by omega
  have hQ : (2 : ℚ) * |(k : ℚ) * (c : ℚ) - 100 * (p : ℚ)| ≤ (c : ℚ) := by
    exact_mod_cast hZ2
  linarith

theorem roundHalfUp_double_product (p c : ℕ) (hc : 0 < c) (hpc : p ≤ c) :
    0 ≤ JSNum.roundHalfUp (JSNum.toDouble (JSNum.toDouble ((p : ℚ) / (c : ℚ)) * 100)) ∧
    JSNum.roundHalfUp (JSNum.toDouble (JSNum.toDouble ((p : ℚ) / (c : ℚ)) * 100)) ≤ 100 ∧
    (c < 2 ^ 32 →
      |((JSNum.roundHalfUp (JSNum.toDouble (JSNum.toDouble ((p : ℚ) / (c : ℚ)) * 100)) : ℤ) : ℚ) -
        (p : ℚ) / (c : ℚ) * 100| ≤ 1 / 2) := by
  obtain ⟨hz0, hz⟩ := abs_double_product_sub_le p c hc hpc
  have hk := abs_roundHalfUp_sub_le (JSNum.toDouble (JSNum.toDouble ((p : ℚ) / (c : ℚ)) * 100))
  have hcq : (0 : ℚ) < (c : ℚ) := by exact_mod_cast hc
  have hpq : (p : ℚ) ≤ (c : ℚ) := by exact_mod_cast hpc
  have hx1 : (p : ℚ) / (c : ℚ) ≤ 1 := (div_le_one hcq).mpr hpq
  refine ⟨?_, ?_, ?_⟩
  · unfold JSNum.roundHalfUp
    apply Int.floor_nonneg.mpr
    linarith
  · unfold JSNum.roundHalfUp
    have : ⌊JSNum.toDouble (JSNum.toDouble ((p : ℚ) / (c : ℚ)) * 100) + 1 / 2⌋ < 101 := by
      apply Int.floor_lt.mpr
      rw [abs_lt] at hz
      push_cast
      norm_num at hz ⊢
      linarith
    omega
  · intro hlen
    apply nearest_of_close _ p c hc hlen
    generalize JSNum.toDouble (JSNum.toDouble ((p : ℚ) / (c : ℚ)) * 100) = z at *
    generalize JSNum.roundHalfUp z = k at *
    rw [abs_le] at hk
    rw [abs_lt] at hz ⊢
    constructor <;> linarith

/-- C5: the paid percentage is an integer between 0 and 100 and is 0 on the
empty subsequence; on a non-empty one it is an integer nearest to
`paid / count * 100`, that is, within one half of it. The length of a
JavaScript array is below `2 ^ 32`. When `paid / count * 100` is a half, the
product of the doubles decides which of the two nearest integers it is. -/
theorem stats_paidPercentage_rounds (xs : List Invoice) (hlen : xs.length < 2 ^ 32) :
    ∃ k : ℤ, (stats xs).paidPercentage = JSNum.fin (k : ℚ) ∧ 0 ≤ k ∧ k ≤ 100 ∧
      (xs.length = 0 → k = 0) ∧
      (0 < xs.length →
        |(k : ℚ) - ((stats xs).paid : ℚ) / ((stats xs).count : ℚ) * 100| ≤ 1 / 2) := by
  rcases Nat.eq_zero_or_pos xs.length with h0 | hpos
  · refine ⟨0, by simp [stats, h0, JSNum.ofNat], le_refl _, by norm_num, fun _ => rfl, ?_⟩
    intro h; omega
  · have hne : ((xs.length : ℕ) : ℚ) ≠ 0 := by
      have : xs.length ≠ 0 := by omega
      exact_mod_cast this
    have hpaid : (xs.filter (fun inv => inv.estado = "pagado")).length ≤ xs.length :=
      List.length_filter_le _ _
    obtain ⟨hk0, hk100, hnear⟩ := roundHalfUp_double_product _ _ hpos hpaid
    refine ⟨_, ?_, hk0, hk100, ?_, ?_⟩
    · simp only [stats]
      rw [if_pos hpos, JSNum.ofNat, JSNum.ofNat, JSNum.ofNat, JSNum.div_fin _ _ hne]
      rfl
    · intro h; omega
    · intro _
      exact hnear hlen

theorem stats_paidPercentage_rounds_witness :
    fortyInvoices.length < 2 ^ 32 ∧
    (stats fortyInvoices).paid = 23 ∧ (stats fortyInvoices).count = 40 ∧
    (stats fortyInvoices).paidPercentage = JSNum.fin 57 ∧
    ∃ k : ℤ, (stats fortyInvoices).paidPercentage = JSNum.fin (k : ℚ) ∧ 0 ≤ k ∧ k ≤ 100 ∧
      (fortyInvoices.length = 0 → k = 0) ∧
      (0 < fortyInvoices.length →
        |(k : ℚ) - ((stats fortyInvoices).paid : ℚ) / ((stats fortyInvoices).count : ℚ) * 100| ≤
          1 / 2) :=
  ⟨by decide, by decide, by decide, by decide!,
    stats_paidPercentage_rounds fortyInvoices (by decide)⟩

/-! ## The period filter -/

theorem dateLe_iff (x y : Option Date) :
    dateLe x y = true ↔ ∃ a b, x = some a ∧ y = some b ∧ a ≤ b := by
  cases x <;> cases y <;> simp [dateLe]

theorem window_test_iff (customStartDate customEndDate fecha : String) :
    (dateGe (parseISO fecha) (parseISO customStartDate) &&
      dateLe (parseISO fecha) (parseISO customEndDate)) = true ↔
    InWindow customStartDate customEndDate fecha := by
  unfold dateGe InWindow
  rw [Bool.and_eq_true, dateLe_iff, dateLe_iff]
  constructor
  · rintro ⟨⟨a, d, ha, hd, had⟩, ⟨d2, b, hd2, hb, hdb⟩⟩
    rw [hd] at hd2
    cases hd2
    exact ⟨a, b, d, ha, hb, hd, had, hdb⟩
  · rintro ⟨a, b, d, ha, hb, hd, had, hdb⟩
    exact ⟨⟨a, d, ha, hd, had⟩, ⟨d, b, hd, hb, hdb⟩⟩

/-- C6: with a mode other than `all` and both bounds set, the period filter
keeps exactly the records whose date `d` has `start ≤ d` and `d ≤ end`, in
their order: the result is the input filtered by that test, so it is a
subsequence of the input that holds every record inside the window and none
outside. -/
theorem filteredInvoices_window (invoices : List Invoice)
    (periodFilter customStartDate customEndDate : String)
    (hmode : periodFilter ≠ "all") (hstart : customStartDate ≠ "")
    (hend : customEndDate ≠ "") :
    ∃ keep : Invoice → Bool,
      (∀ inv, keep inv = true ↔ InWindow customStartDate customEndDate inv.fecha) ∧
      filteredInvoices invoices periodFilter customStartDate customEndDate =
        invoices.filter keep ∧
      (filteredInvoices invoices periodFilter customStartDate customEndDate).Sublist
        invoices ∧
      ∀ inv, inv ∈ filteredInvoices invoices periodFilter customStartDate customEndDate ↔
        inv ∈ invoices ∧ InWindow customStartDate customEndDate inv.fecha := by
  have hcond : ¬ (periodFilter = "all" ∨ customStartDate = "" ∨ customEndDate = "") := by
    rintro (h | h | h)
    · exact hmode h
    · exact hstart h
    · exact hend h
  have heq : filteredInvoices invoices periodFilter customStartDate customEndDate =
      invoices.filter (fun invoice =>
        dateGe (parseISO invoice.fecha) (parseISO customStartDate) &&
          dateLe (parseISO invoice.fecha) (parseISO customEndDate)) := by
    unfold filteredInvoices
    rw [if_neg hcond]
  refine ⟨_, fun inv => window_test_iff customStartDate customEndDate inv.fecha, heq, ?_, ?_⟩
  · rw [heq]
    exact List.filter_sublist _
  · intro inv
    rw [heq, List.mem_filter, window_test_iff]

theorem filteredInvoices_window_witness :
    ("month" ≠ "all" ∧ "2024-02-01" ≠ "" ∧ "2024-04-30" ≠ "") ∧
    ∃ keep : Invoice → Bool,
      (∀ inv, keep inv = true ↔ InWindow "2024-02-01" "2024-04-30" inv.fecha) ∧
      filteredInvoices sampleInvoices "month" "2024-02-01" "2024-04-30" =
        sampleInvoices.filter keep ∧
      (filteredInvoices sampleInvoices "month" "2024-02-01" "2024-04-30").Sublist
        sampleInvoices ∧
      ∀ inv, inv ∈ filteredInvoices sampleInvoices "month" "2024-02-01" "2024-04-30" ↔
        inv ∈ sampleInvoices ∧ InWindow "2024-02-01" "2024-04-30" inv.fecha :=
  ⟨by decide, filteredInvoices_window sampleInvoices "month" "2024-02-01" "2024-04-30"
    (by decide) (by decide) (by decide)⟩

/-- C7: with the mode `all` the period filter returns its input, whatever the
bounds are; it also returns its input, in any mode, when the start or the end
is empty. -/
theorem filteredInvoices_all (invoices : List Invoice) :
    (∀ customStartDate customEndDate : String,
      filteredInvoices invoices "all" customStartDate customEndDate = invoices) ∧
    (∀ periodFilter customEndDate : String,
      filteredInvoices invoices periodFilter "" customEndDate = invoices) ∧
    (∀ periodFilter customStartDate : String,
      filteredInvoices invoices periodFilter customStartDate "" = invoices) := by
  refine ⟨?_, ?_, ?_⟩ <;> intros <;> simp [filteredInvoices]

/-! ## Dates -/

theorem Date.le_def (a b : Date) :
    a ≤ b ↔ a.year < b.year ∨ (a.year = b.year ∧
      (a.month < b.month ∨ (a.month = b.month ∧ a.day ≤ b.day))) :=
  Iff.rfl

theorem Date.le_antisymm {a b : Date} (hab : a ≤ b) (hba : b ≤ a) : a = b := by
  rw [Date.le_def] at hab hba
  cases a
  cases b
  simp only [Date.mk.injEq] at *
  omega

theorem Date.le_total (a b : Date) : a ≤ b ∨ b ≤ a := by
  rw [Date.le_def, Date.le_def]
  omega

theorem Date.le_trans {a b c : Date} (hab : a ≤ b) (hbc : b ≤ c) : a ≤ c := by
  rw [Date.le_def] at *
  omega

theorem Date.le_refl (a : Date) : a ≤ a := by
  rw [Date.le_def]
  omega

theorem parseISO_valid {s : String} {d : Date} (h : parseISO s = some d) :
    d.month ≤ 11 ∧ 1 ≤ d.day ∧ d.day ≤ daysInMonth d.year d.month := by
  unfold parseISO at h
  split at h
  · split at h
    · rename_i hv
      cases h
      simpa [validateDate, and_assoc] using hv.2
    · cases h
  · cases h

theorem monthIndex_le_of_le {a b : Date} (ha : a.month ≤ 11) (hb : b.month ≤ 11)
    (h : a ≤ b) : monthIndex a ≤ monthIndex b := by
  rw [Date.le_def] at h
  unfold monthIndex
  omega

theorem monthOfIndex_monthIndex (d : Date) (hm : d.month ≤ 11) (hd : d.day = 1) :
    monthOfIndex (monthIndex d) = d := by
  cases d
  simp only [monthOfIndex, monthIndex, Date.mk.injEq] at *
  omega

theorem monthIndex_monthOfIndex (k : Nat) : monthIndex (monthOfIndex k) = k := by
  simp only [monthOfIndex, monthIndex]
  omega

/-- The loop of `eachMonthOfInterval` stops by its own test after one round
per month of the interval: more fuel changes nothing, and the months are the
consecutive ones. -/
theorem eachMonthLoop_eq (n : Nat) : ∀ (cur e : Date) (extra : Nat),
    cur.day = 1 → cur.month ≤ 11 → e.month ≤ 11 → 1 ≤ e.day →
    monthIndex cur + n = monthIndex e + 1 →
    eachMonthLoop (n + extra) cur e =
      (List.range n).map (fun i => monthOfIndex (monthIndex cur + i)) := by
  induction n with
  | zero =>
    intro cur e extra hd hm hem hed hn
    have hnot : ¬ cur ≤ e := by
      rw [Date.le_def]
      unfold monthIndex at hn
      omega
    cases extra with
    | zero => rfl
    | succ k => simp [eachMonthLoop, hnot]
  | succ n ih =>
    intro cur e extra hd hm hem hed hn
    have hle : cur ≤ e := by
      rw [Date.le_def]
      unfold monthIndex at hn
      omega
    have hnext : monthIndex (nextMonth cur) = monthIndex cur + 1 := by
      unfold nextMonth monthIndex
      split <;> simp only [] <;> omega
    have hnd : (nextMonth cur).day = 1 := by
      unfold nextMonth
      split <;> exact hd
    have hnm : (nextMonth cur).month ≤ 11 := by
      unfold nextMonth
      split <;> simp only [] <;> omega
    rw [Nat.add_right_comm, eachMonthLoop, if_pos hle,
      ih (nextMonth cur) e extra hnd hnm hem hed (by omega), List.range_succ_eq_map,
      List.map_cons, List.map_map, hnext]
    have h0 : monthOfIndex (monthIndex cur + 0) = cur := by
      rw [Nat.add_zero, monthOfIndex_monthIndex cur hm hd]
    rw [h0]
    congr 1
    apply List.map_congr_left
    intro i _
    show monthOfIndex (monthIndex cur + 1 + i) = monthOfIndex (monthIndex cur + Nat.succ i)
    rw [Nat.succ_eq_add_one, Nat.add_assoc, Nat.add_comm 1 i]

theorem map_eq_map_some {α β : Type} (f : α → Option β) (xs : List α)
    (h : ∀ x ∈ xs, ∃ d, f x = some d) :
    ∃ ds : List β, xs.map f = ds.map some ∧ ds.length = xs.length ∧
      ∀ d, d ∈ ds ↔ ∃ x ∈ xs, f x = some d := by
  induction xs with
  | nil => exact ⟨[], rfl, rfl, by simp⟩
  | cons x xs ih =>
    obtain ⟨ds, hds, hlen, hmem⟩ := ih (fun y hy => h y (List.mem_cons_of_mem _ hy))
    obtain ⟨d, hd⟩ := h x (List.mem_cons_self _ _)
    refine ⟨d :: ds, by simp [hd, hds], by simp [hlen], ?_⟩
    intro d2
    simp only [List.mem_cons, hmem, exists_eq_or_imp, hd, Option.some.injEq]
    constructor
    · rintro (h1 | h1)
      · exact Or.inl h1.symm
      · exact Or.inr h1
    · rintro (h1 | h1)
      · exact Or.inl h1.symm
      · exact Or.inr h1

theorem minDate_fold (rest : List Date) : ∀ acc : Date,
    ∃ m, (rest.map some).foldl (fun acc x =>
        match acc, x with
        | some a, some b => some (if b ≤ a then b else a)
        | _, _ => none) (some acc) = some m ∧
      m ∈ acc :: rest ∧ ∀ d ∈ acc :: rest, m ≤ d := by
  induction rest with
  | nil =>
    intro acc
    exact ⟨acc, rfl, by simp, by simp [Date.le_refl]⟩
  | cons b rest ih =>
    intro acc
    simp only [List.map_cons, List.foldl_cons]
    by_cases hba : b ≤ acc
    · obtain ⟨m, hm, hmem, hle⟩ := ih b
      refine ⟨m, by simpa [hba] using hm, ?_, ?_⟩
      · exact List.mem_cons_of_mem _ hmem
      · intro d hd
        rcases List.mem_cons.mp hd with hd | hd
        · subst hd
          exact Date.le_trans (hle b (List.mem_cons_self _ _)) hba
        · exact hle d hd
    · obtain ⟨m, hm, hmem, hle⟩ := ih acc
      have hab : acc ≤ b := (Date.le_total acc b).resolve_right hba
      refine ⟨m, by simpa [hba] using hm, ?_, ?_⟩
      · rcases List.mem_cons.mp hmem with h1 | h1
        · exact h1 ▸ List.mem_cons_self _ _
        · exact List.mem_cons_of_mem _ (List.mem_cons_of_mem _ h1)
      · intro d hd
        rcases List.mem_cons.mp hd with hd | hd
        · subst hd
          exact hle d (List.mem_cons_self _ _)
        · rcases List.mem_cons.mp hd with hd | hd
          · subst hd
            exact Date.le_trans (hle acc (List.mem_cons_self _ _)) hab
          · exact hle d (List.mem_cons_of_mem _ hd)

theorem maxDate_fold (rest : List Date) : ∀ acc : Date,
    ∃ m, (rest.map some).foldl (fun acc x =>
        match acc, x with
        | some a, some b => some (if a ≤ b then b else a)
        | _, _ => none) (some acc) = some m ∧
      m ∈ acc :: rest ∧ ∀ d ∈ acc :: rest, d ≤ m := by
  induction rest with
  | nil =>
    intro acc
    exact ⟨acc, rfl, by simp, by simp [Date.le_refl]⟩
  | cons b rest ih =>
    intro acc
    simp only [List.map_cons, List.foldl_cons]
    by_cases hab : acc ≤ b
    · obtain ⟨m, hm, hmem, hle⟩ := ih b
      refine ⟨m, by simpa [hab] using hm, ?_, ?_⟩
      · exact List.mem_cons_of_mem _ hmem
      · intro d hd
        rcases List.mem_cons.mp hd with hd | hd
        · subst hd
          exact Date.le_trans hab (hle b (List.mem_cons_self _ _))
        · exact hle d hd
    · obtain ⟨m, hm, hmem, hle⟩ := ih acc
      have hba : b ≤ acc := (Date.le_total acc b).resolve_left hab
      refine ⟨m, by simpa [hab] using hm, ?_, ?_⟩
      · rcases List.mem_cons.mp hmem with h1 | h1
        · exact h1 ▸ List.mem_cons_self _ _
        · exact List.mem_cons_of_mem _ (List.mem_cons_of_mem _ h1)
      · intro d hd
        rcases List.mem_cons.mp hd with hd | hd
        · subst hd
          exact hle d (List.mem_cons_self _ _)
        · rcases List.mem_cons.mp hd with hd | hd
          · subst hd
            exact Date.le_trans hba (hle acc (List.mem_cons_self _ _))
          · exact hle d (List.mem_cons_of_mem _ hd)

theorem minDate_spec (ds : List Date) (hne : ds ≠ []) :
    ∃ m, minDate (ds.map some) = some m ∧ m ∈ ds ∧ ∀ d ∈ ds, m ≤ d := by
  cases ds with
  | nil => exact absurd rfl hne
  | cons d ds => exact minDate_fold ds d

theorem maxDate_spec (ds : List Date) (hne : ds ≠ []) :
    ∃ m, maxDate (ds.map some) = some m ∧ m ∈ ds ∧ ∀ d ∈ ds, d ≤ m := by
  cases ds with
  | nil => exact absurd rfl hne
  | cons d ds => exact maxDate_fold ds d

/-! ## The monthly series -/

theorem monthlyData_eq_range (xs : List Invoice) (lo hi : Date)
    (hvalid : ∀ inv ∈ xs, ∃ d, parseISO inv.fecha = some d)
    (hlo : ∃ inv ∈ xs, parseISO inv.fecha = some lo)
    (hlo_min : ∀ inv ∈ xs, ∀ d, parseISO inv.fecha = some d → lo ≤ d)
    (hhi : ∃ inv ∈ xs, parseISO inv.fecha = some hi)
    (hhi_max : ∀ inv ∈ xs, ∀ d, parseISO inv.fecha = some d → d ≤ hi) :
    monthIndex lo ≤ monthIndex hi ∧
    monthlyData xs = some ((List.range (monthIndex hi - monthIndex lo + 1)).map
      (fun i => monthBucket xs (monthOfIndex (monthIndex lo + i)))) := by
  obtain ⟨ds, hds, _, hmem⟩ := map_eq_map_some (fun inv : Invoice => parseISO inv.fecha) xs hvalid
  have hlo_mem : lo ∈ ds := (hmem lo).mpr hlo
  have hhi_mem : hi ∈ ds := (hmem hi).mpr hhi
  have hne : ds ≠ [] := List.ne_nil_of_mem hlo_mem
  have hlo_le : ∀ d ∈ ds, lo ≤ d := by
    intro d hd
    obtain ⟨inv, hinv, hp⟩ := (hmem d).mp hd
    exact hlo_min inv hinv d hp
  have hhi_le : ∀ d ∈ ds, d ≤ hi := by
    intro d hd
    obtain ⟨inv, hinv, hp⟩ := (hmem d).mp hd
    exact hhi_max inv hinv d hp
  obtain ⟨m1, hm1, hm1_mem, hm1_le⟩ := minDate_spec ds hne
  obtain ⟨m2, hm2, hm2_mem, hm2_le⟩ := maxDate_spec ds hne
  have e1 : m1 = lo := Date.le_antisymm (hm1_le lo hlo_mem) (hlo_le m1 hm1_mem)
  have e2 : m2 = hi := Date.le_antisymm (hhi_le m2 hm2_mem) (hm2_le hi hhi_mem)
  subst e1 e2
  obtain ⟨inv1, _, hp1⟩ := hlo
  obtain ⟨inv2, hinv2, hp2⟩ := hhi
  have v1 := parseISO_valid hp1
  have v2 := parseISO_valid hp2
  have hle : m1 ≤ m2 := hlo_le m2 hhi_mem
  have hidx : monthIndex m1 ≤ monthIndex m2 := monthIndex_le_of_le v1.1 v2.1 hle
  have hlen : xs.length ≠ 0 := by
    intro h0
    rw [List.length_eq_zero.mp h0] at hinv2
    cases hinv2
  have hloop := eachMonthLoop_eq (monthIndex m2 - monthIndex m1 + 1) (startOfMonth m1) m2 0
    rfl v1.1 v2.1 v2.2.1 (by show monthIndex m1 + _ = _; omega)
  have hfuel : monthIndex m2 + 1 - monthIndex m1 = monthIndex m2 - monthIndex m1 + 1 + 0 := by
    omega
  have hmain : monthlyData xs = some ((List.range (monthIndex m2 - monthIndex m1 + 1)).map
      (fun i => monthBucket xs (monthOfIndex (monthIndex m1 + i)))) := by
    unfold monthlyData
    rw [if_neg hlen]
    simp only [hds, hm1, hm2, eachMonthOfInterval, if_pos hle, Option.map_some', hfuel, hloop,
      List.map_map]
    rfl
  exact ⟨hidx, hmain⟩

/-- C8: for a non-empty subsequence of validly dated records, whose earliest
date is `lo` and latest date is `hi`, the monthly series is the list of the
buckets of the consecutive calendar months from the month of `lo` to the
month of `hi`: bucket `i` is the bucket of the month `i` places after the
month of `lo`, so the order is chronological with no gap and no duplicate, a
month with no invoice has its bucket, and the length is the number of months
between the two plus one. The series of the empty subsequence is empty. -/
theorem monthlyData_contiguous (xs : List Invoice) (lo hi : Date)
    (hvalid : ∀ inv ∈ xs, ∃ d, parseISO inv.fecha = some d)
    (hlo : ∃ inv ∈ xs, parseISO inv.fecha = some lo)
    (hlo_min : ∀ inv ∈ xs, ∀ d, parseISO inv.fecha = some d → lo ≤ d)
    (hhi : ∃ inv ∈ xs, parseISO inv.fecha = some hi)
    (hhi_max : ∀ inv ∈ xs, ∀ d, parseISO inv.fecha = some d → d ≤ hi) :
    monthlyData [] = some [] ∧
    monthIndex lo ≤ monthIndex hi ∧
    monthlyData xs = some ((List.range (monthIndex hi - monthIndex lo + 1)).map
      (fun i => monthBucket xs (monthOfIndex (monthIndex lo + i)))) ∧
    (∀ series, monthlyData xs = some series →
      series.length = monthIndex hi - monthIndex lo + 1) ∧
    ∀ i, monthIndex (monthOfIndex (monthIndex lo + i)) = monthIndex lo + i := by
  obtain ⟨hidx, hmain⟩ := monthlyData_eq_range xs lo hi hvalid hlo hlo_min hhi hhi_max
  refine ⟨rfl, hidx, hmain, ?_, fun i => monthIndex_monthOfIndex _⟩
  intro series hs
  rw [hmain] at hs
  cases hs
  simp

theorem monthlyData_contiguous_witness :
    (∀ inv ∈ sampleInvoices, ∃ d, parseISO inv.fecha = some d) ∧
    monthlyData [] = some [] ∧
    monthIndex ⟨2024, 0, 15⟩ ≤ monthIndex ⟨2024, 3, 20⟩ ∧
    monthlyData sampleInvoices =
      some ((List.range (monthIndex ⟨2024, 3, 20⟩ - monthIndex ⟨2024, 0, 15⟩ + 1)).map
        (fun i => monthBucket sampleInvoices
          (monthOfIndex (monthIndex ⟨2024, 0, 15⟩ + i)))) ∧
    (∀ series, monthlyData sampleInvoices = some series →
      series.length = monthIndex ⟨2024, 3, 20⟩ - monthIndex ⟨2024, 0, 15⟩ + 1) ∧
    ∀ i, monthIndex (monthOfIndex (monthIndex ⟨2024, 0, 15⟩ + i)) =
      monthIndex ⟨2024, 0, 15⟩ + i :=
  have hvalid : ∀ inv ∈ sampleInvoices, ∃ d, parseISO inv.fecha = some d := by
    intro inv hinv
    simp only [sampleInvoices, List.mem_cons, List.mem_singleton, List.not_mem_nil,
      or_false] at hinv
    rcases hinv with h | h | h <;> subst h <;> exact ⟨_, rfl⟩
  ⟨hvalid, monthlyData_contiguous sampleInvoices ⟨2024, 0, 15⟩ ⟨2024, 3, 20⟩ hvalid
    ⟨_, List.mem_cons_self _ _, rfl⟩
    (by
      intro inv hinv d hd
      simp only [sampleInvoices, List.mem_cons, List.mem_singleton, List.not_mem_nil,
        or_false] at hinv
      rcases hinv with h | h | h <;> subst h <;> cases hd <;> decide)
    ⟨_, List.mem_cons_of_mem _ (List.mem_cons_of_mem _ (List.mem_cons_self _ _)), rfl⟩
    (by
      intro inv hinv d hd
      simp only [sampleInvoices, List.mem_cons, List.mem_singleton, List.not_mem_nil,
        or_false] at hinv
      rcases hinv with h | h | h <;> subst h <;> cases hd <;> decide)⟩

theorem minDate_fold_mem (l : List (Option Date)) : ∀ (acc : Option Date) (m : Date),
    l.foldl (fun acc x =>
        match acc, x with
        | some a, some b => some (if b ≤ a then b else a)
        | _, _ => none) acc = some m →
      acc = some m ∨ some m ∈ l := by
  induction l with
  | nil =>
    intro acc m h
    exact Or.inl h
  | cons x l ih =>
    intro acc m h
    rw [List.foldl_cons] at h
    rcases ih _ m h with h1 | h1
    · cases acc with
      | none => cases h1
      | some a =>
        cases x with
        | none => cases h1
        | some b =>
          simp only [Option.some.injEq] at h1
          split at h1
          · subst h1
            exact Or.inr (List.mem_cons_self _ _)
          · subst h1
            exact Or.inl rfl
    · exact Or.inr (List.mem_cons_of_mem _ h1)

theorem minDate_mem {l : List (Option Date)} {m : Date} (h : minDate l = some m) :
    some m ∈ l := by
  cases l with
  | nil => cases h
  | cons x l =>
    rcases minDate_fold_mem l x m h with h1 | h1
    · exact h1 ▸ List.mem_cons_self _ _
    · exact List.mem_cons_of_mem _ h1

theorem eachMonthLoop_mem (fuel : Nat) : ∀ (cur e : Date), cur.month ≤ 11 →
    ∀ M ∈ eachMonthLoop fuel cur e, M.month ≤ 11 := by
  induction fuel with
  | zero =>
    intro cur e _ M hM
    cases hM
  | succ fuel ih =>
    intro cur e hm M hM
    rw [eachMonthLoop] at hM
    split at hM
    · rcases List.mem_cons.mp hM with h1 | h1
      · exact h1 ▸ hm
      · refine ih (nextMonth cur) e ?_ M h1
        unfold nextMonth
        split <;> simp only [] <;> omega
    · cases hM

theorem month_test_iff (M : Date) (fecha : String) :
    (dateGe (parseISO fecha) (some (startOfMonth M)) &&
      dateLe (parseISO fecha) (some (endOfMonth M))) = true ↔
    InMonth M.year M.month fecha := by
  unfold dateGe InMonth
  rw [Bool.and_eq_true, dateLe_iff, dateLe_iff]
  constructor
  · rintro ⟨⟨a, d, ha, hd, had⟩, ⟨d2, b, hd2, hb, hdb⟩⟩
    rw [hd] at hd2
    cases hd2
    cases ha
    cases hb
    refine ⟨d, hd, ?_⟩
    rw [Date.le_def] at had hdb
    simp only [startOfMonth, endOfMonth] at had hdb
    omega
  · rintro ⟨d, hd, hy, hm⟩
    have hv := parseISO_valid hd
    rw [hy, hm] at hv
    refine ⟨⟨_, d, rfl, hd, ?_⟩, ⟨d, _, hd, rfl, ?_⟩⟩
    · rw [Date.le_def]
      simp only [startOfMonth]
      omega
    · rw [Date.le_def]
      simp only [endOfMonth]
      omega

theorem monthInvoices_eq_filter (xs : List Invoice) (M : Date) :
    monthInvoices xs M = xs.filter (fun inv => decide (InMonth M.year M.month inv.fecha)) := by
  unfold monthInvoices
  apply List.filter_congr
  intro inv _
  rw [Bool.eq_iff_iff, month_test_iff, decide_eq_true_iff]

theorem monthlyData_months {xs : List Invoice} {series : List MonthBucket}
    (h : monthlyData xs = some series) :
    ∀ b ∈ series, ∃ M : Date, M.month ≤ 11 ∧ b = monthBucket xs M := by
  unfold monthlyData at h
  split at h
  · cases h
    intro b hb
    cases hb
  · simp only [Option.map_eq_some'] at h
    obtain ⟨months, hmonths, hseries⟩ := h
    subst hseries
    intro b hb
    obtain ⟨M, hM, rfl⟩ := List.mem_map.mp hb
    refine ⟨M, ?_, rfl⟩
    unfold eachMonthOfInterval at hmonths
    split at hmonths
    · rename_i s e hs he
      split at hmonths
      · cases hmonths
        have hmem := minDate_mem hs
        obtain ⟨inv, _, hinv⟩ := List.mem_map.mp hmem
        have hv := parseISO_valid hinv
        exact eachMonthLoop_mem _ (startOfMonth s) e hv.1 M hM
      · cases hmonths
    · cases hmonths

/-- C9: every bucket of the monthly series is the bucket of a calendar month:
its `total` is the sum (the reduction that the summary total uses, and the
sum of the numbers when the amounts are non-negative integers) over the
records dated in that month, `pagado` is that sum over those of them whose
status is `pagado`, `pendiente` is `total - pagado`, and `count` is the number
of those records. -/
theorem monthlyData_bucket_totals (xs : List Invoice) (series : List MonthBucket)
    (h : monthlyData xs = some series) (b : MonthBucket) (hb : b ∈ series) :
    ∃ year month : Nat, month ≤ 11 ∧ b.month = formatMonth ⟨year, month, 1⟩ ∧
      b.total = sumMontos (xs.filter (fun inv => decide (InMonth year month inv.fecha))) ∧
      b.pagado = sumMontos ((xs.filter (fun inv => decide (InMonth year month inv.fecha))).filter
        (fun inv => inv.estado = "pagado")) ∧
      b.pendiente = JSNum.sub b.total b.pagado ∧
      b.count = (xs.filter (fun inv => decide (InMonth year month inv.fecha))).length ∧
      (∀ amounts : List Nat,
        List.Forall₂ IsAmount (xs.filter (fun inv => decide (InMonth year month inv.fecha)))
          amounts → b.total = JSNum.fin ((amounts.sum : ℕ) : ℚ)) ∧
      (∀ amounts : List Nat,
        List.Forall₂ IsAmount ((xs.filter (fun inv => decide (InMonth year month inv.fecha))).filter
          (fun inv => inv.estado = "pagado")) amounts →
        b.pagado = JSNum.fin ((amounts.sum : ℕ) : ℚ)) := by
  obtain ⟨M, hM, rfl⟩ := monthlyData_months h b hb
  have hf := monthInvoices_eq_filter xs M
  refine ⟨M.year, M.month, hM, rfl, ?_, ?_, rfl, ?_, ?_, ?_⟩
  · simp only [monthBucket, hf]
  · simp only [monthBucket, hf]
  · simp only [monthBucket, hf]
  · intro amounts ha
    simp only [monthBucket, hf]
    exact sumMontos_of_amounts _ _ ha
  · intro amounts ha
    simp only [monthBucket, hf]
    exact sumMontos_of_amounts _ _ ha

theorem monthlyData_bucket_totals_witness :
    monthlyData sampleInvoices = some sampleSeries ∧
    ∃ year month : Nat, month ≤ 11 ∧
      (⟨"feb 2024", JSNum.fin 50000, JSNum.fin 50000, JSNum.fin 0, 1⟩ : MonthBucket).month =
        formatMonth ⟨year, month, 1⟩ ∧
      (⟨"feb 2024", JSNum.fin 50000, JSNum.fin 50000, JSNum.fin 0, 1⟩ : MonthBucket).total =
        sumMontos (sampleInvoices.filter (fun inv => decide (InMonth year month inv.fecha))) ∧
      (⟨"feb 2024", JSNum.fin 50000, JSNum.fin 50000, JSNum.fin 0, 1⟩ : MonthBucket).pagado =
        sumMontos ((sampleInvoices.filter
          (fun inv => decide (InMonth year month inv.fecha))).filter
            (fun inv => inv.estado = "pagado")) ∧
      (⟨"feb 2024", JSNum.fin 50000, JSNum.fin 50000, JSNum.fin 0, 1⟩ : MonthBucket).pendiente =
        JSNum.sub
          (⟨"feb 2024", JSNum.fin 50000, JSNum.fin 50000, JSNum.fin 0, 1⟩ : MonthBucket).total
          (⟨"feb 2024", JSNum.fin 50000, JSNum.fin 50000, JSNum.fin 0, 1⟩ : MonthBucket).pagado ∧
      (⟨"feb 2024", JSNum.fin 50000, JSNum.fin 50000, JSNum.fin 0, 1⟩ : MonthBucket).count =
        (sampleInvoices.filter (fun inv => decide (InMonth year month inv.fecha))).length ∧
      (∀ amounts : List Nat,
        List.Forall₂ IsAmount
          (sampleInvoices.filter (fun inv => decide (InMonth year month inv.fecha))) amounts →
        (⟨"feb 2024", JSNum.fin 50000, JSNum.fin 50000, JSNum.fin 0, 1⟩ : MonthBucket).total =
          JSNum.fin ((amounts.sum : ℕ) : ℚ)) ∧
      (∀ amounts : List Nat,
        List.Forall₂ IsAmount ((sampleInvoices.filter
          (fun inv => decide (InMonth year month inv.fecha))).filter
            (fun inv => inv.estado = "pagado")) amounts →
        (⟨"feb 2024", JSNum.fin 50000, JSNum.fin 50000, JSNum.fin 0, 1⟩ : MonthBucket).pagado =
          JSNum.fin ((amounts.sum : ℕ) : ℚ)) :=
  ⟨by decide!, monthlyData_bucket_totals sampleInvoices sampleSeries (by decide!) _
    (List.mem_cons_of_mem _ (List.mem_cons_self _ _))⟩

/-! ## The trend series -/

theorem JSNum.sub_fin (a b : ℚ) : JSNum.sub (JSNum.fin a) (JSNum.fin b) = JSNum.fin (a - b) := by
  rw [sub_eq_add_neg]
  rfl

theorem mapWithIndex_get? {α β : Type} (f : α → Nat → β) (xs : List α) :
    ∀ k i : Nat, (mapWithIndex f k xs).get? i = (xs.get? i).map (fun x => f x (k + i)) := by
  induction xs with
  | nil =>
    intro k i
    rfl
  | cons x xs ih =>
    intro k i
    cases i with
    | zero => rfl
    | succ i =>
      rw [mapWithIndex, List.get?_cons_succ, List.get?_cons_succ, ih]
      congr 1
      funext y
      congr 1
      omega

theorem toFixed1_near (q : ℚ) :
    ∃ n : ℤ, toFixed1 (JSNum.fin q) = JSNum.fin ((n : ℚ) / 10) ∧ |(n : ℚ) / 10 - q| ≤ 1 / 20 := by
  by_cases hq : q < 0
  · refine ⟨-⌊-q * 10 + 1 / 2⌋, ?_, ?_⟩
    · simp only [toFixed1]
      rw [if_pos hq]
      push_cast
      rfl
    · have h1 := Int.floor_le (-q * 10 + 1 / 2)
      have h2 := Int.lt_floor_add_one (-q * 10 + 1 / 2)
      rw [abs_le]
      push_cast
      constructor <;> linarith
  · refine ⟨⌊q * 10 + 1 / 2⌋, ?_, ?_⟩
    · simp only [toFixed1]
      rw [if_neg hq]
    · have h1 := Int.floor_le (q * 10 + 1 / 2)
      have h2 := Int.lt_floor_add_one (q * 10 + 1 / 2)
      rw [abs_le]
      constructor <;> linarith

/-- C10: the trend series is empty when the monthly series has fewer than two
buckets. Otherwise each bucket after the first whose predecessor has a finite
total `p ≠ 0`, its own total being `c`, is paired with a growth value that is
a whole number of tenths and lies within one twentieth of
`(c - p) / p * 100`: that quotient rounded to one decimal place. -/
theorem trendData_growth (monthlyData : List MonthBucket) :
    (monthlyData.length < 2 → trendData monthlyData = []) ∧
    (2 ≤ monthlyData.length →
      ∀ (i : Nat) (current previous : MonthBucket) (c p : ℚ),
        monthlyData.get? (i + 1) = some current → monthlyData.get? i = some previous →
        current.total = JSNum.fin c → previous.total = JSNum.fin p → p ≠ 0 →
        ∃ n : ℤ,
          (trendData monthlyData).get? (i + 1) = some ⟨current, JSNum.fin ((n : ℚ) / 10)⟩ ∧
          |(n : ℚ) / 10 - (c - p) / p * 100| ≤ 1 / 20) := by
  constructor
  · intro h
    unfold trendData
    rw [if_pos h]
  · intro h i current previous c p hcur hprev hc hp hp0
    have hlen : ¬ monthlyData.length < 2 := by omega
    obtain ⟨n, hn, hnear⟩ := toFixed1_near ((c - p) / p * 100)
    refine ⟨n, ?_, hnear⟩
    unfold trendData
    rw [if_neg hlen, mapWithIndex_get?, hcur]
    simp only [Option.map_some', Nat.zero_add, Nat.add_sub_cancel, totalAt, hprev, hc, hp,
      Nat.succ_pos, if_true, gt_iff_lt, JSNum.sub_fin, JSNum.div_fin _ _ hp0, JSNum.ofNat,
      JSNum.mul_fin]
    rw [← hn]
    norm_num

theorem trendData_growth_witness :
    ∃ n : ℤ,
      (trendData sampleSeries).get? (0 + 1) =
        some ⟨⟨"feb 2024", JSNum.fin 50000, JSNum.fin 50000, JSNum.fin 0, 1⟩,
          JSNum.fin ((n : ℚ) / 10)⟩ ∧
      |(n : ℚ) / 10 - ((50000 : ℚ) - 100000) / 100000 * 100| ≤ 1 / 20 :=
  (trendData_growth sampleSeries).2 (by decide) 0 _ _ 50000 100000 rfl rfl rfl rfl
    (by norm_num)

/-! ## Growth after a month with no invoice -/

/-- C11: the growth is not guarded against a zero previous total. In the
series of two invoices three months apart, March follows the empty February
and April follows the empty March: the growth of March is `NaN` (`0 / 0`) and
the growth of April is `Infinity` (`50 / 0`). -/
theorem trendData_zero_previous_unguarded :
    (monthlyData gapInvoices).map (fun series => series.map (fun b => b.total)) =
      some [JSNum.fin 100, JSNum.fin 0, JSNum.fin 0, JSNum.fin 50] ∧
    (monthlyData gapInvoices).map (fun series =>
      (trendData series).map (fun p => p.crecimiento)) =
      some [JSNum.fin 0, JSNum.fin (-100), JSNum.nan, JSNum.posInf] := by
  constructor <;> decide!

/-! ## The scenario of the specification -/

/-- C16: on the scenario with the window `all` the dashboard computes the total
350000, the count 3, 2 paid and 1 pending invoices and the paid percentage 67;
the monthly series has the two buckets of January 2024 (total 100000, paid 0)
and February 2024 (total 250000, paid 250000); and the ranking is B with
200000, then A with 150000. -/
theorem scenario_dashboard :
    (dashboardStats scenarioInvoices "all" "" "").total = JSNum.fin 350000 ∧
    (dashboardStats scenarioInvoices "all" "" "").count = 3 ∧
    (dashboardStats scenarioInvoices "all" "" "").paid = 2 ∧
    (dashboardStats scenarioInvoices "all" "" "").pending = 1 ∧
    (dashboardStats scenarioInvoices "all" "" "").paidPercentage = JSNum.fin 67 ∧
    monthlyData (filteredInvoices scenarioInvoices "all" "" "") =
      some [ ⟨"ene 2024", JSNum.fin 100000, JSNum.fin 0, JSNum.fin 100000, 1⟩,
             ⟨"feb 2024", JSNum.fin 250000, JSNum.fin 250000, JSNum.fin 0, 2⟩ ] ∧
    (topClients (filteredInvoices scenarioInvoices "all" "" "")).map
        (fun g => (g.cliente, g.total)) =
      [("B", JSNum.fin 200000), ("A", JSNum.fin 150000)] := by
  refine ⟨?_, ?_, ?_, ?_, ?_, ?_, ?_⟩ <;> decide!

/-! ## Amounts that are no numbers -/

/-- C17: a missing, `null` or empty amount is read as 0, but the text `abc` is
read as `NaN`, and `NaN` is then the summary total, the total of the month and
the total of the client. -/
theorem invalid_amount_is_nan :
    montoOf ⟨.string "n0", "FAC-019", "2024-01-15", "A", .undefined, "pendiente", ""⟩ =
      JSNum.fin 0 ∧
    montoOf ⟨.string "n0", "FAC-019", "2024-01-15", "A", .null, "pendiente", ""⟩ =
      JSNum.fin 0 ∧
    montoOf ⟨.string "n0", "FAC-019", "2024-01-15", "A", .string "", "pendiente", ""⟩ =
      JSNum.fin 0 ∧
    montoOf ⟨.string "n1", "FAC-020", "2024-01-15", "A", .string "abc", "pendiente", ""⟩ =
      JSNum.nan ∧
    (stats invalidAmountInvoices).total = JSNum.nan ∧
    (monthlyData invalidAmountInvoices).map (fun series => series.map (fun b => b.total)) =
      some [JSNum.nan] ∧
    (topClients invalidAmountInvoices).map (fun g => (g.cliente, g.total)) =
      [("A", JSNum.nan), ("B", JSNum.fin 50)] := by
  refine ⟨?_, ?_, ?_, ?_, ?_, ?_, ?_⟩ <;> decide!

/-! ## The record store -/

/-- C19: a submitted record without an id is appended: the new collection is
the old one followed by one record, which carries the submitted fields, the
generated id, and the submitted date, or today's date when the submitted date
is empty. -/
theorem handleSaveInvoice_create (generatedId today : String) (invoices : List Invoice)
    (invoiceData : Invoice) (hid : invoiceData.id.truthy = false) :
    ∃ newInvoice : Invoice,
      handleSaveInvoice generatedId today invoices invoiceData = invoices ++ [newInvoice] ∧
      (handleSaveInvoice generatedId today invoices invoiceData).length = invoices.length + 1 ∧
      (handleSaveInvoice generatedId today invoices invoiceData).take invoices.length =
        invoices ∧
      newInvoice.id = JSValue.string generatedId ∧
      newInvoice.numero = invoiceData.numero ∧
      newInvoice.cliente = invoiceData.cliente ∧
      newInvoice.monto = invoiceData.monto ∧
      newInvoice.estado = invoiceData.estado ∧
      newInvoice.notas = invoiceData.notas ∧
      (invoiceData.fecha ≠ "" → newInvoice.fecha = invoiceData.fecha) ∧
      (invoiceData.fecha = "" → newInvoice.fecha = today) := by
  have heq : handleSaveInvoice generatedId today invoices invoiceData =
      invoices ++ [⟨JSValue.string generatedId, invoiceData.numero,
        if invoiceData.fecha ≠ "" then invoiceData.fecha else today, invoiceData.cliente,
        invoiceData.monto, invoiceData.estado, invoiceData.notas⟩] := by
    unfold handleSaveInvoice
    simp only [hid, Bool.false_eq_true, if_false]
  refine ⟨_, heq, ?_, ?_, rfl, rfl, rfl, rfl, rfl, rfl, ?_, ?_⟩
  · rw [heq]
    simp
  · rw [heq]
    simp
  · intro h
    exact if_pos h
  · intro h
    exact if_neg (fun hne => hne h)

theorem handleSaveInvoice_create_witness :
    (⟨.null, "FAC-004", "", "C", .string "700", "pendiente", ""⟩ : Invoice).id.truthy = false ∧
    ∃ newInvoice : Invoice,
      handleSaveInvoice "lx3k9a7f2" "2024-05-05" sampleInvoices
          ⟨.null, "FAC-004", "", "C", .string "700", "pendiente", ""⟩ =
        sampleInvoices ++ [newInvoice] ∧
      (handleSaveInvoice "lx3k9a7f2" "2024-05-05" sampleInvoices
          ⟨.null, "FAC-004", "", "C", .string "700", "pendiente", ""⟩).length =
        sampleInvoices.length + 1 ∧
      (handleSaveInvoice "lx3k9a7f2" "2024-05-05" sampleInvoices
          ⟨.null, "FAC-004", "", "C", .string "700", "pendiente", ""⟩).take
          sampleInvoices.length = sampleInvoices ∧
      newInvoice.id = JSValue.string "lx3k9a7f2" ∧
      newInvoice.numero = "FAC-004" ∧
      newInvoice.cliente = "C" ∧
      newInvoice.monto = .string "700" ∧
      newInvoice.estado = "pendiente" ∧
      newInvoice.notas = "" ∧
      (("" : String) ≠ "" → newInvoice.fecha = "") ∧
      (("" : String) = "" → newInvoice.fecha = "2024-05-05") :=
  ⟨rfl, handleSaveInvoice_create "lx3k9a7f2" "2024-05-05" sampleInvoices
    ⟨.null, "FAC-004", "", "C", .string "700", "pendiente", ""⟩ rfl⟩

/-- C20: a submitted record with an id replaces, in place, every record with
that id: the length is the same, position by position a record with that id
becomes the submitted record and any other record stays, and with no record
of that id the collection is unchanged. -/
theorem handleSaveInvoice_update (generatedId today : String) (invoices : List Invoice)
    (invoiceData : Invoice) (hid : invoiceData.id.truthy = true) :
    (handleSaveInvoice generatedId today invoices invoiceData).length = invoices.length ∧
    (∀ (i : Nat) (inv : Invoice), invoices.get? i = some inv →
      (inv.id = invoiceData.id →
        (handleSaveInvoice generatedId today invoices invoiceData).get? i = some invoiceData) ∧
      (inv.id ≠ invoiceData.id →
        (handleSaveInvoice generatedId today invoices invoiceData).get? i = some inv)) ∧
    ((∀ inv ∈ invoices, inv.id ≠ invoiceData.id) →
      handleSaveInvoice generatedId today invoices invoiceData = invoices) := by
  have heq : handleSaveInvoice generatedId today invoices invoiceData =
      invoices.map (fun inv => if inv.id = invoiceData.id then invoiceData else inv) := by
    unfold handleSaveInvoice
    rw [if_pos hid]
  rw [heq]
  refine ⟨List.length_map _ _, ?_, ?_⟩
  · intro i inv hi
    rw [List.get?_eq_getElem?, List.getElem?_map, ← List.get?_eq_getElem?, hi]
    constructor
    · intro h
      simp [h]
    · intro h
      simp [h]
  · intro h
    conv_rhs => rw [← List.map_id invoices]
    apply List.map_congr_left
    intro inv hinv
    simp [h inv hinv]

theorem handleSaveInvoice_update_witness :
    (⟨.string "m2", "FAC-002", "2024-02-11", "A", .string "60000", "pagado", "x"⟩ :
      Invoice).id.truthy = true ∧
    handleSaveInvoice "lx3k9a7f2" "2024-05-05" sampleInvoices
        ⟨.string "m2", "FAC-002", "2024-02-11", "A", .string "60000", "pagado", "x"⟩ =
      [ ⟨.string "m1", "FAC-001", "2024-01-15", "A", .number 100000, "pendiente", ""⟩,
        ⟨.string "m2", "FAC-002", "2024-02-11", "A", .string "60000", "pagado", "x"⟩,
        ⟨.string "m3", "FAC-003", "2024-04-20", "B", .string "200001", "pagado", "abril"⟩ ] ∧
    (handleSaveInvoice "lx3k9a7f2" "2024-05-05" sampleInvoices
        ⟨.string "m2", "FAC-002", "2024-02-11", "A", .string "60000", "pagado", "x"⟩).length =
      sampleInvoices.length :=
  ⟨rfl, by decide, (handleSaveInvoice_update "lx3k9a7f2" "2024-05-05" sampleInvoices
    ⟨.string "m2", "FAC-002", "2024-02-11", "A", .string "60000", "pagado", "x"⟩ rfl).1⟩

/-- C21: a confirmed delete removes exactly the records with that id and keeps
the others in their order; with no record of that id the collection is
unchanged, as it is when the user does not confirm. -/
theorem handleDeleteInvoice_removes (invoices : List Invoice) (id : JSValue) :
    handleDeleteInvoice true invoices id = invoices.filter (fun inv => inv.id ≠ id) ∧
    (handleDeleteInvoice true invoices id).Sublist invoices ∧
    (∀ inv, inv ∈ handleDeleteInvoice true invoices id ↔ inv ∈ invoices ∧ inv.id ≠ id) ∧
    ((∀ inv ∈ invoices, inv.id ≠ id) → handleDeleteInvoice true invoices id = invoices) ∧
    handleDeleteInvoice false invoices id = invoices := by
  have heq : handleDeleteInvoice true invoices id =
      invoices.filter (fun inv => inv.id ≠ id) := by
    unfold handleDeleteInvoice
    rw [if_pos rfl]
  refine ⟨heq, ?_, ?_, ?_, ?_⟩
  · rw [heq]
    exact List.filter_sublist _
  · intro inv
    rw [heq, List.mem_filter]
    simp
  · intro h
    rw [heq, List.filter_eq_self]
    intro inv hinv
    simpa using h inv hinv
  · unfold handleDeleteInvoice
    simp

theorem idsOf_update (generatedId today : String) (invoices : List Invoice)
    (invoiceData : Invoice) (hid : invoiceData.id.truthy = true) :
    idsOf (handleSaveInvoice generatedId today invoices invoiceData) = idsOf invoices := by
  unfold handleSaveInvoice idsOf
  rw [if_pos hid, List.map_map]
  apply List.map_congr_left
  intro inv _
  by_cases h : inv.id = invoiceData.id
  · simp [h]
  · simp [h]

theorem idsOf_create (generatedId today : String) (invoices : List Invoice)
    (invoiceData : Invoice) (hid : invoiceData.id.truthy = false) :
    idsOf (handleSaveInvoice generatedId today invoices invoiceData) =
      idsOf invoices ++ [JSValue.string generatedId] := by
  unfold handleSaveInvoice idsOf
  simp [hid]

theorem idsOf_delete_sublist (confirmed : Bool) (invoices : List Invoice) (id : JSValue) :
    (idsOf (handleDeleteInvoice confirmed invoices id)).Sublist (idsOf invoices) := by
  unfold handleDeleteInvoice idsOf
  split
  · exact (List.filter_sublist _).map _
  · exact List.Sublist.refl _

theorem nodup_applyOp (invoices : List Invoice) (op : StoreOp)
    (h0 : (idsOf invoices).Nodup)
    (hfresh : match op with
      | StoreOp.save generatedId _ invoiceData =>
        invoiceData.id.truthy = false → JSValue.string generatedId ∉ idsOf invoices
      | StoreOp.delete _ _ => True) :
    (idsOf (applyOp invoices op)).Nodup := by
  cases op with
  | save generatedId today invoiceData =>
    simp only [applyOp]
    cases hid : invoiceData.id.truthy with
    | true => rw [idsOf_update _ _ _ _ hid]; exact h0
    | false =>
      rw [idsOf_create _ _ _ _ hid]
      have hnot := hfresh hid
      rw [List.nodup_append]
      refine ⟨h0, List.nodup_singleton _, ?_⟩
      intro a ha hb
      rw [List.mem_singleton] at hb
      exact hnot (hb ▸ ha)
  | delete confirmed id =>
    simp only [applyOp]
    exact h0.sublist (idsOf_delete_sublist confirmed invoices id)

/-- C22: from a collection with pairwise distinct ids, any sequence of saves
and deletes in which each generated id differs from the ids then present leads
to a collection with pairwise distinct ids; and an update leaves the list of
ids as it is, so the record it replaces keeps its id. -/
theorem store_ids_stay_distinct (ops : List StoreOp) (invoices : List Invoice)
    (h0 : (idsOf invoices).Nodup) (hfresh : FreshIds invoices ops) :
    (idsOf (ops.foldl applyOp invoices)).Nodup ∧
    ∀ (generatedId today : String) (invoiceData : Invoice),
      invoiceData.id.truthy = true →
      idsOf (handleSaveInvoice generatedId today invoices invoiceData) = idsOf invoices := by
  refine ⟨?_, fun g t d hid => idsOf_update g t invoices d hid⟩
  induction ops generalizing invoices with
  | nil => exact h0
  | cons op ops ih =>
    rw [List.foldl_cons]
    exact ih (applyOp invoices op) (nodup_applyOp invoices op h0 hfresh.1) hfresh.2

theorem store_ids_stay_distinct_witness :
    (idsOf sampleInvoices).Nodup ∧
    (idsOf ([StoreOp.save "lx3k9a7f2" "2024-05-05"
        ⟨.null, "FAC-004", "", "C", .string "700", "pendiente", ""⟩,
      StoreOp.save "zz" "2024-05-05"
        ⟨.string "m2", "FAC-002", "2024-02-11", "A", .string "60000", "pagado", "x"⟩,
      StoreOp.delete true (.string "m1")].foldl applyOp sampleInvoices)).Nodup :=
  ⟨by decide, (store_ids_stay_distinct
    [StoreOp.save "lx3k9a7f2" "2024-05-05"
        ⟨.null, "FAC-004", "", "C", .string "700", "pendiente", ""⟩,
      StoreOp.save "zz" "2024-05-05"
        ⟨.string "m2", "FAC-002", "2024-02-11", "A", .string "60000", "pagado", "x"⟩,
      StoreOp.delete true (.string "m1")] sampleInvoices (by decide)
    ⟨fun _ => by decide, fun h => absurd h (by decide), trivial, trivial⟩).1⟩

/-! ## The ranking of the clients: names that `Object.prototype` holds -/

/-- C13: a client whose name is a member of `Object.prototype` forms no group.
The collection has the two clients `constructor` and `A`, and the ranking has
the one entry of `A`. -/
theorem topClients_prototype_name_forms_no_group :
    distinctClients prototypeNameInvoices = 2 ∧
    (topClients prototypeNameInvoices).length = 1 ∧
    (topClients prototypeNameInvoices).map (fun g => (g.cliente, g.total)) =
      [("A", JSNum.fin 50)] := by
  refine ⟨?_, ?_, ?_⟩ <;> decide!

/-- C12: a client left out of the ranking can have a greater total than the
ranked entries. The records of the client `constructor` sum to 100, the name is
a member of `Object.prototype` and forms no group, and the ranking is the one
entry of `A` with the total 50: the client left out has the greater total. -/
theorem topClients_leaves_out_greater_client :
    (∃ inv ∈ prototypeNameInvoices, inv.cliente = "constructor") ∧
    sumMontos (prototypeNameInvoices.filter (fun inv => inv.cliente = "constructor")) =
      JSNum.fin 100 ∧
    (topClients prototypeNameInvoices).map (fun g => (g.cliente, g.total)) =
      [("A", JSNum.fin 50)] ∧
    "constructor" ∉ (topClients prototypeNameInvoices).map (fun g => g.cliente) ∧
    ¬ (∀ inv ∈ prototypeNameInvoices,
        inv.cliente ∉ (topClients prototypeNameInvoices).map (fun g => g.cliente) →
        ∀ r ∈ topClients prototypeNameInvoices,
          JSNum.geq r.total
            (sumMontos (prototypeNameInvoices.filter
              (fun other => other.cliente = inv.cliente))) = true) := by
  refine ⟨?_, ?_, ?_, ?_, ?_⟩ <;> decide!

/-! ## The form -/

/-- C24: the form passes a record whose amount is no number to `saveInvoice`.
A record opened for editing has the amount `5abc`; the amount field sanitizes
it to the empty value, which the browser finds valid, and `validateForm` reads
`parseInt("5abc") = 5` from the state: the record is saved with the amount
`5abc`. An amount typed into the field cannot be `5abc`, and the typed `12.5`
is stopped by the browser (step mismatch), although `validateForm` accepts it.
The form rejects `abc`, `0`, `-3`, an empty amount, a blank number, an empty
date and a blank client, and passes the amount `700`. -/
theorem handleSubmit_accepts_trailing_text :
    sanitizeNumberValue (fieldText (.string "5abc")) = "" ∧
    montoFieldValid "" = true ∧
    validateForm ⟨.string "m7", "FAC-005", "2024-05-05", "ACME", .string "5abc", "pendiente", ""⟩ =
      true ∧
    handleSubmit ⟨.string "m7", "FAC-005", "2024-05-05", "ACME", .string "5abc", "pendiente", ""⟩ =
      some ⟨.string "m7", "FAC-005", "2024-05-05", "ACME", .string "5abc", "pendiente", ""⟩ ∧
    validateForm ⟨.null, "FAC-005", "2024-05-05", "ACME", .string "12.5", "pendiente", ""⟩ =
      true ∧
    montoFieldValid (sanitizeNumberValue (fieldText (.string "12.5"))) = false ∧
    handleSubmit ⟨.null, "FAC-005", "2024-05-05", "ACME", .string "12.5", "pendiente", ""⟩ =
      none ∧
    handleSubmit ⟨.null, "FAC-005", "2024-05-05", "ACME", .string "abc", "pendiente", ""⟩ =
      none ∧
    handleSubmit ⟨.null, "FAC-005", "2024-05-05", "ACME", .string "0", "pendiente", ""⟩ =
      none ∧
    handleSubmit ⟨.null, "FAC-005", "2024-05-05", "ACME", .string "-3", "pendiente", ""⟩ =
      none ∧
    handleSubmit ⟨.null, "FAC-005", "2024-05-05", "ACME", .string "", "pendiente", ""⟩ =
      none ∧
    handleSubmit ⟨.null, "  ", "2024-05-05", "ACME", .string "700", "pendiente", ""⟩ = none ∧
    handleSubmit ⟨.null, "FAC-005", "", "ACME", .string "700", "pendiente", ""⟩ = none ∧
    handleSubmit ⟨.null, "FAC-005", "2024-05-05", " ", .string "700", "pendiente", ""⟩ =
      none ∧
    handleSubmit ⟨.null, "FAC-005", "2024-05-05", "ACME", .string "700", "pendiente", ""⟩ =
      some ⟨.null, "FAC-005", "2024-05-05", "ACME", .string "700", "pendiente", ""⟩ := by
  refine ⟨?_, ?_, ?_, ?_, ?_, ?_, ?_, ?_, ?_, ?_, ?_, ?_, ?_, ?_, ?_⟩ <;> decide!

/-! ## The window of the dashboard -/

/-- C25: the preset `all` does not stay. The handler empties `customStartDate`,
which is a dependency of the effect that sets the default dates; with a
non-empty collection the effect runs again and sets the last quarter. On the
sample, whose invoices are older than the quarter, the statistics are then
computed over no invoice at all. -/
theorem select_all_reverts_to_quarter :
    firstRender sampleClock sampleInvoices = ⟨"quarter", "2024-08-05", "2024-11-05"⟩ ∧
    handlePeriodChange sampleClock "all" (firstRender sampleClock sampleInvoices) =
      ⟨"all", "", ""⟩ ∧
    selectPeriod sampleClock sampleInvoices "all" (firstRender sampleClock sampleInvoices) =
      ⟨"quarter", "2024-08-05", "2024-11-05"⟩ ∧
    filteredInvoices sampleInvoices "quarter" "2024-08-05" "2024-11-05" = [] ∧
    (∀ (clock : Clock) (invoices : List Invoice) (s : PeriodState),
      invoices ≠ [] → s.customStartDate ≠ "" →
      (selectPeriod clock invoices "all" s).periodFilter = "quarter") := by
  refine ⟨by decide, by decide, by decide, by decide, ?_⟩
  intro clock invoices s hne hs
  have hlen : invoices.length > 0 := List.length_pos.mpr hne
  have hnext : handlePeriodChange clock "all" s = ⟨"all", "", ""⟩ := by
    unfold handlePeriodChange
    simp
  unfold selectPeriod
  simp only [hnext]
  rw [if_pos (fun h => hs h.symm)]
  unfold defaultDatesEffect
  simp [hlen]

/-! ## The table -/

theorem startsWith_iff (s t : List Char) : startsWith s t = true ↔ t <+: s := by
  induction s generalizing t with
  | nil =>
    cases t with
    | nil => simp [startsWith]
    | cons d ds => simp [startsWith]
  | cons c cs ih =>
    cases t with
    | nil => simp [startsWith]
    | cons d ds =>
      simp only [startsWith, Bool.and_eq_true, decide_eq_true_eq, ih, List.cons_prefix_cons]
      constructor
      · rintro ⟨h1, h2⟩
        exact ⟨h1.symm, h2⟩
      · rintro ⟨h1, h2⟩
        exact ⟨h1.symm, h2⟩

theorem includesChars_iff (s t : List Char) : includesChars s t = true ↔ t <:+: s := by
  induction s with
  | nil =>
    simp only [includesChars, startsWith_iff, List.prefix_nil, List.infix_nil]
  | cons c cs ih =>
    simp only [includesChars, Bool.or_eq_true, startsWith_iff, ih, List.infix_cons_iff]

theorem includesChars_nil (s : List Char) : includesChars s [] = true := by
  rw [includesChars_iff]
  exact List.nil_infix

/-- C28: the filter of the table keeps, in their order, exactly the records
whose number or client, in lower case, contains the filter text in lower case
as a run of consecutive characters; with the empty filter text it keeps every
record; and the grand total is the sum over the records kept (the sum of
their numbers when the amounts are non-negative integers). -/
theorem table_filter_and_total (toLowerCase : String → String)
    (hempty : toLowerCase "" = "") (invoices : List Invoice) (filterText : String) :
    (tableFilteredInvoices toLowerCase invoices filterText).Sublist invoices ∧
    (∀ inv, inv ∈ tableFilteredInvoices toLowerCase invoices filterText ↔
      inv ∈ invoices ∧
        ((toLowerCase filterText).toList <:+: (toLowerCase inv.numero).toList ∨
          (toLowerCase filterText).toList <:+: (toLowerCase inv.cliente).toList)) ∧
    (∃ keep : Invoice → Bool,
      (∀ inv, keep inv = true ↔
        ((toLowerCase filterText).toList <:+: (toLowerCase inv.numero).toList ∨
          (toLowerCase filterText).toList <:+: (toLowerCase inv.cliente).toList)) ∧
      tableFilteredInvoices toLowerCase invoices filterText = invoices.filter keep) ∧
    tableFilteredInvoices toLowerCase invoices "" = invoices ∧
    totalMonto toLowerCase invoices filterText =
      sumMontos (tableFilteredInvoices toLowerCase invoices filterText) ∧
    (∀ amounts : List Nat,
      List.Forall₂ IsAmount (tableFilteredInvoices toLowerCase invoices filterText) amounts →
      totalMonto toLowerCase invoices filterText = JSNum.fin ((amounts.sum : ℕ) : ℚ)) := by
  have hkeep : ∀ inv : Invoice,
      (includesChars (toLowerCase inv.numero).toList (toLowerCase filterText).toList ||
        includesChars (toLowerCase inv.cliente).toList (toLowerCase filterText).toList) =
          true ↔
      ((toLowerCase filterText).toList <:+: (toLowerCase inv.numero).toList ∨
        (toLowerCase filterText).toList <:+: (toLowerCase inv.cliente).toList) := by
    intro inv
    rw [Bool.or_eq_true, includesChars_iff, includesChars_iff]
  refine ⟨List.filter_sublist _, ?_, ⟨_, hkeep, rfl⟩, ?_, rfl, ?_⟩
  · intro inv
    unfold tableFilteredInvoices
    rw [List.mem_filter]
    simp only [hkeep]
  · unfold tableFilteredInvoices
    rw [List.filter_eq_self]
    intro inv _
    simp only [hempty]
    rw [Bool.or_eq_true]
    exact Or.inl (includesChars_nil _)
  · intro amounts h
    exact sumMontos_of_amounts _ _ h

theorem table_filter_and_total_witness :
    asciiLower "" = "" ∧
    (tableFilteredInvoices asciiLower sampleInvoices "fac-002").Sublist sampleInvoices ∧
    tableFilteredInvoices asciiLower sampleInvoices "" = sampleInvoices ∧
    totalMonto asciiLower sampleInvoices "fac-002" =
      sumMontos (tableFilteredInvoices asciiLower sampleInvoices "fac-002") :=
  have h := table_filter_and_total asciiLower rfl sampleInvoices "fac-002"
  ⟨rfl, h.1, h.2.2.2.1, h.2.2.2.2.1⟩

/-! ## The monthly series as a partition -/

theorem exists_lo_hi (xs : List Invoice) (hne : xs ≠ [])
    (hvalid : ∀ inv ∈ xs, ∃ d, parseISO inv.fecha = some d) :
    ∃ lo hi : Date, (∃ inv ∈ xs, parseISO inv.fecha = some lo) ∧
      (∀ inv ∈ xs, ∀ d, parseISO inv.fecha = some d → lo ≤ d) ∧
      (∃ inv ∈ xs, parseISO inv.fecha = some hi) ∧
      (∀ inv ∈ xs, ∀ d, parseISO inv.fecha = some d → d ≤ hi) := by
  obtain ⟨ds, hds, hlen, hmem⟩ :=
    map_eq_map_some (fun inv : Invoice => parseISO inv.fecha) xs hvalid
  have hdne : ds ≠ [] := by
    intro h
    rw [h] at hlen
    exact hne (List.length_eq_zero.mp hlen.symm)
  obtain ⟨m1, _, hm1_mem, hm1_le⟩ := minDate_spec ds hdne
  obtain ⟨m2, _, hm2_mem, hm2_le⟩ := maxDate_spec ds hdne
  refine ⟨m1, m2, (hmem m1).mp hm1_mem, ?_, (hmem m2).mp hm2_mem, ?_⟩
  · intro inv hinv d hd
    exact hm1_le d ((hmem d).mpr ⟨inv, hinv, hd⟩)
  · intro inv hinv d hd
    exact hm2_le d ((hmem d).mpr ⟨inv, hinv, hd⟩)

theorem sum_range_ite (n j c : Nat) (hj : j < n) :
    ((List.range n).map (fun i => if j = i then c else 0)).sum = c := by
  induction n with
  | zero => omega
  | succ n ih =>
    rw [List.range_succ, List.map_append, List.sum_append]
    by_cases h : j = n
    · subst h
      have h0 : ((List.range j).map (fun i => if j = i then c else 0)).sum = 0 := by
        apply List.sum_eq_zero
        intro x hx
        obtain ⟨i, hi, rfl⟩ := List.mem_map.mp hx
        have := List.mem_range.mp hi
        rw [if_neg (by omega)]
      simp [h0]
    · rw [ih (by omega)]
      simp [h]

/-- Splitting a list by a key that takes every value of a range once: the sums
over the parts add up to the sum over the list. -/
theorem sum_filter_by_key (f k : Invoice → Nat) (lo n : Nat) (xs : List Invoice)
    (hk : ∀ x ∈ xs, lo ≤ k x ∧ k x < lo + n) :
    ((List.range n).map
      (fun i => ((xs.filter (fun x => k x = lo + i)).map f).sum)).sum = (xs.map f).sum := by
  induction xs with
  | nil => simp
  | cons x xs ih =>
    have hx := hk x (List.mem_cons_self _ _)
    have ih := ih (fun y hy => hk y (List.mem_cons_of_mem _ hy))
    have hstep : ∀ i, (((x :: xs).filter (fun y => k y = lo + i)).map f).sum =
        (if k x - lo = i then f x else 0) + ((xs.filter (fun y => k y = lo + i)).map f).sum := by
      intro i
      by_cases h : k x = lo + i
      · have h2 : k x - lo = i := by omega
        simp [List.filter_cons, h, h2]
      · have h2 : ¬ k x - lo = i := by omega
        simp [List.filter_cons, h, h2]
    simp only [hstep]
    rw [List.sum_map_add, sum_range_ite n (k x - lo) (f x) (by omega), ih]
    simp

theorem sum_map_one (xs : List Invoice) : (xs.map (fun _ => 1)).sum = xs.length := by
  induction xs with
  | nil => rfl
  | cons x xs ih => simp [ih]; omega

theorem forall₂_isAmount_map (amount : Invoice → Nat) (ys : List Invoice)
    (h : ∀ inv ∈ ys, IsAmount inv (amount inv)) :
    List.Forall₂ IsAmount ys (ys.map amount) := by
  induction ys with
  | nil => exact List.Forall₂.nil
  | cons y ys ih =>
    exact List.Forall₂.cons (h y (List.mem_cons_self _ _))
      (ih (fun inv hinv => h inv (List.mem_cons_of_mem _ hinv)))

theorem inMonth_iff_monthKey (inv : Invoice) (k : Nat)
    (hvalid : ∃ d, parseISO inv.fecha = some d) :
    InMonth (monthOfIndex k).year (monthOfIndex k).month inv.fecha ↔ monthKey inv = k := by
  obtain ⟨d, hd⟩ := hvalid
  have hv := parseISO_valid hd
  unfold InMonth monthKey
  rw [hd]
  simp only [Option.some.injEq, exists_eq_left', monthOfIndex, monthIndex]
  omega

theorem monthInvoices_eq_filter_key (xs : List Invoice) (k : Nat)
    (hvalid : ∀ inv ∈ xs, ∃ d, parseISO inv.fecha = some d) :
    monthInvoices xs (monthOfIndex k) = xs.filter (fun inv => monthKey inv = k) := by
  rw [monthInvoices_eq_filter]
  apply List.filter_congr
  intro inv hinv
  rw [Bool.eq_iff_iff, decide_eq_true_iff, decide_eq_true_iff]
  exact inMonth_iff_monthKey inv k (hvalid inv hinv)

theorem monthBucket_of_key (xs : List Invoice) (amount : Invoice → Nat) (k : Nat)
    (hvalid : ∀ inv ∈ xs, ∃ d, parseISO inv.fecha = some d)
    (hamount : ∀ inv ∈ xs, IsAmount inv (amount inv)) :
    (monthBucket xs (monthOfIndex k)).count =
      (xs.filter (fun inv => monthKey inv = k)).length ∧
    (monthBucket xs (monthOfIndex k)).total =
      JSNum.fin ((((xs.filter (fun inv => monthKey inv = k)).map amount).sum : ℕ) : ℚ) ∧
    (monthBucket xs (monthOfIndex k)).pagado =
      JSNum.fin (((((xs.filter (fun inv => inv.estado = "pagado")).filter
        (fun inv => monthKey inv = k)).map amount).sum : ℕ) : ℚ) := by
  have hf := monthInvoices_eq_filter_key xs k hvalid
  refine ⟨?_, ?_, ?_⟩
  · simp only [monthBucket, hf]
  · simp only [monthBucket, hf]
    apply sumMontos_of_amounts
    apply forall₂_isAmount_map
    intro inv hinv
    exact hamount inv (List.mem_filter.mp hinv).1
  · simp only [monthBucket, hf]
    have hcomm : (xs.filter (fun inv => monthKey inv = k)).filter
          (fun inv => inv.estado = "pagado") =
        (xs.filter (fun inv => inv.estado = "pagado")).filter
          (fun inv => monthKey inv = k) := by
      rw [List.filter_filter, List.filter_filter]
      apply List.filter_congr
      intro inv _
      exact Bool.and_comm _ _
    rw [hcomm]
    apply sumMontos_of_amounts
    apply forall₂_isAmount_map
    intro inv hinv
    exact hamount inv (List.mem_filter.mp (List.mem_filter.mp hinv).1).1

/-- C26: for validly dated records with non-negative integer amounts the
monthly series is the list of the buckets of some months such that every
record is among the invoices of exactly one of these months; the counts of the
buckets add up to the summary count, their totals to the summary total, and
their paid totals to the sum of the amounts of the paid records. -/
theorem monthlyData_partitions (xs : List Invoice) (amount : Invoice → Nat)
    (hvalid : ∀ inv ∈ xs, ∃ d, parseISO inv.fecha = some d)
    (hamount : ∀ inv ∈ xs, IsAmount inv (amount inv)) :
    ∃ months : List Date,
      monthlyData xs = some (months.map (monthBucket xs)) ∧
      (∀ inv ∈ xs, ∃! M, M ∈ months ∧ inv ∈ monthInvoices xs M) ∧
      (months.map (fun M => (monthBucket xs M).count)).sum = (stats xs).count ∧
      ∃ totals paids : List Nat,
        months.map (fun M => (monthBucket xs M).total) =
          totals.map (fun t => JSNum.fin ((t : ℕ) : ℚ)) ∧
        (stats xs).total = JSNum.fin ((totals.sum : ℕ) : ℚ) ∧
        months.map (fun M => (monthBucket xs M).pagado) =
          paids.map (fun t => JSNum.fin ((t : ℕ) : ℚ)) ∧
        paids.sum = ((xs.filter (fun inv => inv.estado = "pagado")).map amount).sum := by
  by_cases hne : xs = []
  · subst hne
    refine ⟨[], rfl, ?_, rfl, [], [], rfl, rfl, rfl, rfl⟩
    intro inv hinv
    cases hinv
  · obtain ⟨lo, hi, hlo, hlo_min, hhi, hhi_max⟩ := exists_lo_hi xs hne hvalid
    obtain ⟨hidx, hmain⟩ := monthlyData_eq_range xs lo hi hvalid hlo hlo_min hhi hhi_max
    obtain ⟨_, _, hplo⟩ := hlo
    obtain ⟨_, _, hphi⟩ := hhi
    have vlo := parseISO_valid hplo
    have vhi := parseISO_valid hphi
    generalize hn : monthIndex hi - monthIndex lo + 1 = n at hmain
    generalize hL : monthIndex lo = L at hmain hidx hn
    have hkey : ∀ inv ∈ xs, L ≤ monthKey inv ∧ monthKey inv < L + n := by
      intro inv hinv
      obtain ⟨d, hd⟩ := hvalid inv hinv
      have vd := parseISO_valid hd
      have h1 := monthIndex_le_of_le vlo.1 vd.1 (hlo_min inv hinv d hd)
      have h2 := monthIndex_le_of_le vd.1 vhi.1 (hhi_max inv hinv d hd)
      unfold monthKey
      rw [hd]
      simp only []
      omega
    have hkey_paid : ∀ inv ∈ xs.filter (fun inv => inv.estado = "pagado"),
        L ≤ monthKey inv ∧ monthKey inv < L + n :=
      fun inv hinv => hkey inv (List.mem_filter.mp hinv).1
    have hb := fun k => monthBucket_of_key xs amount k hvalid hamount
    refine ⟨(List.range n).map (fun i => monthOfIndex (L + i)), ?_, ?_, ?_,
      (List.range n).map (fun i => ((xs.filter (fun inv => monthKey inv = L + i)).map amount).sum),
      (List.range n).map (fun i => (((xs.filter (fun inv => inv.estado = "pagado")).filter
        (fun inv => monthKey inv = L + i)).map amount).sum), ?_, ?_, ?_, ?_⟩
    · rw [hmain, List.map_map]
      rfl
    · intro inv hinv
      have hk := hkey inv hinv
      refine ⟨monthOfIndex (monthKey inv), ⟨?_, ?_⟩, ?_⟩
      · rw [List.mem_map]
        exact ⟨monthKey inv - L, List.mem_range.mpr (by omega), by congr 1; omega⟩
      · rw [monthInvoices_eq_filter_key xs _ hvalid, List.mem_filter]
        exact ⟨hinv, by simp⟩
      · rintro M ⟨hM, hin⟩
        obtain ⟨i, _, rfl⟩ := List.mem_map.mp hM
        rw [monthInvoices_eq_filter_key xs _ hvalid, List.mem_filter] at hin
        have : monthKey inv = L + i := by simpa using hin.2
        rw [this]
    · rw [List.map_map]
      have : ((fun M => (monthBucket xs M).count) ∘ fun i => monthOfIndex (L + i)) =
          fun i => ((xs.filter (fun inv => monthKey inv = L + i)).map (fun _ => 1)).sum := by
        funext i
        simp only [Function.comp, (hb (L + i)).1, sum_map_one]
      rw [this, sum_filter_by_key (fun _ => 1) monthKey L n xs hkey, sum_map_one]
      rfl
    · rw [List.map_map, List.map_map]
      apply List.map_congr_left
      intro i _
      simp only [Function.comp, (hb (L + i)).2.1]
    · rw [sum_filter_by_key amount monthKey L n xs hkey]
      exact sumMontos_of_amounts xs (xs.map amount) (forall₂_isAmount_map amount xs hamount)
    · rw [List.map_map, List.map_map]
      apply List.map_congr_left
      intro i _
      simp only [Function.comp, (hb (L + i)).2.2]
    · exact sum_filter_by_key amount monthKey L n _ hkey_paid

theorem monthlyData_partitions_witness :
    (∀ inv ∈ sampleInvoices, ∃ d, parseISO inv.fecha = some d) ∧
    ∃ months : List Date,
      monthlyData sampleInvoices = some (months.map (monthBucket sampleInvoices)) ∧
      (∀ inv ∈ sampleInvoices, ∃! M, M ∈ months ∧ inv ∈ monthInvoices sampleInvoices M) ∧
      (months.map (fun M => (monthBucket sampleInvoices M).count)).sum =
        (stats sampleInvoices).count ∧
      ∃ totals paids : List Nat,
        months.map (fun M => (monthBucket sampleInvoices M).total) =
          totals.map (fun t => JSNum.fin ((t : ℕ) : ℚ)) ∧
        (stats sampleInvoices).total = JSNum.fin ((totals.sum : ℕ) : ℚ) ∧
        months.map (fun M => (monthBucket sampleInvoices M).pagado) =
          paids.map (fun t => JSNum.fin ((t : ℕ) : ℚ)) ∧
        paids.sum = ((sampleInvoices.filter (fun inv => inv.estado = "pagado")).map
          (fun inv => if inv.numero = "FAC-001" then 100000
            else if inv.numero = "FAC-002" then 50000 else 200001)).sum :=
  have hvalid : ∀ inv ∈ sampleInvoices, ∃ d, parseISO inv.fecha = some d := by
    intro inv hinv
    simp only [sampleInvoices, List.mem_cons, List.mem_singleton, List.not_mem_nil,
      or_false] at hinv
    rcases hinv with h | h | h <;> subst h <;> exact ⟨_, rfl⟩
  ⟨hvalid, monthlyData_partitions sampleInvoices
    (fun inv => if inv.numero = "FAC-001" then 100000
      else if inv.numero = "FAC-002" then 50000 else 200001) hvalid
    (by
      intro inv hinv
      simp only [sampleInvoices, List.mem_cons, List.mem_singleton, List.not_mem_nil,
        or_false] at hinv
      rcases hinv with h | h | h <;> subst h <;> decide)⟩

/-! ## The ranking of the clients -/

theorem sumMontos_append_singleton (l : List Invoice) (x : Invoice) :
    sumMontos (l ++ [x]) = JSNum.add (sumMontos l) (montoOf x) := by
  unfold sumMontos
  rw [List.foldl_append]
  rfl

theorem firstKeys_append_singleton (pre : List Invoice) (x : Invoice) :
    firstKeys (pre ++ [x]) =
      if x.cliente ∈ firstKeys pre ∨ x.cliente ∈ objectPrototypeKeys then firstKeys pre
      else firstKeys pre ++ [x.cliente] := by
  unfold firstKeys
  rw [List.foldl_append]
  rfl

theorem firstKeys_mem (xs : List Invoice) (k : String) :
    k ∈ firstKeys xs ↔ (∃ inv ∈ xs, inv.cliente = k) ∧ k ∉ objectPrototypeKeys := by
  induction xs using List.reverseRecOn with
  | nil => simp [firstKeys]
  | append_singleton pre x ih =>
    rw [firstKeys_append_singleton]
    by_cases hc : x.cliente ∈ firstKeys pre ∨ x.cliente ∈ objectPrototypeKeys
    · rw [if_pos hc, ih]
      constructor
      · rintro ⟨⟨inv, hinv, hk⟩, hp⟩
        exact ⟨⟨inv, List.mem_append_left _ hinv, hk⟩, hp⟩
      · rintro ⟨⟨inv, hinv, hk⟩, hp⟩
        refine ⟨?_, hp⟩
        rcases List.mem_append.mp hinv with h | h
        · exact ⟨inv, h, hk⟩
        · rw [List.mem_singleton] at h
          subst h
          rw [hk] at hc
          rcases hc with h1 | h1
          · exact (ih.mp h1).1
          · exact absurd h1 hp
    · rw [if_neg hc, List.mem_append, List.mem_singleton, ih]
      push_neg at hc
      constructor
      · rintro (⟨⟨inv, hinv, hk⟩, hp⟩ | h)
        · exact ⟨⟨inv, List.mem_append_left _ hinv, hk⟩, hp⟩
        · subst h
          exact ⟨⟨x, by simp, rfl⟩, hc.2⟩
      · rintro ⟨⟨inv, hinv, hk⟩, hp⟩
        rcases List.mem_append.mp hinv with h | h
        · exact Or.inl ⟨⟨inv, h, hk⟩, hp⟩
        · rw [List.mem_singleton] at h
          subst h
          exact Or.inr hk.symm

theorem firstKeys_nodup (xs : List Invoice) : (firstKeys xs).Nodup := by
  induction xs using List.reverseRecOn with
  | nil => simp [firstKeys]
  | append_singleton pre x ih =>
    rw [firstKeys_append_singleton]
    split
    · exact ih
    · rename_i hc
      push_neg at hc
      rw [List.nodup_append]
      refine ⟨ih, List.nodup_singleton _, ?_⟩
      intro a ha hb
      rw [List.mem_singleton] at hb
      exact hc.1 (hb ▸ ha)

theorem groupOf_append_ne (pre : List Invoice) (x : Invoice) (k : String)
    (h : ¬ x.cliente = k) : groupOf (pre ++ [x]) k = groupOf pre k := by
  unfold groupOf
  simp [List.filter_append, List.filter_cons, h]

theorem groupOf_append_eq (pre : List Invoice) (x : Invoice) :
    groupOf (pre ++ [x]) x.cliente =
      { cliente := (groupOf pre x.cliente).cliente
        total := JSNum.add (groupOf pre x.cliente).total (montoOf x)
        count := (groupOf pre x.cliente).count + 1
        pagado :=
          if x.estado = "pagado" then JSNum.add (groupOf pre x.cliente).pagado (montoOf x)
          else (groupOf pre x.cliente).pagado
        pendiente :=
          if x.estado = "pagado" then (groupOf pre x.cliente).pendiente
          else JSNum.add (groupOf pre x.cliente).pendiente (montoOf x) } := by
  unfold groupOf
  by_cases hp : x.estado = "pagado"
  · simp [List.filter_append, List.filter_cons, hp, sumMontos_append_singleton]
  · simp [List.filter_append, List.filter_cons, hp, sumMontos_append_singleton]

theorem groupOf_of_not_mem (pre : List Invoice) (k : String)
    (h : ∀ inv ∈ pre, inv.cliente ≠ k) :
    groupOf pre k =
      { cliente := k
        total := JSNum.ofNat 0
        count := 0
        pagado := JSNum.ofNat 0
        pendiente := JSNum.ofNat 0 } := by
  have hf : pre.filter (fun inv => inv.cliente = k) = [] := by
    rw [List.filter_eq_nil_iff]
    intro inv hinv
    simpa using h inv hinv
  unfold groupOf
  rw [hf]
  rfl

theorem hasOwn_map_keys (keys : List String) (G : String → ClientGroup) (c : String) :
    hasOwn (keys.map (fun k => (k, G k))) c = decide (c ∈ keys) := by
  unfold hasOwn
  rw [Bool.eq_iff_iff, List.any_eq_true, decide_eq_true_iff]
  constructor
  · rintro ⟨e, he, hc⟩
    obtain ⟨k, hk, rfl⟩ := List.mem_map.mp he
    simp only [decide_eq_true_eq] at hc
    exact hc ▸ hk
  · intro h
    exact ⟨(c, G c), List.mem_map.mpr ⟨c, h, rfl⟩, by simp⟩

theorem addInvoice_closed (pre : List Invoice) (x : Invoice) :
    addInvoice ((firstKeys pre).map (fun k => (k, groupOf pre k))) x =
      (firstKeys (pre ++ [x])).map (fun k => (k, groupOf (pre ++ [x]) k)) := by
  have hcreated :
      (if readsTruthy ((firstKeys pre).map (fun k => (k, groupOf pre k))) x.cliente = true
        then (firstKeys pre).map (fun k => (k, groupOf pre k))
        else (firstKeys pre).map (fun k => (k, groupOf pre k)) ++ [(x.cliente,
          { cliente := x.cliente
            total := JSNum.ofNat 0
            count := 0
            pagado := JSNum.ofNat 0
            pendiente := JSNum.ofNat 0 })]) =
      (firstKeys (pre ++ [x])).map (fun k => (k, groupOf pre k)) := by
    rw [firstKeys_append_singleton]
    unfold readsTruthy
    rw [hasOwn_map_keys]
    by_cases hc : x.cliente ∈ firstKeys pre ∨ x.cliente ∈ objectPrototypeKeys
    · have hb : (decide (x.cliente ∈ firstKeys pre) ||
          decide (x.cliente ∈ objectPrototypeKeys)) = true := by
        simpa using hc
      rw [if_pos hb, if_pos hc]
    · have hb : ¬ (decide (x.cliente ∈ firstKeys pre) ||
          decide (x.cliente ∈ objectPrototypeKeys)) = true := by
        simpa using hc
      rw [if_neg hb, if_neg hc, List.map_append, List.map_singleton]
      push_neg at hc
      have hnot : ∀ inv ∈ pre, inv.cliente ≠ x.cliente := by
        intro inv hinv heq
        exact hc.1 ((firstKeys_mem pre x.cliente).mpr ⟨⟨inv, hinv, heq⟩, hc.2⟩)
      rw [groupOf_of_not_mem pre x.cliente hnot]
  unfold addInvoice
  simp only [hcreated, List.map_map]
  apply List.map_congr_left
  intro k _
  simp only [Function.comp]
  by_cases hk : k = x.cliente
  · subst hk
    rw [if_pos rfl, groupOf_append_eq]
  · rw [if_neg hk, groupOf_append_ne pre x k (fun h => hk h.symm)]

theorem foldl_addInvoice_closed (xs : List Invoice) : ∀ pre : List Invoice,
    xs.foldl addInvoice ((firstKeys pre).map (fun k => (k, groupOf pre k))) =
      (firstKeys (pre ++ xs)).map (fun k => (k, groupOf (pre ++ xs) k)) := by
  induction xs with
  | nil =>
    intro pre
    simp
  | cons x xs ih =>
    intro pre
    rw [List.foldl_cons, addInvoice_closed, ih (pre ++ [x])]
    simp

/-- The client map in closed form: one own property for each client name that
`Object.prototype` does not hold, in the order of first appearance, with the
sums over the records of that client. -/
theorem clientMapOf_eq (xs : List Invoice) :
    clientMapOf xs = (firstKeys xs).map (fun k => (k, groupOf xs k)) := by
  have h := foldl_addInvoice_closed xs []
  simpa [clientMapOf, firstKeys] using h

theorem insertByIndex_perm (x : Nat × ClientGroup) (l : List (Nat × ClientGroup)) :
    (insertByIndex x l).Perm (x :: l) := by
  induction l with
  | nil => exact List.Perm.refl _
  | cons y ys ih =>
    unfold insertByIndex
    split
    · exact List.Perm.refl _
    · exact (List.Perm.cons y ih).trans (List.Perm.swap x y ys)

theorem foldr_insertByIndex_perm (l : List (Nat × ClientGroup)) :
    (l.foldr insertByIndex []).Perm l := by
  induction l with
  | nil => exact List.Perm.refl _
  | cons x xs ih =>
    rw [List.foldr_cons]
    exact (insertByIndex_perm x _).trans (List.Perm.cons x ih)

theorem filterMap_index_map_snd (m : ClientMap) :
    (m.filterMap (fun entry => (arrayIndexOf entry.1).map (fun n => (n, entry.2)))).map
        (fun e => e.2) =
      (m.filter (fun entry => (arrayIndexOf entry.1).isSome)).map (fun e => e.2) := by
  induction m with
  | nil => rfl
  | cons e m ih =>
    cases h : arrayIndexOf e.1 with
    | none => simp [List.filterMap_cons, List.filter_cons, h, ih]
    | some n => simp [List.filterMap_cons, List.filter_cons, h, ih]

theorem objectValues_perm (m : ClientMap) : (objectValues m).Perm (m.map (fun e => e.2)) := by
  unfold objectValues
  have h1 := ((foldr_insertByIndex_perm (m.filterMap (fun entry =>
    (arrayIndexOf entry.1).map (fun n => (n, entry.2))))).map (fun e => e.2))
  rw [filterMap_index_map_snd] at h1
  have h2 : ((m.filter (fun entry => (arrayIndexOf entry.1).isSome)) ++
      (m.filter (fun entry => (arrayIndexOf entry.1).isNone))).Perm m := by
    have := List.filter_append_perm (fun entry : String × ClientGroup =>
      (arrayIndexOf entry.1).isSome) m
    refine List.Perm.trans ?_ this
    apply List.Perm.append_left
    apply List.Perm.of_eq
    apply List.filter_congr
    intro e _
    cases arrayIndexOf e.1 <;> rfl
  have h3 := h2.map (fun e : String × ClientGroup => e.2)
  rw [List.map_append] at h3
  exact (List.Perm.append_right _ h1).trans h3

theorem objectValues_of_no_index (m : ClientMap)
    (h : ∀ e ∈ m, arrayIndexOf e.1 = none) : objectValues m = m.map (fun e => e.2) := by
  unfold objectValues
  have h1 : m.filterMap (fun entry => (arrayIndexOf entry.1).map (fun n => (n, entry.2))) =
      [] := by
    rw [List.filterMap_eq_nil_iff]
    intro e he
    rw [h e he]
    rfl
  have h2 : m.filter (fun entry => (arrayIndexOf entry.1).isNone) = m := by
    rw [List.filter_eq_self]
    intro e he
    rw [h e he]
    rfl
  rw [h1, h2]
  rfl

theorem insertSorted_perm {α : Type} (compareFn : α → α → JSNum) (x : α) (l : List α) :
    (insertSorted compareFn x l).Perm (x :: l) := by
  induction l with
  | nil => exact List.Perm.refl _
  | cons y ys ih =>
    unfold insertSorted
    split
    · exact (List.Perm.cons y ih).trans (List.Perm.swap x y ys)
    · exact List.Perm.refl _

theorem arraySort_perm {α : Type} (compareFn : α → α → JSNum) (l : List α) :
    (arraySort compareFn l).Perm l := by
  induction l with
  | nil => exact List.Perm.refl _
  | cons x xs ih =>
    unfold arraySort
    exact (insertSorted_perm compareFn x _).trans (List.Perm.cons x ih)

theorem amountIsNumber_iff (inv : Invoice) :
    amountIsNumber inv = true ↔ ∃ q : ℚ, montoOf inv = JSNum.fin q := by
  unfold amountIsNumber
  cases montoOf inv <;> simp

/-- With amounts that are numbers, the sum over a list is a number, and it
splits into the sum over the paid records and the sum over the others. -/
theorem sumMontos_split (l : List Invoice) (h : ∀ inv ∈ l, amountIsNumber inv = true) :
    ∃ t p n : ℚ, sumMontos l = JSNum.fin t ∧
      sumMontos (l.filter (fun inv => inv.estado = "pagado")) = JSNum.fin p ∧
      sumMontos (l.filter (fun inv => inv.estado ≠ "pagado")) = JSNum.fin n ∧
      t = p + n := by
  induction l using List.reverseRecOn with
  | nil => exact ⟨0, 0, 0, by simp [sumMontos, JSNum.ofNat], by simp [sumMontos, JSNum.ofNat],
      by simp [sumMontos, JSNum.ofNat], by norm_num⟩
  | append_singleton l x ih =>
    obtain ⟨t, p, n, ht, hp, hn, hsum⟩ := ih (fun inv hinv => h inv (List.mem_append_left _ hinv))
    obtain ⟨q, hq⟩ := (amountIsNumber_iff x).mp (h x (by simp))
    by_cases hx : x.estado = "pagado"
    · refine ⟨t + q, p + q, n, ?_, ?_, ?_, by rw [hsum]; ring⟩
      · rw [sumMontos_append_singleton, ht, hq, JSNum.add_fin]
      · simp only [List.filter_append, List.filter_cons, hx, decide_True, List.filter_nil,
          if_true]
        rw [sumMontos_append_singleton, hp, hq, JSNum.add_fin]
      · simpa [List.filter_append, List.filter_cons, hx] using hn
    · refine ⟨t + q, p, n + q, ?_, ?_, ?_, by rw [hsum]; ring⟩
      · rw [sumMontos_append_singleton, ht, hq, JSNum.add_fin]
      · simpa [List.filter_append, List.filter_cons, hx] using hp
      · simp only [List.filter_append, List.filter_cons, hx, ne_eq, not_false_eq_true,
          decide_True, List.filter_nil, if_true]
        rw [sumMontos_append_singleton, hn, hq, JSNum.add_fin]

theorem groupOf_total_fin (xs : List Invoice) (h : ∀ inv ∈ xs, amountIsNumber inv = true)
    (k : String) : ∃ q : ℚ, (groupOf xs k).total = JSNum.fin q := by
  obtain ⟨t, _, _, ht, _⟩ := sumMontos_split (xs.filter (fun inv => inv.cliente = k))
    (fun inv hinv => h inv (List.mem_filter.mp hinv).1)
  exact ⟨t, ht⟩

theorem isPositive_sub_fin (a b : ℚ) :
    (JSNum.sub (JSNum.fin a) (JSNum.fin b)).isPositive = decide (b < a) := by
  rw [JSNum.sub_fin]
  simp [JSNum.isPositive]

theorem isPositive_sub_self (t : JSNum) : (JSNum.sub t t).isPositive = false := by
  cases t with
  | fin q => rw [isPositive_sub_fin]; simp
  | nan => rfl
  | posInf => rfl
  | negInf => rfl

theorem mem_insertSorted {α : Type} (compareFn : α → α → JSNum) (x y : α) (l : List α) :
    y ∈ insertSorted compareFn x l ↔ y = x ∨ y ∈ l := by
  rw [(insertSorted_perm compareFn x l).mem_iff, List.mem_cons]

theorem mem_arraySort {α : Type} (compareFn : α → α → JSNum) (y : α) (l : List α) :
    y ∈ arraySort compareFn l ↔ y ∈ l :=
  (arraySort_perm compareFn l).mem_iff

/-- Sorting by descending total puts numbers in non-increasing order. -/
theorem arraySort_sorted (l : List ClientGroup)
    (h : ∀ g ∈ l, ∃ q : ℚ, g.total = JSNum.fin q) :
    List.Pairwise (fun a b : ClientGroup => JSNum.geq a.total b.total = true)
      (arraySort (fun a b => JSNum.sub b.total a.total) l) := by
  induction l with
  | nil => exact List.Pairwise.nil
  | cons x xs ih =>
    have ih := ih (fun g hg => h g (List.mem_cons_of_mem _ hg))
    obtain ⟨qx, hqx⟩ := h x (List.mem_cons_self _ _)
    have hfin : ∀ g ∈ arraySort (fun a b : ClientGroup => JSNum.sub b.total a.total) xs,
        ∃ q : ℚ, g.total = JSNum.fin q :=
      fun g hg => h g (List.mem_cons_of_mem _ ((mem_arraySort _ g xs).mp hg))
    unfold arraySort
    generalize arraySort (fun a b : ClientGroup => JSNum.sub b.total a.total) xs = s at ih hfin
    induction s with
    | nil => exact List.pairwise_singleton _ _
    | cons y ys ihs =>
      obtain ⟨qy, hqy⟩ := hfin y (List.mem_cons_self _ _)
      have hys := List.pairwise_cons.mp ih
      unfold insertSorted
      simp only [hqx, hqy, isPositive_sub_fin, decide_eq_true_eq]
      split
      · rename_i hlt
        rw [List.pairwise_cons]
        refine ⟨?_, ihs hys.2 (fun g hg => hfin g (List.mem_cons_of_mem _ hg))⟩
        intro z hz
        rcases (mem_insertSorted _ x z ys).mp hz with hz | hz
        · subst hz
          simp only [hqx, hqy, JSNum.geq, decide_eq_true_eq]
          exact le_of_lt hlt
        · exact hys.1 z hz
      · rename_i hnlt
        rw [List.pairwise_cons]
        refine ⟨?_, ih⟩
        intro z hz
        rcases List.mem_cons.mp hz with hz | hz
        · subst hz
          simp only [hqx, hqy, JSNum.geq, decide_eq_true_eq]
          exact not_lt.mp hnlt
        · obtain ⟨qz, hqz⟩ := hfin z (List.mem_cons_of_mem _ hz)
          have hyz := hys.1 z hz
          simp only [hqy, hqz, hqx, JSNum.geq, decide_eq_true_eq] at hyz ⊢
          exact le_trans hyz (not_lt.mp hnlt)

/-- Sorting is stable: entries with equal totals keep the order that they had. -/
theorem arraySort_stable (R : ClientGroup → ClientGroup → Prop) (l : List ClientGroup)
    (h : List.Pairwise R l) :
    List.Pairwise (fun a b : ClientGroup => a.total = b.total → R a b)
      (arraySort (fun a b => JSNum.sub b.total a.total) l) := by
  induction l with
  | nil => exact List.Pairwise.nil
  | cons x xs ih =>
    have hx := List.pairwise_cons.mp h
    have ih := ih hx.2
    have hR : ∀ y ∈ arraySort (fun a b : ClientGroup => JSNum.sub b.total a.total) xs, R x y :=
      fun y hy => hx.1 y ((mem_arraySort _ y xs).mp hy)
    unfold arraySort
    generalize arraySort (fun a b : ClientGroup => JSNum.sub b.total a.total) xs = s at ih hR
    induction s with
    | nil => exact List.pairwise_singleton _ _
    | cons y ys ihs =>
      have hys := List.pairwise_cons.mp ih
      unfold insertSorted
      split
      · rename_i hpos
        rw [List.pairwise_cons]
        refine ⟨?_, ihs hys.2 (fun z hz => hR z (List.mem_cons_of_mem _ hz))⟩
        intro z hz
        rcases (mem_insertSorted _ x z ys).mp hz with hz | hz
        · subst hz
          intro heq
          rw [heq, isPositive_sub_self] at hpos
          cases hpos
        · exact hys.1 z hz
      · rw [List.pairwise_cons]
        exact ⟨fun z hz _ => hR z hz, ih⟩

theorem objectValues_clientMapOf_perm (xs : List Invoice) :
    (objectValues (clientMapOf xs)).Perm ((firstKeys xs).map (groupOf xs)) := by
  have h := objectValues_perm (clientMapOf xs)
  have hm : (clientMapOf xs).map (fun e => e.2) = (firstKeys xs).map (groupOf xs) := by
    rw [clientMapOf_eq, List.map_map]
    rfl
  rw [hm] at h
  exact h

theorem mem_objectValues_clientMapOf (xs : List Invoice) (g : ClientGroup) :
    g ∈ objectValues (clientMapOf xs) ↔ ∃ k ∈ firstKeys xs, groupOf xs k = g := by
  rw [(objectValues_clientMapOf_perm xs).mem_iff, List.mem_map]

theorem topClients_sublist (xs : List Invoice) :
    (topClients xs).Sublist
      (arraySort (fun a b : ClientGroup => JSNum.sub b.total a.total)
        (objectValues (clientMapOf xs))) :=
  List.take_sublist _ _

theorem mem_topClients (xs : List Invoice) (r : ClientGroup) (h : r ∈ topClients xs) :
    ∃ k ∈ firstKeys xs, groupOf xs k = r :=
  (mem_objectValues_clientMapOf xs r).mp
    ((mem_arraySort _ r _).mp ((topClients_sublist xs).subset h))

/-- With amounts that are numbers, the ranking is in non-increasing order of
total and has at most five entries; every group of the client map that the
ranking leaves out has a total no greater than that of any ranked entry; and
so has every client of the list whose name `Object.prototype` does not hold,
with the sum over its records as its total. A client whose name
`Object.prototype` holds is outside this result: it has no group. -/
theorem topClients_sorted (xs : List Invoice)
    (hnum : ∀ inv ∈ xs, amountIsNumber inv = true) :
    List.Pairwise (fun a b : ClientGroup => JSNum.geq a.total b.total = true)
      (topClients xs) ∧
    (topClients xs).length ≤ 5 ∧
    (∀ g ∈ objectValues (clientMapOf xs), g ∉ topClients xs →
      ∀ r ∈ topClients xs, JSNum.geq r.total g.total = true) ∧
    (∀ inv ∈ xs, inv.cliente ∉ objectPrototypeKeys →
      inv.cliente ∉ (topClients xs).map (fun g => g.cliente) →
      ∀ r ∈ topClients xs,
        JSNum.geq r.total
          (sumMontos (xs.filter (fun other => other.cliente = inv.cliente))) = true) := by
  have hfin : ∀ g ∈ objectValues (clientMapOf xs), ∃ q : ℚ, g.total = JSNum.fin q := by
    intro g hg
    obtain ⟨k, _, rfl⟩ := (mem_objectValues_clientMapOf xs g).mp hg
    exact groupOf_total_fin xs hnum k
  have hsorted := arraySort_sorted (objectValues (clientMapOf xs)) hfin
  have hleft : ∀ g ∈ objectValues (clientMapOf xs), g ∉ topClients xs →
      ∀ r ∈ topClients xs, JSNum.geq r.total g.total = true := by
    intro g hg hnot r hr
    have hsplit := List.take_append_drop 5
      (arraySort (fun a b : ClientGroup => JSNum.sub b.total a.total)
        (objectValues (clientMapOf xs)))
    rw [← hsplit, List.pairwise_append] at hsorted
    have hgs : g ∈ arraySort (fun a b : ClientGroup => JSNum.sub b.total a.total)
        (objectValues (clientMapOf xs)) := (mem_arraySort _ g _).mpr hg
    rw [← hsplit, List.mem_append] at hgs
    rcases hgs with hgs | hgs
    · exact absurd hgs hnot
    · exact hsorted.2.2 r hr g hgs
  refine ⟨hsorted.sublist (topClients_sublist xs), ?_, hleft, ?_⟩
  · unfold topClients
    rw [List.length_take]
    exact Nat.min_le_left _ _
  · intro inv hinv hproto hout r hr
    have hk : inv.cliente ∈ firstKeys xs :=
      (firstKeys_mem xs inv.cliente).mpr ⟨⟨inv, hinv, rfl⟩, hproto⟩
    have hg : groupOf xs inv.cliente ∈ objectValues (clientMapOf xs) :=
      (mem_objectValues_clientMapOf xs _).mpr ⟨inv.cliente, hk, rfl⟩
    have hnot : groupOf xs inv.cliente ∉ topClients xs := by
      intro hmem
      exact hout (List.mem_map.mpr ⟨_, hmem, rfl⟩)
    exact hleft _ hg hnot r hr

theorem topClients_sorted_witness :
    (∀ inv ∈ scenarioInvoices, amountIsNumber inv = true) ∧
    List.Pairwise (fun a b : ClientGroup => JSNum.geq a.total b.total = true)
      (topClients scenarioInvoices) ∧
    (topClients scenarioInvoices).length ≤ 5 :=
  have h := topClients_sorted scenarioInvoices (by decide)
  ⟨by decide, h.1, h.2.1⟩

/-- C14: every ranked entry is the group of one client name of the list, the
groups are told apart by the exact text of the name, and no two entries have
the same name. The total of an entry is the sum over the records with exactly
that name, its count is their number, `pagado` is the sum over those of them
with the status `pagado` and `pendiente` the sum over the others; with amounts
that are numbers, `pendiente` equals `total - pagado`. -/
theorem topClients_group_totals (xs : List Invoice) :
    ((topClients xs).map (fun g => g.cliente)).Nodup ∧
    ∀ r ∈ topClients xs,
      (∃ inv ∈ xs, inv.cliente = r.cliente) ∧
      r.total = sumMontos (xs.filter (fun inv => inv.cliente = r.cliente)) ∧
      r.count = (xs.filter (fun inv => inv.cliente = r.cliente)).length ∧
      r.pagado = sumMontos ((xs.filter (fun inv => inv.cliente = r.cliente)).filter
        (fun inv => inv.estado = "pagado")) ∧
      r.pendiente = sumMontos ((xs.filter (fun inv => inv.cliente = r.cliente)).filter
        (fun inv => inv.estado ≠ "pagado")) ∧
      ((∀ inv ∈ xs, amountIsNumber inv = true) →
        r.pendiente = JSNum.sub r.total r.pagado) := by
  constructor
  · have hperm := ((arraySort_perm (fun a b : ClientGroup => JSNum.sub b.total a.total)
      (objectValues (clientMapOf xs))).trans (objectValues_clientMapOf_perm xs)).map
      (fun g : ClientGroup => g.cliente)
    have hkeys : ((firstKeys xs).map (groupOf xs)).map (fun g : ClientGroup => g.cliente) =
        firstKeys xs := by
      rw [List.map_map]
      conv_rhs => rw [← List.map_id (firstKeys xs)]
      rfl
    rw [hkeys] at hperm
    have hnodup := hperm.nodup_iff.mpr (firstKeys_nodup xs)
    exact hnodup.sublist ((topClients_sublist xs).map _)
  · intro r hr
    obtain ⟨k, hk, rfl⟩ := mem_topClients xs r hr
    refine ⟨((firstKeys_mem xs k).mp hk).1, rfl, rfl, rfl, rfl, ?_⟩
    intro hnum
    obtain ⟨t, p, n, ht, hp, hn, hsum⟩ :=
      sumMontos_split (xs.filter (fun inv => inv.cliente = k))
        (fun inv hinv => hnum inv (List.mem_filter.mp hinv).1)
    show sumMontos _ = JSNum.sub (sumMontos _) (sumMontos _)
    rw [hn, ht, hp, JSNum.sub_fin, hsum]
    congr 1
    ring

theorem topClients_group_totals_witness :
    (∀ inv ∈ scenarioInvoices, amountIsNumber inv = true) ∧
    (⟨"A", JSNum.fin 150000, 2, JSNum.fin 50000, JSNum.fin 100000⟩ : ClientGroup) ∈
      topClients scenarioInvoices ∧
    (⟨"A", JSNum.fin 150000, 2, JSNum.fin 50000, JSNum.fin 100000⟩ : ClientGroup).pendiente =
      JSNum.sub
        (⟨"A", JSNum.fin 150000, 2, JSNum.fin 50000, JSNum.fin 100000⟩ : ClientGroup).total
        (⟨"A", JSNum.fin 150000, 2, JSNum.fin 50000, JSNum.fin 100000⟩ : ClientGroup).pagado :=
  ⟨by decide, by decide!,
    ((topClients_group_totals scenarioInvoices).2 _ (by decide!)).2.2.2.2.2 (by decide)⟩

theorem firstKeys_pairwise (xs : List Invoice) :
    List.Pairwise (fun a b : String =>
      (xs.map (fun inv => inv.cliente)).indexOf a <
        (xs.map (fun inv => inv.cliente)).indexOf b) (firstKeys xs) := by
  induction xs using List.reverseRecOn with
  | nil => simp [firstKeys]
  | append_singleton pre x ih =>
    have hmemc : ∀ k ∈ firstKeys pre, k ∈ pre.map (fun inv => inv.cliente) := by
      intro k hk
      obtain ⟨inv, hinv, hc⟩ := ((firstKeys_mem pre k).mp hk).1
      exact List.mem_map.mpr ⟨inv, hinv, hc⟩
    have hold : List.Pairwise (fun a b : String =>
        ((pre ++ [x]).map (fun inv => inv.cliente)).indexOf a <
          ((pre ++ [x]).map (fun inv => inv.cliente)).indexOf b) (firstKeys pre) := by
      refine List.Pairwise.imp_of_mem ?_ ih
      intro a b ha hb hab
      rw [List.map_append, List.indexOf_append_of_mem (hmemc a ha),
        List.indexOf_append_of_mem (hmemc b hb)]
      exact hab
    rw [firstKeys_append_singleton]
    split
    · exact hold
    · rename_i hc
      push_neg at hc
      have hnotin : x.cliente ∉ pre.map (fun inv => inv.cliente) := by
        intro h
        obtain ⟨inv, hinv, heq⟩ := List.mem_map.mp h
        exact hc.1 ((firstKeys_mem pre x.cliente).mpr ⟨⟨inv, hinv, heq⟩, hc.2⟩)
      rw [List.pairwise_append]
      refine ⟨hold, List.pairwise_singleton _ _, ?_⟩
      intro a ha b hb
      rw [List.mem_singleton] at hb
      subst hb
      rw [List.map_append, List.indexOf_append_of_mem (hmemc a ha),
        List.indexOf_append_of_not_mem hnotin]
      have := List.indexOf_lt_length.mpr (hmemc a ha)
      omega

/-- C15, as amended: when no client name is an array index, entries of the
ranking with equal totals stand in the order in which their clients first
appear in the list (the amounts being numbers). -/
theorem topClients_ties_first_appearance (xs : List Invoice)
    (hnum : ∀ inv ∈ xs, amountIsNumber inv = true)
    (hidx : ∀ inv ∈ xs, arrayIndexOf inv.cliente = none) :
    TiesKeepFirstAppearance xs := by
  have _ := hnum
  have hvals : objectValues (clientMapOf xs) = (firstKeys xs).map (groupOf xs) := by
    rw [objectValues_of_no_index, clientMapOf_eq, List.map_map]
    · rfl
    · intro e he
      rw [clientMapOf_eq] at he
      obtain ⟨k, hk, rfl⟩ := List.mem_map.mp he
      obtain ⟨inv, hinv, hc⟩ := ((firstKeys_mem xs k).mp hk).1
      exact hc ▸ hidx inv hinv
  have hord : List.Pairwise (fun a b : ClientGroup =>
      (xs.map (fun inv => inv.cliente)).indexOf a.cliente <
        (xs.map (fun inv => inv.cliente)).indexOf b.cliente)
      ((firstKeys xs).map (groupOf xs)) := by
    rw [List.pairwise_map]
    exact firstKeys_pairwise xs
  unfold TiesKeepFirstAppearance
  have hst := arraySort_stable _ _ hord
  rw [← hvals] at hst
  exact hst.sublist (topClients_sublist xs)

theorem topClients_ties_first_appearance_witness :
    (∀ inv ∈ tieInvoices, amountIsNumber inv = true) ∧
    (∀ inv ∈ tieInvoices, arrayIndexOf inv.cliente = none) ∧
    (topClients tieInvoices).map (fun g => (g.cliente, g.total)) =
      [("gamma", JSNum.fin 300), ("beta", JSNum.fin 100), ("alfa", JSNum.fin 100)] ∧
    tieInvoices.map (fun inv => inv.cliente) = ["beta", "alfa", "beta", "gamma"] ∧
    TiesKeepFirstAppearance tieInvoices :=
  ⟨by decide, by decide, by decide!, by decide,
    topClients_ties_first_appearance tieInvoices (by decide) (by decide)⟩

/-- C15 fails as stated: the clients `10` and `2` have equal totals and `10`
appears first, but `Object.values` lists the property `2` before the property
`10`, and so does the ranking. -/
theorem topClients_ties_index_names :
    (topClients indexNameInvoices).map (fun g => (g.cliente, g.total)) =
      [("2", JSNum.fin 100), ("10", JSNum.fin 100)] ∧
    indexNameInvoices.map (fun inv => inv.cliente) = ["10", "2"] ∧
    ¬ TiesKeepFirstAppearance indexNameInvoices := by
  refine ⟨?_, ?_, ?_⟩ <;> decide!

/-! ## The round trip through JSON -/

theorem parseStringLoop_cons (f : Nat) (c : Char) (r : List Char) :
    parseStringLoop (f + 1) (c :: r) =
      if c = '"' then some ([], r)
      else if c = '\\' then
        match parseEscape r with
        | none => none
        | some (x, r2) => (parseStringLoop f r2).map (fun p => (x :: p.1, p.2))
      else if c.toNat < 0x20 then none
      else (parseStringLoop f r).map (fun p => (c :: p.1, p.2)) := rfl

theorem parseValue_succ (f : Nat) (cs : List Char) :
    parseValue (f + 1) cs =
      match skipWs cs with
      | [] => none
      | c :: r =>
        if c = '"' then (parseString r).map (fun p => (Json.str p.1, p.2))
        else if c = '[' then
          match skipWs r with
          | ']' :: r2 => some (Json.arr [], r2)
          | _ => (parseElements f r).map (fun p => (Json.arr p.1, p.2))
        else if c = '{' then
          match skipWs r with
          | '}' :: r2 => some (Json.obj [], r2)
          | _ => (parseMembers f r).map (fun p => (buildObject p.1, p.2))
        else if c = 'n' then
          match r with
          | 'u' :: 'l' :: 'l' :: r2 => some (Json.null, r2)
          | _ => none
        else if c = 't' then
          match r with
          | 'r' :: 'u' :: 'e' :: r2 => some (Json.bool true, r2)
          | _ => none
        else if c = 'f' then
          match r with
          | 'a' :: 'l' :: 's' :: 'e' :: r2 => some (Json.bool false, r2)
          | _ => none
        else parseNumber (c :: r) := by
  rw [parseValue]

theorem parseElements_succ (f : Nat) (cs : List Char) :
    parseElements (f + 1) cs =
      match parseValue f cs with
      | none => none
      | some (v, r) =>
        match skipWs r with
        | ',' :: r2 => (parseElements f r2).map (fun p => (v :: p.1, p.2))
        | ']' :: r2 => some ([v], r2)
        | _ => none := by
  rw [parseElements]

theorem parseMembers_succ (f : Nat) (cs : List Char) :
    parseMembers (f + 1) cs =
      match skipWs cs with
      | '"' :: r =>
        match parseString r with
        | none => none
        | some (name, r1) =>
          match skipWs r1 with
          | ':' :: r2 =>
            match parseValue f r2 with
            | none => none
            | some (v, r3) =>
              match skipWs r3 with
              | ',' :: r4 => (parseMembers f r4).map (fun p => ((name, v) :: p.1, p.2))
              | '}' :: r4 => some ([(name, v)], r4)
              | _ => none
          | _ => none
      | _ => none := by
  rw [parseMembers]

theorem skipWs_length_le (cs : List Char) : (skipWs cs).length ≤ cs.length :=
  (List.dropWhile_sublist _).length_le

theorem parseUnicodeEscape_length (cs : List Char) (x : Char) (r : List Char)
    (h : parseUnicodeEscape cs = some (x, r)) : r.length < cs.length := by
  unfold parseUnicodeEscape at h
  split at h
  · split at h
    · exact absurd h (by simp)
    · split at h
      · split at h
        · split at h
          · split at h
            · exact absurd h (by simp)
            · split at h
              · simp only [Option.some.injEq, Prod.mk.injEq] at h
                obtain ⟨_, rfl⟩ := h
                simp only [List.length_cons]
                omega
              · exact absurd h (by simp)
          · exact absurd h (by simp)
        · exact absurd h (by simp)
      · split at h
        · exact absurd h (by simp)
        · simp only [Option.some.injEq, Prod.mk.injEq] at h
          obtain ⟨_, rfl⟩ := h
          simp only [List.length_cons]
          omega
  · exact absurd h (by simp)

theorem parseEscape_cons (c : Char) (r : List Char) :
    parseEscape (c :: r) =
      if c = '"' then some ('"', r)
      else if c = '\\' then some ('\\', r)
      else if c = '/' then some ('/', r)
      else if c = 'b' then some (Char.ofNat 8, r)
      else if c = 'f' then some (Char.ofNat 12, r)
      else if c = 'n' then some (Char.ofNat 10, r)
      else if c = 'r' then some (Char.ofNat 13, r)
      else if c = 't' then some (Char.ofNat 9, r)
      else if c = 'u' then parseUnicodeEscape r
      else none := rfl

theorem parseEscape_length (cs : List Char) (x : Char) (r : List Char)
    (h : parseEscape cs = some (x, r)) : r.length < cs.length := by
  cases cs with
  | nil => exact absurd h (by simp [parseEscape])
  | cons c r0 =>
    rw [parseEscape_cons] at h
    have key : ∀ y : Char, some (y, r0) = some (x, r) → r.length < (c :: r0).length := by
      intro y hy
      simp only [Option.some.injEq, Prod.mk.injEq] at hy
      obtain ⟨_, rfl⟩ := hy
      simp
    split_ifs at h
    · exact key _ h
    · exact key _ h
    · exact key _ h
    · exact key _ h
    · exact key _ h
    · exact key _ h
    · exact key _ h
    · exact key _ h
    · have := parseUnicodeEscape_length _ _ _ h
      simp only [List.length_cons]
      omega

theorem parseStringLoop_length (f : Nat) : ∀ (cs p r : List Char),
    parseStringLoop f cs = some (p, r) → r.length < cs.length := by
  induction f with
  | zero => intro cs p r h; simp [parseStringLoop] at h
  | succ f ih =>
    intro cs p r h
    cases cs with
    | nil => simp [parseStringLoop] at h
    | cons c cs =>
      rw [parseStringLoop_cons] at h
      split at h
      · simp only [Option.some.injEq, Prod.mk.injEq] at h
        obtain ⟨_, rfl⟩ := h
        simp
      · split at h
        · split at h
          · exact absurd h (by simp)
          · rename_i x r2 he
            have h1 := parseEscape_length _ _ _ he
            cases hl : parseStringLoop f r2 with
            | none => simp [hl] at h
            | some q =>
              obtain ⟨q1, q2⟩ := q
              simp only [hl, Option.map_some', Option.some.injEq, Prod.mk.injEq] at h
              obtain ⟨_, rfl⟩ := h
              have := ih _ _ _ hl
              simp only [List.length_cons]
              omega
        · split at h
          · exact absurd h (by simp)
          · cases hl : parseStringLoop f cs with
            | none => simp [hl] at h
            | some q =>
              obtain ⟨q1, q2⟩ := q
              simp only [hl, Option.map_some', Option.some.injEq, Prod.mk.injEq] at h
              obtain ⟨_, rfl⟩ := h
              have := ih _ _ _ hl
              simp only [List.length_cons]
              omega

theorem parseString_length (cs : List Char) (s : String) (r : List Char)
    (h : parseString cs = some (s, r)) : r.length < cs.length := by
  unfold parseString at h
  cases hl : parseStringLoop cs.length cs with
  | none => simp [hl] at h
  | some q =>
    obtain ⟨q1, q2⟩ := q
    simp only [hl, Option.map_some', Option.some.injEq, Prod.mk.injEq] at h
    obtain ⟨_, rfl⟩ := h
    exact parseStringLoop_length _ _ _ _ hl

theorem dropWhile_length_lt (p : Char → Bool) (l : List Char) (h : l.takeWhile p ≠ []) :
    (l.dropWhile p).length < l.length := by
  have e := List.takeWhile_append_dropWhile p l
  have hl : l.length = (l.takeWhile p).length + (l.dropWhile p).length := by
    conv_lhs => rw [← e]
    rw [List.length_append]
  have : 0 < (l.takeWhile p).length := List.length_pos.mpr h
  omega

theorem dropWhile_length_le (p : Char → Bool) (l : List Char) :
    (l.dropWhile p).length ≤ l.length :=
  (List.dropWhile_sublist _).length_le

theorem parseFraction_length (cs fd r : List Char) (h : parseFraction cs = some (fd, r)) :
    r.length ≤ cs.length := by
  unfold parseFraction at h
  split at h
  · split at h
    · exact absurd h (by simp)
    · simp only [Option.some.injEq, Prod.mk.injEq] at h
      obtain ⟨_, rfl⟩ := h
      have := dropWhile_length_le isAsciiDigit ‹List Char›
      simp only [List.length_cons]
      omega
  · simp only [Option.some.injEq, Prod.mk.injEq] at h
    obtain ⟨_, rfl⟩ := h
    exact le_refl _

theorem dropSign_length_le (r : List Char) : (dropSign r).length ≤ r.length := by
  unfold dropSign
  split <;> simp

theorem parseExponent_length (cs : List Char) (e : Int) (r : List Char)
    (h : parseExponent cs = some (e, r)) : r.length ≤ cs.length := by
  unfold parseExponent at h
  split at h
  · simp only [Option.some.injEq, Prod.mk.injEq] at h
    obtain ⟨_, rfl⟩ := h
    exact le_refl _
  · rename_i c r0
    split at h
    · split at h
      · exact absurd h (by simp)
      · simp only [Option.some.injEq, Prod.mk.injEq] at h
        obtain ⟨_, rfl⟩ := h
        have h1 := dropWhile_length_le isAsciiDigit (dropSign r0)
        have h2 := dropSign_length_le r0
        simp only [List.length_cons]
        omega
    · simp only [Option.some.injEq, Prod.mk.injEq] at h
      obtain ⟨_, rfl⟩ := h
      exact le_refl _

theorem parseUnsigned_length (negative : Bool) (cs : List Char) (v : Json) (r : List Char)
    (h : parseUnsigned negative cs = some (v, r)) : r.length < cs.length := by
  unfold parseUnsigned at h
  simp only at h
  split at h
  · exact absurd h (by simp)
  · rename_i hd
    push_neg at hd
    have h1 := dropWhile_length_lt isAsciiDigit cs hd.1
    split at h
    · exact absurd h (by simp)
    · rename_i fd s2 hf
      have h2 := parseFraction_length _ _ _ hf
      split at h
      · exact absurd h (by simp)
      · rename_i e s3 he
        have h3 := parseExponent_length _ _ _ he
        simp only [Option.some.injEq, Prod.mk.injEq] at h
        obtain ⟨_, rfl⟩ := h
        omega

theorem parseNumber_length (cs : List Char) (v : Json) (r : List Char)
    (h : parseNumber cs = some (v, r)) : r.length < cs.length := by
  unfold parseNumber at h
  split at h
  · have := parseUnsigned_length _ _ _ _ h
    simp only [List.length_cons]
    omega
  · exact parseUnsigned_length _ _ _ _ h

theorem skipWs_cons_length (cs : List Char) (c : Char) (r : List Char)
    (h : skipWs cs = c :: r) : r.length + 1 ≤ cs.length := by
  have := skipWs_length_le cs
  rw [h] at this
  simpa using this

theorem parseValue_zero (cs : List Char) : parseValue 0 cs = none := by
  rw [parseValue]

theorem parseElements_zero (cs : List Char) : parseElements 0 cs = none := by
  rw [parseElements]

theorem parseMembers_zero (cs : List Char) : parseMembers 0 cs = none := by
  rw [parseMembers]

/-- Fuel twice the number of characters consumed is enough for a value, one
more for the elements of an array and for the members of an object; and each
of them consumes a character. -/
theorem parse_fuel (f : Nat) :
    (∀ cs v r, parseValue f cs = some (v, r) → r.length < cs.length ∧
      ∀ g, 2 * (cs.length - r.length) ≤ g → parseValue g cs = some (v, r)) ∧
    (∀ cs vs r, parseElements f cs = some (vs, r) → r.length < cs.length ∧
      ∀ g, 2 * (cs.length - r.length) + 1 ≤ g → parseElements g cs = some (vs, r)) ∧
    (∀ cs ms r, parseMembers f cs = some (ms, r) → r.length < cs.length ∧
      ∀ g, 2 * (cs.length - r.length) + 1 ≤ g → parseMembers g cs = some (ms, r)) := by
  induction f with
  | zero =>
    refine ⟨?_, ?_, ?_⟩
    · intro cs v r h; rw [parseValue_zero] at h; exact absurd h (by simp)
    · intro cs v r h; rw [parseElements_zero] at h; exact absurd h (by simp)
    · intro cs v r h; rw [parseMembers_zero] at h; exact absurd h (by simp)
  | succ f ih =>
    obtain ⟨ihV, ihE, ihM⟩ := ih
    refine ⟨?_, ?_, ?_⟩
    · -- values
      intro cs v r h
      rw [parseValue_succ] at h
      cases hs : skipWs cs with
      | nil => rw [hs] at h; exact absurd h (by simp)
      | cons c r0 =>
        rw [hs] at h
        have hlen := skipWs_cons_length cs c r0 hs
        simp only at h
        have hcons : r.length < cs.length := by
          split_ifs at h with h1 h2 h3 h4 h5 h6
          · obtain ⟨a, ha, hF⟩ := Option.map_eq_some'.mp h
            obtain ⟨a1, a2⟩ := a
            simp only [Prod.mk.injEq] at hF
            obtain ⟨_, rfl⟩ := hF
            have := parseString_length _ _ _ ha
            omega
          · split at h
            · rename_i r2 heq
              simp only [Option.some.injEq, Prod.mk.injEq] at h
              obtain ⟨_, rfl⟩ := h
              have := skipWs_cons_length _ _ _ heq
              omega
            · obtain ⟨a, ha, hF⟩ := Option.map_eq_some'.mp h
              obtain ⟨a1, a2⟩ := a
              simp only [Prod.mk.injEq] at hF
              obtain ⟨_, rfl⟩ := hF
              have := (ihE _ _ _ ha).1
              omega
          · split at h
            · rename_i r2 heq
              simp only [Option.some.injEq, Prod.mk.injEq] at h
              obtain ⟨_, rfl⟩ := h
              have := skipWs_cons_length _ _ _ heq
              omega
            · obtain ⟨a, ha, hF⟩ := Option.map_eq_some'.mp h
              obtain ⟨a1, a2⟩ := a
              simp only [Prod.mk.injEq] at hF
              obtain ⟨_, rfl⟩ := hF
              have := (ihM _ _ _ ha).1
              omega
          · split at h
            · simp only [Option.some.injEq, Prod.mk.injEq] at h
              obtain ⟨_, rfl⟩ := h
              simp only [List.length_cons] at hlen
              omega
            · exact absurd h (by simp)
          · split at h
            · simp only [Option.some.injEq, Prod.mk.injEq] at h
              obtain ⟨_, rfl⟩ := h
              simp only [List.length_cons] at hlen
              omega
            · exact absurd h (by simp)
          · split at h
            · simp only [Option.some.injEq, Prod.mk.injEq] at h
              obtain ⟨_, rfl⟩ := h
              simp only [List.length_cons] at hlen
              omega
            · exact absurd h (by simp)
          · have := parseNumber_length _ _ _ h
            simp only [List.length_cons] at this
            omega
        refine ⟨hcons, ?_⟩
        intro g hg
        obtain ⟨g1, rfl⟩ : ∃ g1, g = g1 + 1 := ⟨g - 1, by omega⟩
        rw [parseValue_succ, hs]
        simp only
        split_ifs at h ⊢ with h1 h2 h3 h4 h5 h6
        · exact h
        · split at h
          · exact h
          · rename_i hne
            obtain ⟨a, ha, hF⟩ := Option.map_eq_some'.mp h
            obtain ⟨a1, a2⟩ := a
            simp only [Prod.mk.injEq] at hF
            obtain ⟨rfl, rfl⟩ := hF
            have hE := ihE _ _ _ ha
            have hg1 : parseElements g1 r0 = some (a1, a2) := hE.2 g1 (by omega)
            rw [hg1]
            rfl
        · split at h
          · exact h
          · rename_i hne
            obtain ⟨a, ha, hF⟩ := Option.map_eq_some'.mp h
            obtain ⟨a1, a2⟩ := a
            simp only [Prod.mk.injEq] at hF
            obtain ⟨rfl, rfl⟩ := hF
            have hM := ihM _ _ _ ha
            have hg1 : parseMembers g1 r0 = some (a1, a2) := hM.2 g1 (by omega)
            rw [hg1]
            rfl
        · exact h
        · exact h
        · exact h
        · exact h
    · -- elements
      intro cs vs r h
      rw [parseElements_succ] at h
      cases hv : parseValue f cs with
      | none => rw [hv] at h; exact absurd h (by simp)
      | some p =>
        obtain ⟨v, r1⟩ := p
        rw [hv] at h
        simp only at h
        obtain ⟨hv1, hv2⟩ := ihV _ _ _ hv
        split at h
        · rename_i r2 heq
          obtain ⟨a, ha, hF⟩ := Option.map_eq_some'.mp h
          obtain ⟨a1, a2⟩ := a
          simp only [Prod.mk.injEq] at hF
          obtain ⟨rfl, rfl⟩ := hF
          obtain ⟨he1, he2⟩ := ihE _ _ _ ha
          have hl := skipWs_cons_length _ _ _ heq
          refine ⟨by omega, ?_⟩
          intro g hg
          obtain ⟨g1, rfl⟩ : ∃ g1, g = g1 + 1 := ⟨g - 1, by omega⟩
          rw [parseElements_succ, hv2 g1 (by omega)]
          simp only [heq]
          rw [he2 g1 (by omega)]
          rfl
        · rename_i r2 heq
          simp only [Option.some.injEq, Prod.mk.injEq] at h
          obtain ⟨rfl, rfl⟩ := h
          have hl := skipWs_cons_length _ _ _ heq
          refine ⟨by omega, ?_⟩
          intro g hg
          obtain ⟨g1, rfl⟩ : ∃ g1, g = g1 + 1 := ⟨g - 1, by omega⟩
          rw [parseElements_succ, hv2 g1 (by omega)]
          simp only [heq]
        · exact absurd h (by simp)
    · -- members
      intro cs ms r h
      rw [parseMembers_succ] at h
      split at h
      · rename_i r0 hs
        have hl0 := skipWs_cons_length _ _ _ hs
        split at h
        · exact absurd h (by simp)
        · rename_i name r1 hname
          have hl1 := parseString_length _ _ _ hname
          split at h
          · rename_i r2 hs2
            have hl2 := skipWs_cons_length _ _ _ hs2
            split at h
            · exact absurd h (by simp)
            · rename_i v r3 hv
              obtain ⟨hv1, hv2⟩ := ihV _ _ _ hv
              split at h
              · rename_i r4 hs4
                have hl4 := skipWs_cons_length _ _ _ hs4
                obtain ⟨a, ha, hF⟩ := Option.map_eq_some'.mp h
                obtain ⟨a1, a2⟩ := a
                simp only [Prod.mk.injEq] at hF
                obtain ⟨rfl, rfl⟩ := hF
                obtain ⟨hm1, hm2⟩ := ihM _ _ _ ha
                refine ⟨by omega, ?_⟩
                intro g hg
                obtain ⟨g1, rfl⟩ : ∃ g1, g = g1 + 1 := ⟨g - 1, by omega⟩
                rw [parseMembers_succ]
                simp only [hs, hname, hs2, hv2 g1 (by omega), hs4]
                rw [hm2 g1 (by omega)]
                rfl
              · rename_i r4 hs4
                have hl4 := skipWs_cons_length _ _ _ hs4
                simp only [Option.some.injEq, Prod.mk.injEq] at h
                obtain ⟨rfl, rfl⟩ := h
                refine ⟨by omega, ?_⟩
                intro g hg
                obtain ⟨g1, rfl⟩ : ∃ g1, g = g1 + 1 := ⟨g - 1, by omega⟩
                rw [parseMembers_succ]
                simp only [hs, hname, hs2, hv2 g1 (by omega), hs4]
              · exact absurd h (by simp)
          · exact absurd h (by simp)
      · exact absurd h (by simp)

/-- The fuel of `JSON.parse` is enough for every text: when `parseValue` reads
a value with some fuel, it reads the same value with the fuel that
`JSON.parse` gives it. -/
theorem parseValue_fuel_enough (f : Nat) (text : String) (v : Json) (r : List Char)
    (h : parseValue f text.toList = some (v, r)) :
    parseValue (2 * text.length + 2) text.toList = some (v, r) := by
  have h1 := ((parse_fuel f).1 _ _ _ h).2 (2 * text.length + 2)
  apply h1
  have : text.toList.length = text.length := rfl
  omega

end Facturas
